import Mathlib

/-!
Verification of the multi-modal routing engine of the Travel website backend.

The definitions below are a shallow embedding of
`backend/app/algorithms/shortest_path.py`, `backend/app/algorithms/tsp.py`
and the reachability solver in `backend/app/services/routing.py`.
Python floats are modelled by `ℚ`, Python dicts keyed by node id by
functions into `Option`, the `heapq` priority queue by a list together
with a minimum-extraction function (`heapq` always pops a least element
under tuple lexicographic order, and entries carry a unique insertion
counter, so the least element is unique and the heap layout is not
observable), and raised exceptions by `Except`.
-/

namespace Travel

/-- Weighting strategies for shortest path queries (`WeightStrategy`). -/
inductive WeightStrategy where
  | distance : WeightStrategy
  | time : WeightStrategy
deriving DecidableEq, Repr

/-- Directed edge in the transport graph (`Edge` dataclass fields). -/
structure Edge where
  source : String
  target : String
  distance : ℚ
  ideal_speed : ℚ
  congestion : ℚ
  transport_modes : List String
deriving DecidableEq, Repr

/-- Actual travel time along the edge considering congestion
(`Edge.travel_time`): `distance / (ideal_speed * congestion)`. -/
def Edge.travel_time (e : Edge) : ℚ :=
  e.distance / (e.ideal_speed * e.congestion)

/-- What `Edge.__post_init__` guarantees about every constructed edge value:
nonnegative distance, positive speed and congestion, nonempty mode list.
Every `Edge` value a Python solver can receive satisfies this. -/
def Edge.Valid (e : Edge) : Prop :=
  0 ≤ e.distance ∧ 0 < e.ideal_speed ∧ 0 < e.congestion ∧ e.transport_modes ≠ []

instance (e : Edge) : Decidable e.Valid := by
  unfold Edge.Valid; infer_instance

/-- Per-character lowercasing, a structurally recursive model of Python's
`str.lower` on mode tags (`String.toLower` maps `Char.toLower` over the
characters; this definition does the same over the underlying list). -/
def lowerString (s : String) : String :=
  ⟨s.data.map Char.toLower⟩

/-- Mode normalisation performed by `Edge.__post_init__`: drop falsy (empty)
strings, lower-case the rest. -/
def post_init_modes (modes : List String) : List String :=
  (modes.filter (fun m => m ≠ "")).map (fun m => lowerString m)

/-- Construction of an `Edge` (`Edge.__init__` + `Edge.__post_init__`):
validation happens at construction time and raises `ValueError`. -/
def mkEdge (source target : String) (distance ideal_speed congestion : ℚ)
    (transport_modes : List String) : Except String Edge :=
  if (post_init_modes transport_modes).isEmpty then
    .error "transport_modes must contain at least one mode"
  else if distance < 0 then .error "distance must be non-negative"
  else if ideal_speed ≤ 0 then .error "ideal_speed must be positive"
  else if congestion ≤ 0 then .error "congestion must be positive"
  else .ok { source := source, target := target, distance := distance,
             ideal_speed := ideal_speed, congestion := congestion,
             transport_modes := post_init_modes transport_modes }

/-- Single hop within a computed route (`PathSegment`). -/
structure PathSegment where
  source : String
  target : String
  transport_mode : String
  distance : ℚ
  time : ℚ
deriving DecidableEq, Repr

/-- Aggregate result of a shortest path computation (`PathResult`). -/
structure PathResult where
  nodes : List String
  segments : List PathSegment
  total_distance : ℚ
  total_time : ℚ
deriving DecidableEq, Repr

instance {e a : Type} [DecidableEq e] [DecidableEq a] :
    DecidableEq (Except e a) := fun x y =>
  match x, y with
  | .error x1, .error y1 =>
    if h : x1 = y1 then .isTrue (by rw [h]) else
      .isFalse (by intro hc; cases hc; exact h rfl)
  | .error _, .ok _ => .isFalse (by intro hc; cases hc)
  | .ok _, .error _ => .isFalse (by intro hc; cases hc)
  | .ok x1, .ok y1 =>
    if h : x1 = y1 then .isTrue (by rw [h]) else
      .isFalse (by intro hc; cases hc; exact h rfl)

/-- Errors raised by `shortest_path`: the defensive negative-weight check and
the two "No path found from start to goal" raises. -/
inductive SPError where
  | negWeight : SPError
  | noPath : String → String → SPError
deriving DecidableEq, Repr

/-- Ordered insertion, used to model Python's `sorted`. -/
def insertSorted (x : String) : List String → List String
  | [] => [x]
  | y :: ys => if x ≤ y then x :: y :: ys else y :: insertSorted x ys

/-- Insertion sort on strings; on the distinct elements of a Python set it
produces exactly the ascending order `sorted` returns. -/
def sortStrings : List String → List String
  | [] => []
  | x :: xs => insertSorted x (sortStrings xs)

/-- Normalisation of the `allowed_modes` argument (`_normalise_modes`):
drop falsy strings, lower-case, deduplicate, sort; an empty result is
collapsed to `None` (no filter). A caller passing a single string is modelled
as passing the one-element list. -/
def normalise_modes (modes : Option (List String)) : Option (List String) :=
  match modes with
  | none => none
  | some l =>
    let n :=
      sortStrings (((l.filter (fun m => m ≠ "")).map (fun m => lowerString m)).dedup)
    if n.isEmpty then none else some n

/-- Mode selection for one edge (`_select_mode`): with no filter, the edge's
first declared mode; otherwise the first of the edge's modes in the allowed
set, `none` meaning the edge is skipped entirely. -/
def select_mode (e : Edge) (allowed : Option (List String)) : Option String :=
  match allowed with
  | none => e.transport_modes.head?
  | some l => e.transport_modes.find? (fun m => l.contains m)

/-- Scalar driven by the strategy: `new_distance if strategy is DISTANCE
else new_time`. -/
def costSel (strategy : WeightStrategy) (d t : ℚ) : ℚ :=
  match strategy with
  | .distance => d
  | .time => t

/-- Entry of the priority queue: the tuple `(cost, insertion order, node)`
pushed onto the heap. -/
structure QE where
  cost : ℚ
  order : ℕ
  node : String
deriving DecidableEq, Repr

/-- Python tuple comparison on queue entries: lexicographic on
(cost, order, node). -/
def qeLe (a b : QE) : Bool :=
  if a.cost < b.cost then true
  else if b.cost < a.cost then false
  else if a.order < b.order then true
  else if b.order < a.order then false
  else a.node ≤ b.node

/-- Extraction of a least element from a list, used to model `heappop`:
returns the first least entry and the remaining entries. -/
def popMinBy {α : Type} (le : α → α → Bool) : List α → Option (α × List α)
  | [] => none
  | e :: es =>
    match popMinBy le es with
    | none => some (e, [])
    | some (m, rest) => if le e m then some (e, es) else some (m, e :: rest)

/-- Mutable state of the Dijkstra loop in `shortest_path`. -/
structure DState where
  queue : List QE
  counter : ℕ
  bestCost : String → Option ℚ
  bestDistance : String → Option ℚ
  bestTime : String → Option ℚ
  previous : String → Option (String × Edge × String)
  visited : List String

/-- Pointwise update of a dict modelled as a function. -/
def upd {α : Type} (f : String → Option α) (k : String) (v : α) :
    String → Option α :=
  fun x => if x = k then some v else f x

/-- Adjacency list of a node: edges with this source, in insertion order
(the dict of lists built at the top of `shortest_path`). -/
def adjacency (edges : List Edge) (node : String) : List Edge :=
  edges.filter (fun e => e.source == node)

/-- The relaxation test `new_cost < best_cost.get(edge.target, inf)`. -/
def improves (old : Option ℚ) (nc : ℚ) : Bool :=
  match old with
  | none => true
  | some c => decide (nc < c)

/-- The new distance accumulated through `node` along edge `e`
(`new_distance = best_distance[node] + segment_distance`; the key is always
present when the loop runs, `getD 0` is the value of the total function
modelling the dict elsewhere). -/
def newDist (s : DState) (node : String) (e : Edge) : ℚ :=
  (s.bestDistance node).getD 0 + e.distance

/-- The new time accumulated through `node` along edge `e`. -/
def newTime (s : DState) (node : String) (e : Edge) : ℚ :=
  (s.bestTime node).getD 0 + e.travel_time

/-- The state after the four dict writes and the `heappush` performed when an
edge relaxation improves `best_cost[edge.target]`. -/
def relaxUpd (strategy : WeightStrategy) (s : DState) (node : String)
    (e : Edge) (mode : String) : DState :=
  let nd := newDist s node e
  let nt := newTime s node e
  let nc := costSel strategy nd nt
  { queue := s.queue ++ [⟨nc, s.counter, e.target⟩]
    counter := s.counter + 1
    bestCost := upd s.bestCost e.target nc
    bestDistance := upd s.bestDistance e.target nd
    bestTime := upd s.bestTime e.target nt
    previous := upd s.previous e.target (node, e, mode)
    visited := s.visited }

/-- Body of the `for edge in adjacency.get(node, [])` relaxation loop of
`shortest_path`, processing the given edges in order. -/
def relaxEdges (strategy : WeightStrategy) (allowed : Option (List String))
    (node : String) : List Edge → DState → Except SPError DState
  | [], s => .ok s
  | e :: rest, s =>
    match select_mode e allowed with
    | none => relaxEdges strategy allowed node rest s
    | some mode =>
      if e.distance < 0 ∨ e.travel_time < 0 then .error .negWeight
      else
        if improves (s.bestCost e.target)
            (costSel strategy (newDist s node e) (newTime s node e)) then
          relaxEdges strategy allowed node rest (relaxUpd strategy s node e mode)
        else relaxEdges strategy allowed node rest s

theorem relaxEdges_nil (strategy : WeightStrategy)
    (allowed : Option (List String)) (node : String) (s : DState) :
    relaxEdges strategy allowed node [] s = .ok s := rfl

theorem relaxEdges_cons_skip (strategy : WeightStrategy)
    (allowed : Option (List String)) (node : String) (e : Edge)
    (rest : List Edge) (s : DState) (hm : select_mode e allowed = none) :
    relaxEdges strategy allowed node (e :: rest) s =
      relaxEdges strategy allowed node rest s := by
  conv_lhs => rw [relaxEdges]
  rw [hm]

theorem relaxEdges_cons_neg (strategy : WeightStrategy)
    (allowed : Option (List String)) (node : String) (e : Edge) (mode : String)
    (rest : List Edge) (s : DState) (hm : select_mode e allowed = some mode)
    (hneg : e.distance < 0 ∨ e.travel_time < 0) :
    relaxEdges strategy allowed node (e :: rest) s = .error .negWeight := by
  conv_lhs => rw [relaxEdges]
  rw [hm]
  simp only [if_pos hneg]

theorem relaxEdges_cons_improve (strategy : WeightStrategy)
    (allowed : Option (List String)) (node : String) (e : Edge) (mode : String)
    (rest : List Edge) (s : DState) (hm : select_mode e allowed = some mode)
    (hneg : ¬(e.distance < 0 ∨ e.travel_time < 0))
    (himp : improves (s.bestCost e.target)
      (costSel strategy (newDist s node e) (newTime s node e)) = true) :
    relaxEdges strategy allowed node (e :: rest) s =
      relaxEdges strategy allowed node rest (relaxUpd strategy s node e mode) := by
  conv_lhs => rw [relaxEdges]
  rw [hm]
  simp only [if_neg hneg, if_pos himp]

theorem relaxEdges_cons_noimprove (strategy : WeightStrategy)
    (allowed : Option (List String)) (node : String) (e : Edge) (mode : String)
    (rest : List Edge) (s : DState) (hm : select_mode e allowed = some mode)
    (hneg : ¬(e.distance < 0 ∨ e.travel_time < 0))
    (himp : ¬(improves (s.bestCost e.target)
      (costSel strategy (newDist s node e) (newTime s node e)) = true)) :
    relaxEdges strategy allowed node (e :: rest) s =
      relaxEdges strategy allowed node rest s := by
  conv_lhs => rw [relaxEdges]
  rw [hm]
  simp only [if_neg hneg, if_neg himp]

/-- Case analysis principle for one step of the relaxation loop. -/
theorem relaxEdges_cases (strategy : WeightStrategy)
    (allowed : Option (List String)) (node : String) (e : Edge)
    (rest : List Edge) (s : DState) :
    (select_mode e allowed = none ∧
      relaxEdges strategy allowed node (e :: rest) s =
        relaxEdges strategy allowed node rest s) ∨
    (∃ mode, select_mode e allowed = some mode ∧
      (e.distance < 0 ∨ e.travel_time < 0) ∧
      relaxEdges strategy allowed node (e :: rest) s = .error .negWeight) ∨
    (∃ mode, select_mode e allowed = some mode ∧
      ¬(e.distance < 0 ∨ e.travel_time < 0) ∧
      improves (s.bestCost e.target)
        (costSel strategy (newDist s node e) (newTime s node e)) = true ∧
      relaxEdges strategy allowed node (e :: rest) s =
        relaxEdges strategy allowed node rest (relaxUpd strategy s node e mode)) ∨
    (∃ mode, select_mode e allowed = some mode ∧
      ¬(e.distance < 0 ∨ e.travel_time < 0) ∧
      ¬(improves (s.bestCost e.target)
        (costSel strategy (newDist s node e) (newTime s node e)) = true) ∧
      relaxEdges strategy allowed node (e :: rest) s =
        relaxEdges strategy allowed node rest s) := by
  cases hm : select_mode e allowed with
  | none => exact .inl ⟨rfl, relaxEdges_cons_skip _ _ _ _ _ _ hm⟩
  | some mode =>
    by_cases hneg : e.distance < 0 ∨ e.travel_time < 0
    · exact .inr (.inl ⟨mode, rfl, hneg, relaxEdges_cons_neg _ _ _ _ _ _ _ hm hneg⟩)
    · by_cases himp : improves (s.bestCost e.target)
        (costSel strategy (newDist s node e) (newTime s node e)) = true
      · exact .inr (.inr (.inl ⟨mode, rfl, hneg, himp,
          relaxEdges_cons_improve _ _ _ _ _ _ _ hm hneg himp⟩))
      · exact .inr (.inr (.inr ⟨mode, rfl, hneg, himp,
          relaxEdges_cons_noimprove _ _ _ _ _ _ _ hm hneg himp⟩))

theorem relaxEdges_visited (strategy : WeightStrategy)
    (allowed : Option (List String)) (node : String) :
    ∀ (l : List Edge) (s s3 : DState),
    relaxEdges strategy allowed node l s = .ok s3 → s3.visited = s.visited := by
  intro l
  induction l with
  | nil => intro s s3 h; cases h; rfl
  | cons e rest ih =>
    intro s s3 h
    rcases relaxEdges_cases strategy allowed node e rest s with
      ⟨-, heq⟩ | ⟨mode, -, -, heq⟩ | ⟨mode, -, -, -, heq⟩ | ⟨mode, -, -, -, heq⟩
    · rw [heq] at h; exact ih s s3 h
    · rw [heq] at h; cases h
    · rw [heq] at h
      have := ih _ s3 h
      simpa [relaxUpd] using this
    · rw [heq] at h; exact ih s s3 h

theorem relaxEdges_queue_len (strategy : WeightStrategy)
    (allowed : Option (List String)) (node : String) :
    ∀ (l : List Edge) (s s3 : DState),
    relaxEdges strategy allowed node l s = .ok s3 →
    s3.queue.length ≤ s.queue.length + l.length := by
  intro l
  induction l with
  | nil => intro s s3 h; cases h; simp
  | cons e rest ih =>
    intro s s3 h
    rcases relaxEdges_cases strategy allowed node e rest s with
      ⟨-, heq⟩ | ⟨mode, -, -, heq⟩ | ⟨mode, -, -, -, heq⟩ | ⟨mode, -, -, -, heq⟩
    · rw [heq] at h
      have := ih s s3 h
      simp only [List.length_cons]; omega
    · rw [heq] at h; cases h
    · rw [heq] at h
      have := ih _ s3 h
      simp only [relaxUpd, List.length_append, List.length_cons,
        List.length_nil] at this
      simp only [List.length_cons]
      omega
    · rw [heq] at h
      have := ih s s3 h
      simp only [List.length_cons]; omega

theorem qeLe_iff (a b : QE) : qeLe a b = true ↔
    a.cost < b.cost ∨ (a.cost = b.cost ∧
      (a.order < b.order ∨ (a.order = b.order ∧ a.node ≤ b.node))) := by
  unfold qeLe
  split_ifs with h1 h2 h3 h4
  · simp [h1]
  · simp only [Bool.false_eq_true, false_iff]
    rintro (h | ⟨he, -⟩)
    · exact h1 h
    · exact absurd h2 (by rw [he]; exact lt_irrefl _)
  · have hc : a.cost = b.cost := le_antisymm (not_lt.mp h2) (not_lt.mp h1)
    simp [hc, h3]
  · have hc : a.cost = b.cost := le_antisymm (not_lt.mp h2) (not_lt.mp h1)
    simp only [Bool.false_eq_true, false_iff]
    rintro (h | ⟨-, h | ⟨he, -⟩⟩)
    · exact absurd h (by rw [hc]; exact lt_irrefl _)
    · omega
    · omega
  · have hc : a.cost = b.cost := le_antisymm (not_lt.mp h2) (not_lt.mp h1)
    have ho : a.order = b.order := le_antisymm (not_lt.mp h4) (not_lt.mp h3)
    simp [hc, ho]

theorem qeLe_total (a b : QE) : qeLe a b = true ∨ qeLe b a = true := by
  rw [qeLe_iff, qeLe_iff]
  rcases lt_trichotomy a.cost b.cost with h | h | h
  · exact .inl (.inl h)
  · rcases lt_trichotomy a.order b.order with h2 | h2 | h2
    · exact .inl (.inr ⟨h, .inl h2⟩)
    · rcases le_total a.node b.node with h3 | h3
      · exact .inl (.inr ⟨h, .inr ⟨h2, h3⟩⟩)
      · exact .inr (.inr ⟨h.symm, .inr ⟨h2.symm, h3⟩⟩)
    · exact .inr (.inr ⟨h.symm, .inl h2⟩)
  · exact .inr (.inl h)

theorem qeLe_trans (a b c : QE) (hab : qeLe a b = true) (hbc : qeLe b c = true) :
    qeLe a c = true := by
  rw [qeLe_iff] at hab hbc ⊢
  rcases hab with h1 | ⟨he1, h1⟩
  · rcases hbc with h2 | ⟨he2, -⟩
    · exact .inl (h1.trans h2)
    · exact .inl (he2 ▸ h1)
  · rcases hbc with h2 | ⟨he2, h2⟩
    · exact .inl (he1 ▸ h2)
    · refine .inr ⟨he1.trans he2, ?_⟩
      rcases h1 with h1 | ⟨ho1, hn1⟩
      · rcases h2 with h2 | ⟨ho2, -⟩
        · exact .inl (h1.trans h2)
        · exact .inl (ho2 ▸ h1)
      · rcases h2 with h2 | ⟨ho2, hn2⟩
        · exact .inl (ho1 ▸ h2)
        · exact .inr ⟨ho1.trans ho2, hn1.trans hn2⟩

theorem popMinBy_none {α : Type} (le : α → α → Bool) (l : List α) :
    popMinBy le l = none ↔ l = [] := by
  cases l with
  | nil => simp [popMinBy]
  | cons e es =>
    simp only [popMinBy]
    constructor
    · intro h
      cases hr : popMinBy le es with
      | none => rw [hr] at h; cases h
      | some p => rw [hr] at h; cases p with | mk m rest => ?_
                  by_cases hle : le e m <;> simp [hle] at h
    · intro h; cases h

theorem popMinBy_perm {α : Type} (le : α → α → Bool) :
    ∀ (l : List α) (e : α) (rest : List α),
    popMinBy le l = some (e, rest) → l.Perm (e :: rest) := by
  intro l
  induction l with
  | nil => intro e rest h; cases h
  | cons a es ih =>
    intro e rest h
    simp only [popMinBy] at h
    cases hr : popMinBy le es with
    | none =>
      rw [hr] at h
      cases h
      have : es = [] := (popMinBy_none le es).mp hr
      subst this
      rfl
    | some p =>
      rw [hr] at h
      obtain ⟨m, r⟩ := p
      by_cases hle : le a m
      · simp only [hle, if_true] at h
        cases h
        rfl
      · simp only [hle, if_false, Bool.false_eq_true] at h
        cases h
        have hperm := ih e r hr
        exact (hperm.cons a).trans (List.Perm.swap e a r)

theorem popMinBy_min {α : Type} (le : α → α → Bool)
    (htot : ∀ a b, le a b = true ∨ le b a = true)
    (htrans : ∀ a b c, le a b = true → le b c = true → le a c = true) :
    ∀ (l : List α) (e : α) (rest : List α),
    popMinBy le l = some (e, rest) → ∀ x ∈ l, le e x = true := by
  intro l
  induction l with
  | nil => intro e rest h; cases h
  | cons a es ih =>
    intro e rest h x hx
    simp only [popMinBy] at h
    cases hr : popMinBy le es with
    | none =>
      rw [hr] at h
      cases h
      have : es = [] := (popMinBy_none le es).mp hr
      subst this
      rcases List.mem_singleton.mp hx with rfl
      rcases htot x x with h' | h' <;> exact h'
    | some p =>
      rw [hr] at h
      obtain ⟨m, r⟩ := p
      by_cases hle : le a m
      · simp only [hle, if_true] at h
        cases h
        rcases List.mem_cons.mp hx with rfl | hx'
        · rcases htot x x with h' | h' <;> exact h'
        · exact htrans _ _ _ hle (ih m r hr x hx')
      · simp only [hle, if_false, Bool.false_eq_true] at h
        cases h
        rcases List.mem_cons.mp hx with rfl | hx'
        · rcases htot e x with h' | h'
          · exact h'
          · exact absurd h' hle
        · exact ih e r hr x hx'

theorem popMinBy_length {α : Type} (le : α → α → Bool) (l : List α) (e : α)
    (rest : List α) (h : popMinBy le l = some (e, rest)) :
    l.length = rest.length + 1 := by
  have := (popMinBy_perm le l e rest h).length_eq
  simpa using this

/-- The heap pop of `shortest_path`: least entry under the Python tuple
order (cost, insertion order, node). -/
def popMin (q : List QE) : Option (QE × List QE) :=
  popMinBy qeLe q

/-- Sources of the edge list; used only as a termination measure. -/
def spSources (edges : List Edge) : List String :=
  edges.map (fun e => e.source)

/-- Termination measure for the Dijkstra loop: every expansion either visits
a new source node (paying for at most one push per out-edge) or shortens the
queue. -/
def loopMeasure (edges : List Edge) (s : DState) : ℕ :=
  ((spSources edges).filter (fun v => !(s.visited.contains v))).length *
    (edges.length + 1) + s.queue.length

theorem adjacency_nil_of_not_source (edges : List Edge) (node : String)
    (h : node ∉ spSources edges) : adjacency edges node = [] := by
  unfold adjacency
  rw [List.filter_eq_nil_iff]
  intro e he
  simp only [beq_iff_eq]
  intro hsrc
  exact h (by simpa [spSources, hsrc] using List.mem_map_of_mem (fun e => e.source) he)

theorem filter_not_visited_cons_le (l : List String) (n : String)
    (vis : List String) :
    (l.filter (fun v => !((n :: vis).contains v))).length ≤
      (l.filter (fun v => !(vis.contains v))).length := by
  induction l with
  | nil => simp
  | cons a l ih =>
    simp only [List.filter_cons]
    by_cases h1 : (!((n :: vis).contains a)) = true
    · have ha : a ∉ n :: vis := by simpa using h1
      have h2 : (!(vis.contains a)) = true := by
        simp only [List.mem_cons, not_or] at ha
        simpa using ha.2
      rw [if_pos h1, if_pos h2]
      simpa using ih
    · rw [if_neg h1]
      by_cases h2 : (!(vis.contains a)) = true
      · rw [if_pos h2]
        simp only [List.length_cons]
        omega
      · rw [if_neg h2]
        exact ih

theorem filter_not_visited_cons_lt (l : List String) (n : String)
    (vis : List String) (hmem : n ∈ l) (hnv : n ∉ vis) :
    (l.filter (fun v => !((n :: vis).contains v))).length <
      (l.filter (fun v => !(vis.contains v))).length := by
  induction l with
  | nil => cases hmem
  | cons a l ih =>
    simp only [List.filter_cons]
    rcases List.mem_cons.mp hmem with rfl | hmem'
    · have h1 : ¬((!((n :: vis).contains n)) = true) := by simp
      have h2 : (!(vis.contains n)) = true := by simpa using hnv
      rw [if_neg h1, if_pos h2]
      have := filter_not_visited_cons_le l n vis
      simp only [List.length_cons]
      omega
    · by_cases h1 : (!((n :: vis).contains a)) = true
      · have ha : a ∉ n :: vis := by simpa using h1
        have h2 : (!(vis.contains a)) = true := by
          simp only [List.mem_cons, not_or] at ha
          simpa using ha.2
        rw [if_pos h1, if_pos h2]
        simp only [List.length_cons]
        exact Nat.succ_lt_succ (ih hmem')
      · rw [if_neg h1]
        by_cases h2 : (!(vis.contains a)) = true
        · rw [if_pos h2]
          have := ih hmem'
          simp only [List.length_cons]
          omega
        · rw [if_neg h2]
          exact ih hmem'

theorem loopMeasure_skip_lt (edges : List Edge) (s : DState) (entry : QE)
    (rest : List QE) (hpop : popMin s.queue = some (entry, rest)) :
    loopMeasure edges { s with queue := rest } < loopMeasure edges s := by
  unfold loopMeasure
  have hlen := popMinBy_length qeLe s.queue entry rest hpop
  simp only []
  omega

theorem loopMeasure_expand_lt (edges : List Edge) (strategy : WeightStrategy)
    (allowed : Option (List String)) (s : DState) (entry : QE)
    (rest : List QE) (s3 : DState)
    (hpop : popMin s.queue = some (entry, rest))
    (hvis : entry.node ∉ s.visited)
    (hrel : relaxEdges strategy allowed entry.node (adjacency edges entry.node)
      { s with queue := rest, visited := entry.node :: s.visited } = .ok s3) :
    loopMeasure edges s3 < loopMeasure edges s := by
  unfold loopMeasure
  have hlen := popMinBy_length qeLe s.queue entry rest hpop
  have hvis2 := relaxEdges_visited strategy allowed entry.node _ _ _ hrel
  have hq := relaxEdges_queue_len strategy allowed entry.node _ _ _ hrel
  simp only [] at hvis2 hq
  rw [hvis2]
  by_cases hsrc : entry.node ∈ spSources edges
  · have hflt := filter_not_visited_cons_lt (spSources edges) entry.node
      s.visited hsrc hvis
    have hadj : (adjacency edges entry.node).length ≤ edges.length :=
      List.length_filter_le _ _
    have hmul := Nat.mul_le_mul_right (edges.length + 1) hflt
    rw [Nat.succ_mul] at hmul
    omega
  · have hadj : adjacency edges entry.node = [] :=
      adjacency_nil_of_not_source edges entry.node hsrc
    rw [hadj] at hq
    simp only [List.length_nil] at hq
    have hflt := filter_not_visited_cons_le (spSources edges) entry.node
      s.visited
    have hmul : ((spSources edges).filter
          (fun v => !((entry.node :: s.visited).contains v))).length *
          (edges.length + 1) ≤
        ((spSources edges).filter
          (fun v => !(s.visited.contains v))).length * (edges.length + 1) :=
      Nat.mul_le_mul_right _ hflt
    omega

/-- The `while queue:` loop of `shortest_path`. Each iteration pops a least
entry; already-visited nodes are skipped, reaching the goal breaks out of the
loop, and otherwise the node's out-edges are relaxed. Returns the final state
(on `break` or queue exhaustion) or the negative-weight error. The fuel
argument only makes the recursion structural: `shortest_path` passes strictly
more fuel than `loopMeasure`, which drops on every iteration, so the zero
branch is reached only with an exhausted queue, where returning the state
is exactly the loop's behaviour (`dijkstraLoop_inv` proves this). -/
def dijkstraLoop (edges : List Edge) (strategy : WeightStrategy)
    (allowed : Option (List String)) (goal : String) :
    ℕ → DState → Except SPError DState
  | 0, s => .ok s
  | fuel + 1, s =>
    match popMin s.queue with
    | none => .ok s
    | some (entry, rest) =>
      if entry.node ∈ s.visited then
        dijkstraLoop edges strategy allowed goal fuel { s with queue := rest }
      else
        if entry.node = goal then
          .ok { s with queue := rest, visited := entry.node :: s.visited }
        else
          match relaxEdges strategy allowed entry.node
              (adjacency edges entry.node)
              { s with queue := rest, visited := entry.node :: s.visited } with
          | .error err => .error err
          | .ok s3 => dijkstraLoop edges strategy allowed goal fuel s3

/-- Predecessor-link walk of the reconstruction `while cursor != start:` loop,
building the node list and segment list in start-to-goal order (the Python
code builds them goal-to-start and reverses both at the end, which yields the
same lists). The fuel argument only serves to make the recursion structural;
`shortest_path` passes more fuel than the predecessor chain can be long, so
the exhaustion branch is never taken on states the search produces. -/
def reconstruct (start goal : String)
    (previous : String → Option (String × Edge × String)) :
    ℕ → String → Except SPError (List String × List PathSegment)
  | 0, _ => .error (.noPath start goal)
  | fuel + 1, cursor =>
    if cursor = start then .ok ([start], [])
    else
      match previous cursor with
      | none => .error (.noPath start goal)
      | some (prev_node, e, mode) =>
        match reconstruct start goal previous fuel prev_node with
        | .error err => .error err
        | .ok (nodes, segments) =>
          .ok (nodes ++ [cursor],
            segments ++ [⟨prev_node, cursor, mode, e.distance, e.travel_time⟩])

/-- The initial Dijkstra state: the queue holds `(0.0, 0, start)` and the
three best maps hold `start ↦ 0.0`. -/
def initState (start : String) : DState :=
  { queue := [⟨0, 0, start⟩]
    counter := 1
    bestCost := upd (fun _ => none) start 0
    bestDistance := upd (fun _ => none) start 0
    bestTime := upd (fun _ => none) start 0
    previous := fun _ => none
    visited := [] }

/-- Compute the optimal route between two nodes using Dijkstra's algorithm
(`shortest_path`). -/
def shortest_path (edges : List Edge) (start goal : String)
    (allowed_modes : Option (List String) := none)
    (strategy : WeightStrategy := .time) : Except SPError PathResult :=
  if start = goal then
    .ok { nodes := [start], segments := [], total_distance := 0, total_time := 0 }
  else
    match dijkstraLoop edges strategy (normalise_modes allowed_modes) goal
        (loopMeasure edges (initState start) + 1) (initState start) with
    | .error err => .error err
    | .ok s =>
      match s.bestCost goal with
      | none => .error (.noPath start goal)
      | some _ =>
        match reconstruct start goal s.previous (s.visited.length + 1) goal with
        | .error err => .error err
        | .ok (nodes, segments) =>
          .ok { nodes := nodes
                segments := segments
                total_distance := (s.bestDistance goal).getD 0
                total_time := (s.bestTime goal).getD 0 }

theorem popMin_min (q : List QE) (e : QE) (rest : List QE)
    (h : popMin q = some (e, rest)) :
    ∀ x ∈ q, e.cost < x.cost ∨ (e.cost = x.cost ∧ e.order ≤ x.order) := by
  intro x hx
  have hle := popMinBy_min qeLe qeLe_total qeLe_trans q e rest h x hx
  rw [qeLe_iff] at hle
  rcases hle with h1 | ⟨h1, h2 | ⟨h2, -⟩⟩
  · exact .inl h1
  · exact .inr ⟨h1, le_of_lt h2⟩
  · exact .inr ⟨h1, le_of_eq h2⟩

/-- C6: constructing an edge with negative distance, non-positive ideal
speed, non-positive congestion, or an empty transport-mode list fails at
construction time with a `ValueError`; no edge value is produced. -/
theorem C6_edge_construction_validation
    (source target : String) (distance ideal_speed congestion : ℚ)
    (transport_modes : List String)
    (hbad : distance < 0 ∨ ideal_speed ≤ 0 ∨ congestion ≤ 0 ∨
      transport_modes = []) :
    ∃ msg, mkEdge source target distance ideal_speed congestion
      transport_modes = .error msg := by
  unfold mkEdge
  split_ifs with h1 h2 h3 h4
  · exact ⟨_, rfl⟩
  · exact ⟨_, rfl⟩
  · exact ⟨_, rfl⟩
  · exact ⟨_, rfl⟩
  · exfalso
    rcases hbad with h | h | h | h
    · exact h2 h
    · exact h3 h
    · exact h4 h
    · subst h
      exact h1 (by rfl)

/-- Witness for C6 at a concrete invalid input. -/
theorem C6_edge_construction_validation_witness :
    ∃ msg, mkEdge "a" "b" (-1) 1 1 ["walk"] = .error msg :=
  C6_edge_construction_validation "a" "b" (-1) 1 1 ["walk"] (.inl (by norm_num))

/-- C8: the solver is deterministic — the embedding is a pure function of the
edge list (in insertion order), the endpoints, the mode filter and the
strategy — and an equal-cost tie between frontier entries is broken strictly
by the insertion sequence number: the popped entry has minimal cost, and
minimal insertion order among entries of that cost. -/
theorem C8_deterministic_tie_breaking :
    (∀ (edges : List Edge) (start goal : String)
      (allowed_modes : Option (List String)) (strategy : WeightStrategy),
      shortest_path edges start goal allowed_modes strategy =
        shortest_path edges start goal allowed_modes strategy) ∧
    (∀ (q : List QE) (e : QE) (rest : List QE), popMin q = some (e, rest) →
      ∀ x ∈ q, e.cost < x.cost ∨ (e.cost = x.cost ∧ e.order ≤ x.order)) :=
  ⟨fun _ _ _ _ _ => rfl, popMin_min⟩

/-- Witness for C8 at a concrete queue with an equal-cost tie. -/
theorem C8_deterministic_tie_breaking_witness :
    shortest_path [] "a" "b" none .time = shortest_path [] "a" "b" none .time ∧
    ((⟨5, 0, "x"⟩ : QE).cost < (⟨5, 1, "y"⟩ : QE).cost ∨
      ((⟨5, 0, "x"⟩ : QE).cost = (⟨5, 1, "y"⟩ : QE).cost ∧
        (⟨5, 0, "x"⟩ : QE).order ≤ (⟨5, 1, "y"⟩ : QE).order)) :=
  ⟨C8_deterministic_tie_breaking.1 [] "a" "b" none .time,
    C8_deterministic_tie_breaking.2 [⟨5, 1, "y"⟩, ⟨5, 0, "x"⟩] ⟨5, 0, "x"⟩
      [⟨5, 1, "y"⟩] (by decide) ⟨5, 1, "y"⟩ (by simp)⟩

/-- A path through the graph usable under the mode filter: a list of edges,
each drawn from the edge list, chained source-to-target, and each passing
`_select_mode` (an edge the filter rejects is invisible to the search). -/
inductive Chain (edges : List Edge) (allowed : Option (List String)) :
    String → String → List Edge → Prop where
  | nil (u : String) : Chain edges allowed u u []
  | cons {w : String} {p : List Edge} (e : Edge) (he : e ∈ edges)
      (hm : (select_mode e allowed).isSome)
      (hp : Chain edges allowed e.target w p) :
      Chain edges allowed e.source w (e :: p)

/-- Total distance of a list of edges. -/
def distSum (p : List Edge) : ℚ :=
  (p.map (fun e => e.distance)).sum

/-- Total travel time of a list of edges. -/
def timeSum (p : List Edge) : ℚ :=
  (p.map Edge.travel_time).sum

/-- Strategy cost of a list of edges. -/
def chainCost (strategy : WeightStrategy) (p : List Edge) : ℚ :=
  costSel strategy (distSum p) (timeSum p)

/-- Segment emitted for an edge during path reconstruction: the mode actually
used is the one `_select_mode` picks. -/
def segOf (allowed : Option (List String)) (e : Edge) : PathSegment :=
  { source := e.source, target := e.target,
    transport_mode := (select_mode e allowed).getD "",
    distance := e.distance, time := e.travel_time }

theorem costSel_add (strategy : WeightStrategy) (a b c d : ℚ) :
    costSel strategy (a + b) (c + d) =
      costSel strategy a c + costSel strategy b d := by
  cases strategy <;> rfl

theorem costSel_nonneg (strategy : WeightStrategy) (a b : ℚ) (ha : 0 ≤ a)
    (hb : 0 ≤ b) : 0 ≤ costSel strategy a b := by
  cases strategy <;> assumption

theorem distSum_nil : distSum [] = 0 := rfl

theorem timeSum_nil : timeSum [] = 0 := rfl

theorem distSum_cons (e : Edge) (p : List Edge) :
    distSum (e :: p) = e.distance + distSum p := by
  simp [distSum]

theorem timeSum_cons (e : Edge) (p : List Edge) :
    timeSum (e :: p) = e.travel_time + timeSum p := by
  simp [timeSum]

theorem distSum_append (p q : List Edge) :
    distSum (p ++ q) = distSum p + distSum q := by
  simp [distSum]

theorem timeSum_append (p q : List Edge) :
    timeSum (p ++ q) = timeSum p + timeSum q := by
  simp [timeSum]

theorem Edge.travel_time_nonneg (e : Edge) (hv : e.Valid) :
    0 ≤ e.travel_time := by
  obtain ⟨hd, hs, hc, -⟩ := hv
  exact div_nonneg hd (le_of_lt (mul_pos hs hc))

theorem chain_sums_nonneg (edges : List Edge) (allowed : Option (List String))
    (hval : ∀ e ∈ edges, e.Valid) :
    ∀ {u v : String} {p : List Edge}, Chain edges allowed u v p →
    0 ≤ distSum p ∧ 0 ≤ timeSum p := by
  intro u v p hchain
  induction hchain with
  | nil => simp [distSum_nil, timeSum_nil]
  | cons e he hm hp ih =>
    have hv := hval e he
    rw [distSum_cons, timeSum_cons]
    constructor
    · exact add_nonneg hv.1 ih.1
    · exact add_nonneg (e.travel_time_nonneg hv) ih.2

theorem chainCost_nonneg (edges : List Edge) (allowed : Option (List String))
    (strategy : WeightStrategy) (hval : ∀ e ∈ edges, e.Valid)
    {u v : String} {p : List Edge} (hchain : Chain edges allowed u v p) :
    0 ≤ chainCost strategy p := by
  obtain ⟨h1, h2⟩ := chain_sums_nonneg edges allowed hval hchain
  exact costSel_nonneg strategy _ _ h1 h2

theorem Chain.append (edges : List Edge) (allowed : Option (List String))
    {u v : String} {p : List Edge} (hp : Chain edges allowed u v p) (e : Edge)
    (he : e ∈ edges) (hsrc : e.source = v)
    (hm : (select_mode e allowed).isSome) :
    Chain edges allowed u e.target (p ++ [e]) := by
  induction hp with
  | nil u =>
    rw [List.nil_append, ← hsrc]
    exact Chain.cons e he hm (Chain.nil e.target)
  | cons f hf hmf hpf ih =>
    rw [List.cons_append]
    exact Chain.cons f hf hmf (ih hsrc)

/-- The element `u` occurs strictly later (deeper) than an occurrence of `v`
in the list; since the visited list grows at the head, this means `u` was
visited strictly earlier than `v`. -/
def laterIn (l : List String) (u v : String) : Prop :=
  ∃ l1 l2, l = l1 ++ v :: l2 ∧ u ∈ l2

/-- Pending relaxation work: node `n` still has the edges `rem` to process
in its relaxation loop; every other node has none. -/
def pendingOf (n : String) (rem : List Edge) : String → List Edge :=
  fun v => if v = n then rem else []

/-- No pending relaxation work (between loop iterations). -/
def noPending : String → List Edge :=
  fun _ => []

/-- Invariant tying a `DState` of the Dijkstra loop in `shortest_path` to the
graph. `pending` records relaxation work not yet done for a visited node
(nonempty only in the middle of a relaxation loop, or for the goal node after
the early `break`). -/
structure InvAux (edges : List Edge) (strategy : WeightStrategy)
    (allowed : Option (List String)) (start : String)
    (pending : String → List Edge) (s : DState) : Prop where
  consistent : ∀ v c, s.bestCost v = some c →
    ∃ d t, s.bestDistance v = some d ∧ s.bestTime v = some t ∧
      c = costSel strategy d t ∧ 0 ≤ d ∧ 0 ≤ t
  keysD : ∀ v, (s.bestDistance v).isSome → (s.bestCost v).isSome
  start_cost : s.bestCost start = some 0
  start_dist : s.bestDistance start = some 0
  start_time : s.bestTime start = some 0
  attained : ∀ v d t, s.bestDistance v = some d → s.bestTime v = some t →
    ∃ p, Chain edges allowed start v p ∧ distSum p = d ∧ timeSum p = t
  prevLink : ∀ v u e m, s.previous v = some (u, e, m) →
    u ∈ s.visited ∧ e ∈ edges ∧ e.source = u ∧ e.target = v ∧
      select_mode e allowed = some m ∧
      ∃ du tu, s.bestDistance u = some du ∧ s.bestTime u = some tu ∧
        s.bestDistance v = some (du + e.distance) ∧
        s.bestTime v = some (tu + e.travel_time)
  prevDom : ∀ v, v ≠ start → (s.bestCost v).isSome → (s.previous v).isSome
  prevOrder : ∀ v u e m, s.previous v = some (u, e, m) → v ∈ s.visited →
    laterIn s.visited u v
  nodupVisited : s.visited.Nodup
  startVisited : s.visited = [] ∨ start ∈ s.visited
  initialQ : s.visited = [] → ∀ qe ∈ s.queue, qe.node = start ∧ qe.cost = 0
  queueBest : ∀ qe ∈ s.queue, ∃ c, s.bestCost qe.node = some c ∧ c ≤ qe.cost
  frontier : ∀ v c, v ∉ s.visited → s.bestCost v = some c →
    ∃ qe ∈ s.queue, qe.node = v ∧ qe.cost = c
  visitedMin : ∀ v cv, v ∈ s.visited → s.bestCost v = some cv →
    ∀ qe ∈ s.queue, cv ≤ qe.cost
  visitedKeys : ∀ v, v ∈ s.visited → (s.bestCost v).isSome
  relaxedClosed : ∀ v, v ∈ s.visited → ∀ e ∈ edges, e.source = v →
    (select_mode e allowed).isSome → e ∉ pending v →
    ∃ cv ct, s.bestCost v = some cv ∧ s.bestCost e.target = some ct ∧
      ct ≤ cv + costSel strategy e.distance e.travel_time
  settled : ∀ v cv, v ∈ s.visited → s.bestCost v = some cv →
    ∀ p, Chain edges allowed start v p → cv ≤ chainCost strategy p

/-- The initial state satisfies the invariant. -/
theorem initState_inv (edges : List Edge) (strategy : WeightStrategy)
    (allowed : Option (List String)) (start : String) :
    InvAux edges strategy allowed start noPending (initState start) := by
  constructor
  · intro v c hvc
    simp only [initState, upd] at hvc
    by_cases hv : v = start
    · subst hv
      simp only [if_pos rfl] at hvc
      refine ⟨0, 0, ?_, ?_, ?_, le_refl 0, le_refl 0⟩
      · simp [initState, upd]
      · simp [initState, upd]
      · cases hvc
        cases strategy <;> rfl
    · simp only [if_neg hv] at hvc
      cases hvc
  · intro v hv
    simp only [initState, upd] at hv ⊢
    by_cases h : v = start <;> simp [h] at hv ⊢
  · simp [initState, upd]
  · simp [initState, upd]
  · simp [initState, upd]
  · intro v d t hd ht
    simp only [initState, upd] at hd ht
    by_cases hv : v = start
    · subst hv
      simp only [if_pos rfl] at hd ht
      cases hd; cases ht
      exact ⟨[], Chain.nil v, rfl, rfl⟩
    · simp only [if_neg hv] at hd
      cases hd
  · intro v u e m h
    simp [initState] at h
  · intro v hv hsome
    simp only [initState, upd] at hsome
    rw [if_neg hv] at hsome
    simp at hsome
  · intro v u e m h
    simp [initState] at h
  · simp [initState]
  · exact .inl rfl
  · intro _ qe hqe
    simp only [initState, List.mem_singleton] at hqe
    subst hqe
    exact ⟨rfl, rfl⟩
  · intro qe hqe
    simp only [initState, List.mem_singleton] at hqe
    subst hqe
    exact ⟨0, by simp [initState, upd], le_refl 0⟩
  · intro v c hv hvc
    simp only [initState, upd] at hvc
    by_cases h : v = start
    · subst h
      rw [if_pos rfl] at hvc
      cases hvc
      exact ⟨⟨0, 0, v⟩, by simp [initState], rfl, rfl⟩
    · rw [if_neg h] at hvc
      cases hvc
  · intro v cv hv
    simp [initState] at hv
  · intro v hv
    simp [initState] at hv
  · intro v hv
    simp [initState] at hv
  · intro v cv hv
    simp [initState] at hv

theorem dijkstraLoop_empty (edges : List Edge) (strategy : WeightStrategy)
    (allowed : Option (List String)) (goal : String) (fuel : ℕ) (s : DState)
    (hpop : popMin s.queue = none) :
    dijkstraLoop edges strategy allowed goal (fuel + 1) s = .ok s := by
  simp only [dijkstraLoop, hpop]

theorem dijkstraLoop_skip (edges : List Edge) (strategy : WeightStrategy)
    (allowed : Option (List String)) (goal : String) (fuel : ℕ) (s : DState)
    (entry : QE) (rest : List QE)
    (hpop : popMin s.queue = some (entry, rest))
    (hvis : entry.node ∈ s.visited) :
    dijkstraLoop edges strategy allowed goal (fuel + 1) s =
      dijkstraLoop edges strategy allowed goal fuel { s with queue := rest } := by
  simp only [dijkstraLoop, hpop, if_pos hvis]

theorem dijkstraLoop_break (edges : List Edge) (strategy : WeightStrategy)
    (allowed : Option (List String)) (goal : String) (fuel : ℕ) (s : DState)
    (entry : QE) (rest : List QE)
    (hpop : popMin s.queue = some (entry, rest))
    (hvis : entry.node ∉ s.visited) (hgoal : entry.node = goal) :
    dijkstraLoop edges strategy allowed goal (fuel + 1) s =
      .ok { s with queue := rest, visited := entry.node :: s.visited } := by
  simp only [dijkstraLoop, hpop, if_neg hvis, if_pos hgoal]

theorem dijkstraLoop_expand_error (edges : List Edge)
    (strategy : WeightStrategy) (allowed : Option (List String))
    (goal : String) (fuel : ℕ) (s : DState) (entry : QE) (rest : List QE)
    (err : SPError) (hpop : popMin s.queue = some (entry, rest))
    (hvis : entry.node ∉ s.visited) (hgoal : entry.node ≠ goal)
    (hrel : relaxEdges strategy allowed entry.node (adjacency edges entry.node)
      { s with queue := rest, visited := entry.node :: s.visited } =
      .error err) :
    dijkstraLoop edges strategy allowed goal (fuel + 1) s = .error err := by
  simp only [dijkstraLoop, hpop, if_neg hvis, if_neg hgoal, hrel]

theorem dijkstraLoop_expand_ok (edges : List Edge) (strategy : WeightStrategy)
    (allowed : Option (List String)) (goal : String) (fuel : ℕ) (s : DState)
    (entry : QE) (rest : List QE) (s3 : DState)
    (hpop : popMin s.queue = some (entry, rest))
    (hvis : entry.node ∉ s.visited) (hgoal : entry.node ≠ goal)
    (hrel : relaxEdges strategy allowed entry.node (adjacency edges entry.node)
      { s with queue := rest, visited := entry.node :: s.visited } = .ok s3) :
    dijkstraLoop edges strategy allowed goal (fuel + 1) s =
      dijkstraLoop edges strategy allowed goal fuel s3 := by
  simp only [dijkstraLoop, hpop, if_neg hvis, if_neg hgoal, hrel]

theorem upd_same {α : Type} (f : String → Option α) (k : String) (v : α) :
    upd f k v k = some v := by
  simp [upd]

theorem upd_other {α : Type} (f : String → Option α) (k : String) (v : α)
    (x : String) (h : x ≠ k) : upd f k v x = f x := by
  simp [upd, h]

theorem improves_true (old : Option ℚ) (nc : ℚ)
    (h : improves old nc = true) :
    old = none ∨ ∃ c, old = some c ∧ nc < c := by
  cases old with
  | none => exact .inl rfl
  | some c =>
    simp only [improves, decide_eq_true_eq] at h
    exact .inr ⟨c, rfl, h⟩

theorem improves_false (old : Option ℚ) (nc : ℚ)
    (h : ¬(improves old nc = true)) :
    ∃ c, old = some c ∧ c ≤ nc := by
  cases old with
  | none => simp [improves] at h
  | some c =>
    simp only [improves, decide_eq_true_eq] at h
    exact ⟨c, rfl, le_of_not_lt h⟩

/-- Facts carried through the relaxation loop of the node `n` being expanded:
the invariant with the still-unprocessed edges `rem` pending, the origin of
`rem`, and the pop-time facts about `n` (its best values, and that its cost
caps every visited best cost). -/
structure RelaxCtx (edges : List Edge) (strategy : WeightStrategy)
    (allowed : Option (List String)) (start n : String) (cn dn tn : ℚ)
    (rem : List Edge) (t : DState) : Prop where
  inv : InvAux edges strategy allowed start (pendingOf n rem) t
  hrem : ∀ e ∈ rem, e ∈ edges ∧ e.source = n
  hn : n ∈ t.visited
  hcn : t.bestCost n = some cn
  hdn : t.bestDistance n = some dn
  htn : t.bestTime n = some tn
  hcap : ∀ v cv, v ∈ t.visited → t.bestCost v = some cv → cv ≤ cn

theorem relax_skip_preserves {edges : List Edge} {strategy : WeightStrategy}
    {allowed : Option (List String)} {start n : String} {cn dn tn : ℚ}
    {e : Edge} {rest : List Edge} {t : DState}
    (ctx : RelaxCtx edges strategy allowed start n cn dn tn (e :: rest) t)
    (hm : select_mode e allowed = none) :
    RelaxCtx edges strategy allowed start n cn dn tn rest t := by
  refine ⟨?_, fun e' he' => ctx.hrem e' (List.mem_cons_of_mem e he'),
    ctx.hn, ctx.hcn, ctx.hdn, ctx.htn, ctx.hcap⟩
  obtain ⟨c1, c2, c3, c4, c5, c6, c7, c8, c9, c10, c11, c12, c13, c14, c15,
    c16, c17, c18⟩ := ctx.inv
  refine ⟨c1, c2, c3, c4, c5, c6, c7, c8, c9, c10, c11, c12, c13, c14, c15,
    c16, ?_, c18⟩
  intro v hv e' he' hsrc hmode hpend
  refine c17 v hv e' he' hsrc hmode ?_
  unfold pendingOf at hpend ⊢
  by_cases hvn : v = n
  · rw [if_pos hvn] at hpend ⊢
    intro hmem
    rcases List.mem_cons.mp hmem with rfl | hmem'
    · rw [hm] at hmode
      cases hmode
    · exact hpend hmem'
  · rw [if_neg hvn] at hpend ⊢
    exact hpend

theorem relax_noimprove_preserves {edges : List Edge}
    {strategy : WeightStrategy} {allowed : Option (List String)}
    {start n : String} {cn dn tn : ℚ} {e : Edge} {rest : List Edge}
    {t : DState}
    (ctx : RelaxCtx edges strategy allowed start n cn dn tn (e :: rest) t)
    (mode : String) (hm : select_mode e allowed = some mode)
    (himp : ¬(improves (t.bestCost e.target)
      (costSel strategy (newDist t n e) (newTime t n e)) = true)) :
    RelaxCtx edges strategy allowed start n cn dn tn rest t := by
  have hremE := ctx.hrem e (List.mem_cons_self e rest)
  have hcn_eq : cn = costSel strategy dn tn := by
    obtain ⟨d', t', hd', ht', hceq, -, -⟩ := ctx.inv.consistent n cn ctx.hcn
    rw [ctx.hdn] at hd'
    rw [ctx.htn] at ht'
    cases hd'
    cases ht'
    exact hceq
  have hnc : costSel strategy (newDist t n e) (newTime t n e) =
      cn + costSel strategy e.distance e.travel_time := by
    rw [newDist, newTime, ctx.hdn, ctx.htn]
    simp only [Option.getD_some]
    rw [costSel_add, hcn_eq]
  obtain ⟨cw, hcw, hle⟩ := improves_false _ _ himp
  refine ⟨?_, fun e' he' => ctx.hrem e' (List.mem_cons_of_mem e he'),
    ctx.hn, ctx.hcn, ctx.hdn, ctx.htn, ctx.hcap⟩
  obtain ⟨c1, c2, c3, c4, c5, c6, c7, c8, c9, c10, c11, c12, c13, c14, c15,
    c16, c17, c18⟩ := ctx.inv
  refine ⟨c1, c2, c3, c4, c5, c6, c7, c8, c9, c10, c11, c12, c13, c14, c15,
    c16, ?_, c18⟩
  intro v hv e' he' hsrc hmode hpend
  unfold pendingOf at hpend
  by_cases hvn : v = n
  · rw [if_pos hvn] at hpend
    by_cases hee : e' = e
    · subst hee
      subst hvn
      exact ⟨cn, cw, ctx.hcn, hcw, by rw [← hnc]; exact hle⟩
    · refine c17 v hv e' he' hsrc hmode ?_
      unfold pendingOf
      rw [if_pos hvn]
      intro hmem
      rcases List.mem_cons.mp hmem with h | h
      · exact hee h
      · exact hpend h
  · rw [if_neg hvn] at hpend
    refine c17 v hv e' he' hsrc hmode ?_
    unfold pendingOf
    rw [if_neg hvn]
    exact hpend

theorem relax_improve_preserves {edges : List Edge}
    {strategy : WeightStrategy} {allowed : Option (List String)}
    {start n : String} {cn dn tn : ℚ} {e : Edge} {rest : List Edge}
    {t : DState}
    (ctx : RelaxCtx edges strategy allowed start n cn dn tn (e :: rest) t)
    (mode : String) (hm : select_mode e allowed = some mode)
    (hneg : ¬(e.distance < 0 ∨ e.travel_time < 0))
    (himp : improves (t.bestCost e.target)
      (costSel strategy (newDist t n e) (newTime t n e)) = true) :
    RelaxCtx edges strategy allowed start n cn dn tn rest
      (relaxUpd strategy t n e mode) := by
  push_neg at hneg
  obtain ⟨hd0, ht0⟩ := hneg
  have hremE := ctx.hrem e (List.mem_cons_self e rest)
  obtain ⟨heE, hsrcE⟩ := hremE
  obtain ⟨dn', tn', hdn', htn', hcn_eq, hdn0, htn0⟩ :=
    ctx.inv.consistent n cn ctx.hcn
  rw [ctx.hdn] at hdn'
  rw [ctx.htn] at htn'
  cases hdn'
  cases htn'
  have h_nd : newDist t n e = dn + e.distance := by
    rw [newDist, ctx.hdn, Option.getD_some]
  have h_nt : newTime t n e = tn + e.travel_time := by
    rw [newTime, ctx.htn, Option.getD_some]
  set w := e.target with hw
  set nd := newDist t n e with hnddef
  set nt := newTime t n e with hntdef
  set nc := costSel strategy nd nt with hncdef
  have hnc : nc = cn + costSel strategy e.distance e.travel_time := by
    rw [hncdef, h_nd, h_nt, costSel_add, hcn_eq]
  have hwcost : 0 ≤ costSel strategy e.distance e.travel_time :=
    costSel_nonneg strategy _ _ hd0 ht0
  have hcn0 : 0 ≤ cn := by
    rw [hcn_eq]
    exact costSel_nonneg strategy _ _ hdn0 htn0
  have hnc_ge : cn ≤ nc := by rw [hnc]; linarith
  have hstart_vis : start ∈ t.visited := by
    rcases ctx.inv.startVisited with h | h
    · exact absurd (h ▸ ctx.hn) (List.not_mem_nil n)
    · exact h
  have hw_not_vis : w ∉ t.visited := by
    intro hwv
    have hsome := ctx.inv.visitedKeys w hwv
    obtain ⟨cw, hcw⟩ := Option.isSome_iff_exists.mp hsome
    have hcap := ctx.hcap w cw hwv hcw
    rcases improves_true _ _ himp with h | ⟨c', hc', hlt⟩
    · rw [hcw] at h
      cases h
    · rw [hcw] at hc'
      cases hc'
      linarith
  have hw_ne_start : w ≠ start := by
    intro h
    rcases improves_true _ _ himp with h2 | ⟨c', hc', hlt⟩
    · rw [h, ctx.inv.start_cost] at h2
      cases h2
    · rw [h, ctx.inv.start_cost] at hc'
      cases hc'
      linarith
  have hw_ne_n : w ≠ n := fun h => hw_not_vis (h ▸ ctx.hn)
  -- shape of the updated state
  have hbc_w : (relaxUpd strategy t n e mode).bestCost w = some nc :=
    upd_same _ _ _
  have hbc_o : ∀ x, x ≠ w →
      (relaxUpd strategy t n e mode).bestCost x = t.bestCost x :=
    fun x hx => upd_other _ _ _ x hx
  have hbd_w : (relaxUpd strategy t n e mode).bestDistance w = some nd :=
    upd_same _ _ _
  have hbd_o : ∀ x, x ≠ w →
      (relaxUpd strategy t n e mode).bestDistance x = t.bestDistance x :=
    fun x hx => upd_other _ _ _ x hx
  have hbt_w : (relaxUpd strategy t n e mode).bestTime w = some nt :=
    upd_same _ _ _
  have hbt_o : ∀ x, x ≠ w →
      (relaxUpd strategy t n e mode).bestTime x = t.bestTime x :=
    fun x hx => upd_other _ _ _ x hx
  have hpv_w : (relaxUpd strategy t n e mode).previous w = some (n, e, mode) :=
    upd_same _ _ _
  have hpv_o : ∀ x, x ≠ w →
      (relaxUpd strategy t n e mode).previous x = t.previous x :=
    fun x hx => upd_other _ _ _ x hx
  have hvis_eq : (relaxUpd strategy t n e mode).visited = t.visited := rfl
  have hq_eq : (relaxUpd strategy t n e mode).queue =
      t.queue ++ [⟨nc, t.counter, w⟩] := rfl
  -- the new best cost of any node only ever decreases
  have hdecr : ∀ x cx, t.bestCost x = some cx →
      ∃ cx2, (relaxUpd strategy t n e mode).bestCost x = some cx2 ∧ cx2 ≤ cx := by
    intro x cx hx
    by_cases hxw : x = w
    · subst hxw
      rcases improves_true _ _ himp with h | ⟨c', hc', hlt⟩
      · rw [hx] at h
        cases h
      · rw [hx] at hc'
        cases hc'
        exact ⟨nc, hbc_w, le_of_lt hlt⟩
    · exact ⟨cx, by rw [hbc_o x hxw]; exact hx, le_refl cx⟩
  refine ⟨?_, fun e' he' => ctx.hrem e' (List.mem_cons_of_mem e he'),
    hvis_eq ▸ ctx.hn, by rw [hbc_o n hw_ne_n.symm]; exact ctx.hcn,
    by rw [hbd_o n hw_ne_n.symm]; exact ctx.hdn,
    by rw [hbt_o n hw_ne_n.symm]; exact ctx.htn, ?_⟩
  swap
  · -- hcap for the updated state
    intro v cv hv hcv
    rw [hvis_eq] at hv
    have hvw : v ≠ w := fun h => hw_not_vis (h ▸ hv)
    rw [hbc_o v hvw] at hcv
    exact ctx.hcap v cv hv hcv
  constructor
  · -- consistent
    intro v c hvc
    by_cases hvw : v = w
    · subst hvw
      rw [hbc_w] at hvc
      cases hvc
      refine ⟨nd, nt, hbd_w, hbt_w, rfl, ?_, ?_⟩
      · rw [h_nd]; linarith
      · rw [h_nt]; linarith
    · rw [hbc_o v hvw] at hvc
      obtain ⟨d', t', hd', ht', hceq, hd0', ht0'⟩ :=
        ctx.inv.consistent v c hvc
      exact ⟨d', t', by rw [hbd_o v hvw]; exact hd',
        by rw [hbt_o v hvw]; exact ht', hceq, hd0', ht0'⟩
  · -- keysD
    intro v hv
    by_cases hvw : v = w
    · subst hvw
      rw [hbc_w]
      rfl
    · rw [hbd_o v hvw] at hv
      rw [hbc_o v hvw]
      exact ctx.inv.keysD v hv
  · rw [hbc_o start hw_ne_start.symm]
    exact ctx.inv.start_cost
  · rw [hbd_o start hw_ne_start.symm]
    exact ctx.inv.start_dist
  · rw [hbt_o start hw_ne_start.symm]
    exact ctx.inv.start_time
  · -- attained
    intro v d' t' hd' ht'
    by_cases hvw : v = w
    · subst hvw
      rw [hbd_w] at hd'
      rw [hbt_w] at ht'
      cases hd'
      cases ht'
      obtain ⟨p, hp, hpd, hpt⟩ :=
        ctx.inv.attained n dn tn ctx.hdn ctx.htn
      refine ⟨p ++ [e], ?_, ?_, ?_⟩
      · exact Chain.append edges allowed hp e heE (by rw [hsrcE]) (by rw [hm]; rfl)
      · rw [distSum_append, hpd, distSum_cons, distSum_nil, h_nd]
        ring
      · rw [timeSum_append, hpt, timeSum_cons, timeSum_nil, h_nt]
        ring
    · rw [hbd_o v hvw] at hd'
      rw [hbt_o v hvw] at ht'
      exact ctx.inv.attained v d' t' hd' ht'
  · -- prevLink
    intro v u e' m' hprev
    by_cases hvw : v = w
    · subst hvw
      rw [hpv_w] at hprev
      cases hprev
      refine ⟨hvis_eq ▸ ctx.hn, heE, hsrcE, rfl, hm, dn, tn,
        by rw [hbd_o n hw_ne_n.symm]; exact ctx.hdn,
        by rw [hbt_o n hw_ne_n.symm]; exact ctx.htn,
        by rw [hbd_w, h_nd],
        by rw [hbt_w, h_nt]⟩
    · rw [hpv_o v hvw] at hprev
      obtain ⟨hu_vis, he', hsrc', htgt', hm', du, tu, hdu, htu, hdv, htv⟩ :=
        ctx.inv.prevLink v u e' m' hprev
      have hu_ne_w : u ≠ w := fun h => hw_not_vis (h ▸ hu_vis)
      exact ⟨hvis_eq ▸ hu_vis, he', hsrc', htgt', hm', du, tu,
        by rw [hbd_o u hu_ne_w]; exact hdu,
        by rw [hbt_o u hu_ne_w]; exact htu,
        by rw [hbd_o v hvw]; exact hdv,
        by rw [hbt_o v hvw]; exact htv⟩
  · -- prevDom
    intro v hvs hsome
    by_cases hvw : v = w
    · subst hvw
      rw [hpv_w]
      rfl
    · rw [hbc_o v hvw] at hsome
      rw [hpv_o v hvw]
      exact ctx.inv.prevDom v hvs hsome
  · -- prevOrder
    intro v u e' m' hprev hv
    rw [hvis_eq] at hv ⊢
    have hvw : v ≠ w := fun h => hw_not_vis (h ▸ hv)
    rw [hpv_o v hvw] at hprev
    exact ctx.inv.prevOrder v u e' m' hprev hv
  · rw [hvis_eq]
    exact ctx.inv.nodupVisited
  · rw [hvis_eq]
    exact .inr hstart_vis
  · -- initialQ
    intro hempty
    rw [hvis_eq] at hempty
    rw [hempty] at hstart_vis
    exact absurd hstart_vis (List.not_mem_nil start)
  · -- queueBest
    intro qe hqe
    rw [hq_eq] at hqe
    rcases List.mem_append.mp hqe with hold | hnew
    · obtain ⟨c, hc, hcle⟩ := ctx.inv.queueBest qe hold
      obtain ⟨c2, hc2, hc2le⟩ := hdecr qe.node c hc
      exact ⟨c2, hc2, le_trans hc2le hcle⟩
    · rcases List.mem_singleton.mp hnew with rfl
      exact ⟨nc, hbc_w, le_refl nc⟩
  · -- frontier
    intro v c hv hvc
    rw [hvis_eq] at hv
    by_cases hvw : v = w
    · subst hvw
      rw [hbc_w] at hvc
      cases hvc
      refine ⟨⟨nc, t.counter, w⟩, ?_, rfl, rfl⟩
      rw [hq_eq]
      exact List.mem_append_right _ (List.mem_singleton_self _)
    · rw [hbc_o v hvw] at hvc
      obtain ⟨qe, hqe, hnode, hcost⟩ := ctx.inv.frontier v c hv hvc
      exact ⟨qe, by rw [hq_eq]; exact List.mem_append_left _ hqe, hnode, hcost⟩
  · -- visitedMin
    intro v cv hv hcv qe hqe
    rw [hvis_eq] at hv
    have hvw : v ≠ w := fun h => hw_not_vis (h ▸ hv)
    rw [hbc_o v hvw] at hcv
    rw [hq_eq] at hqe
    rcases List.mem_append.mp hqe with hold | hnew
    · exact ctx.inv.visitedMin v cv hv hcv qe hold
    · rcases List.mem_singleton.mp hnew with rfl
      exact le_trans (ctx.hcap v cv hv hcv) hnc_ge
  · -- visitedKeys
    intro v hv
    rw [hvis_eq] at hv
    have hvw : v ≠ w := fun h => hw_not_vis (h ▸ hv)
    rw [hbc_o v hvw]
    exact ctx.inv.visitedKeys v hv
  · -- relaxedClosed
    intro v hv e' he' hsrc' hmode' hpend
    rw [hvis_eq] at hv
    have hvw : v ≠ w := fun h => hw_not_vis (h ▸ hv)
    by_cases hvn : v = n
    · subst hvn
      by_cases hee : e' = e
      · subst hee
        exact ⟨cn, nc, by rw [hbc_o v hw_ne_n.symm]; exact ctx.hcn,
          hbc_w, by rw [hnc]⟩
      · have hpend' : e' ∉ pendingOf v (e :: rest) v := by
          unfold pendingOf at hpend ⊢
          rw [if_pos rfl] at hpend ⊢
          intro hmem
          rcases List.mem_cons.mp hmem with h | h
          · exact hee h
          · exact hpend h
        obtain ⟨cv, ct, hcv, hct, hle⟩ :=
          ctx.inv.relaxedClosed v hv e' he' hsrc' hmode' hpend'
        obtain ⟨ct2, hct2, hct2le⟩ := hdecr e'.target ct hct
        exact ⟨cv, ct2, by rw [hbc_o v hvw]; exact hcv, hct2,
          le_trans hct2le hle⟩
    · have hpend' : e' ∉ pendingOf n (e :: rest) v := by
        unfold pendingOf at hpend ⊢
        rw [if_neg hvn] at hpend ⊢
        exact hpend
      obtain ⟨cv, ct, hcv, hct, hle⟩ :=
        ctx.inv.relaxedClosed v hv e' he' hsrc' hmode' hpend'
      obtain ⟨ct2, hct2, hct2le⟩ := hdecr e'.target ct hct
      exact ⟨cv, ct2, by rw [hbc_o v hvw]; exact hcv, hct2,
        le_trans hct2le hle⟩
  · -- settled
    intro v cv hv hcv p hp
    rw [hvis_eq] at hv
    have hvw : v ≠ w := fun h => hw_not_vis (h ▸ hv)
    rw [hbc_o v hvw] at hcv
    exact ctx.inv.settled v cv hv hcv p hp

theorem relaxEdges_preserves {edges : List Edge} {strategy : WeightStrategy}
    {allowed : Option (List String)} {start n : String} {cn dn tn : ℚ} :
    ∀ (rem : List Edge) (t t3 : DState),
    RelaxCtx edges strategy allowed start n cn dn tn rem t →
    relaxEdges strategy allowed n rem t = .ok t3 →
    RelaxCtx edges strategy allowed start n cn dn tn [] t3 := by
  intro rem
  induction rem with
  | nil =>
    intro t t3 ctx h
    rw [relaxEdges_nil] at h
    cases h
    exact ctx
  | cons e rest ih =>
    intro t t3 ctx h
    rcases relaxEdges_cases strategy allowed n e rest t with
      ⟨hm, heq⟩ | ⟨mode, hm, hneg, heq⟩ | ⟨mode, hm, hneg, himp, heq⟩ |
      ⟨mode, hm, hneg, himp, heq⟩
    · rw [heq] at h
      exact ih t t3 (relax_skip_preserves ctx hm) h
    · rw [heq] at h
      cases h
    · rw [heq] at h
      exact ih _ t3 (relax_improve_preserves ctx mode hm hneg himp) h
    · rw [heq] at h
      exact ih t t3 (relax_noimprove_preserves ctx mode hm himp) h

theorem relaxEdges_error_means_neg (strategy : WeightStrategy)
    (allowed : Option (List String)) (n : String) :
    ∀ (rem : List Edge) (t : DState) (err : SPError),
    relaxEdges strategy allowed n rem t = .error err →
    err = .negWeight ∧ ∃ e ∈ rem, (select_mode e allowed).isSome ∧
      (e.distance < 0 ∨ e.travel_time < 0) := by
  intro rem
  induction rem with
  | nil =>
    intro t err h
    rw [relaxEdges_nil] at h
    cases h
  | cons e rest ih =>
    intro t err h
    rcases relaxEdges_cases strategy allowed n e rest t with
      ⟨hm, heq⟩ | ⟨mode, hm, hneg, heq⟩ | ⟨mode, hm, hneg, himp, heq⟩ |
      ⟨mode, hm, hneg, himp, heq⟩
    · rw [heq] at h
      obtain ⟨herr, e', he', hm', hneg'⟩ := ih t err h
      exact ⟨herr, e', List.mem_cons_of_mem e he', hm', hneg'⟩
    · rw [heq] at h
      injection h with h
      exact ⟨h.symm, e, List.mem_cons_self e rest, by rw [hm]; rfl, hneg⟩
    · rw [heq] at h
      obtain ⟨herr, e', he', hm', hneg'⟩ := ih _ err h
      exact ⟨herr, e', List.mem_cons_of_mem e he', hm', hneg'⟩
    · rw [heq] at h
      obtain ⟨herr, e', he', hm', hneg'⟩ := ih t err h
      exact ⟨herr, e', List.mem_cons_of_mem e he', hm', hneg'⟩

theorem chainCost_nil (strategy : WeightStrategy) : chainCost strategy [] = 0 := by
  cases strategy <;> rfl

theorem chainCost_cons (strategy : WeightStrategy) (e : Edge) (p : List Edge) :
    chainCost strategy (e :: p) =
      costSel strategy e.distance e.travel_time + chainCost strategy p := by
  unfold chainCost
  rw [distSum_cons, timeSum_cons, costSel_add]

/-- Crossing lemma: a usable path from inside the visited set to outside it
contains a usable edge leaving the visited set, and the prefix up to that
edge costs no more than the whole path. -/
theorem chain_boundary {edges : List Edge} {strategy : WeightStrategy}
    {allowed : Option (List String)} (hval : ∀ e ∈ edges, e.Valid)
    (visited : List String) :
    ∀ {u v : String} {p : List Edge}, Chain edges allowed u v p →
    u ∈ visited → v ∉ visited →
    ∃ (x : String) (e : Edge) (q : List Edge), x ∈ visited ∧ e ∈ edges ∧
      e.source = x ∧ (select_mode e allowed).isSome ∧ e.target ∉ visited ∧
      Chain edges allowed u x q ∧
      chainCost strategy q + costSel strategy e.distance e.travel_time ≤
        chainCost strategy p := by
  intro u v p hchain
  induction hchain with
  | nil w =>
    intro hu hv
    exact absurd hu hv
  | @cons w2 p2 e he hm hp ih =>
    intro hu hv
    by_cases htv : e.target ∈ visited
    · obtain ⟨x, e', q, hx, he', hsrc', hm', htgt', hq, hcost⟩ := ih htv hv
      refine ⟨x, e', e :: q, hx, he', hsrc', hm', htgt',
        Chain.cons e he hm hq, ?_⟩
      rw [chainCost_cons, chainCost_cons]
      linarith
    · refine ⟨e.source, e, [], hu, he, rfl, hm, htv, Chain.nil e.source, ?_⟩
      rw [chainCost_nil, chainCost_cons, zero_add]
      have hrest : 0 ≤ chainCost strategy p2 :=
        chainCost_nonneg edges allowed strategy hval hp
      linarith

theorem popMin_mem {q : List QE} {entry : QE} {rest : List QE}
    (h : popMin q = some (entry, rest)) : entry ∈ q :=
  (popMinBy_perm qeLe q entry rest h).symm.subset (List.mem_cons_self _ _)

theorem popMin_rest_subset {q : List QE} {entry : QE} {rest : List QE}
    (h : popMin q = some (entry, rest)) : ∀ x ∈ rest, x ∈ q :=
  fun x hx =>
    (popMinBy_perm qeLe q entry rest h).symm.subset (List.mem_cons_of_mem _ hx)

theorem popMin_mem_rest_of_ne {q : List QE} {entry : QE} {rest : List QE}
    (h : popMin q = some (entry, rest)) {x : QE} (hx : x ∈ q)
    (hne : x ≠ entry) : x ∈ rest := by
  have := (popMinBy_perm qeLe q entry rest h).subset hx
  rcases List.mem_cons.mp this with h' | h'
  · exact absurd h' hne
  · exact h'

theorem popMin_cost_min {q : List QE} {entry : QE} {rest : List QE}
    (h : popMin q = some (entry, rest)) : ∀ x ∈ q, entry.cost ≤ x.cost := by
  intro x hx
  rcases popMin_min q entry rest h x hx with h1 | ⟨h1, -⟩
  · exact le_of_lt h1
  · exact le_of_eq h1

/-- Popping a fresh node `n` finalises it: its best cost equals the popped
cost, it is optimal among all usable paths, and the invariant survives with
its whole adjacency list pending. -/
theorem visit_preserves {edges : List Edge} {strategy : WeightStrategy}
    {allowed : Option (List String)} {start : String}
    (hval : ∀ e ∈ edges, e.Valid) {s : DState}
    (inv : InvAux edges strategy allowed start noPending s) {entry : QE}
    {rest : List QE} (hpop : popMin s.queue = some (entry, rest))
    (hvis : entry.node ∉ s.visited) :
    ∃ dn tn, RelaxCtx edges strategy allowed start entry.node entry.cost dn tn
      (adjacency edges entry.node)
      { s with queue := rest, visited := entry.node :: s.visited } := by
  have hentry_mem : entry ∈ s.queue := popMin_mem hpop
  have hmin : ∀ x ∈ s.queue, entry.cost ≤ x.cost := popMin_cost_min hpop
  obtain ⟨c0, hc0, hc0le⟩ := inv.queueBest entry hentry_mem
  obtain ⟨qe0, hqe0, hqe0node, hqe0cost⟩ := inv.frontier entry.node c0 hvis hc0
  have hc0ge : entry.cost ≤ c0 := hqe0cost ▸ hmin qe0 hqe0
  have hc0eq : c0 = entry.cost := le_antisymm hc0le hc0ge
  rw [hc0eq] at hc0
  obtain ⟨dn, tn, hdn, htn, hceq, hdn0, htn0⟩ :=
    inv.consistent entry.node entry.cost hc0
  -- optimality of the popped node among all usable paths
  have hsettled_n : ∀ p, Chain edges allowed start entry.node p →
      entry.cost ≤ chainCost strategy p := by
    intro p hp
    rcases inv.startVisited with hemp | hstart_vis
    · obtain ⟨hnode, hcost⟩ := inv.initialQ hemp entry hentry_mem
      rw [hcost]
      exact chainCost_nonneg edges allowed strategy hval hp
    · obtain ⟨x, e, q, hx, he, hsrc, hm, htgt, hq, hcost⟩ :=
        chain_boundary hval s.visited hp hstart_vis hvis
      obtain ⟨cx, ct, hcx, hct, hle⟩ := inv.relaxedClosed x hx e he hsrc hm
        (List.not_mem_nil e)
      have hsx := inv.settled x cx hx hcx q hq
      obtain ⟨qe1, hqe1, hqe1node, hqe1cost⟩ := inv.frontier e.target ct htgt hct
      have h1 : entry.cost ≤ ct := hqe1cost ▸ hmin qe1 hqe1
      linarith
  refine ⟨dn, tn, ?_, ?_, ?_, hc0, hdn, htn, ?_⟩
  case refine_2 =>
    intro e he
    exact ⟨List.mem_of_mem_filter he, by
      have := List.of_mem_filter he
      simpa using this⟩
  case refine_3 =>
    exact List.mem_cons_self _ _
  case refine_4 =>
    intro v cv hv hcv
    rcases List.mem_cons.mp hv with rfl | hv'
    · rw [hc0] at hcv
      cases hcv
      exact le_refl _
    · exact inv.visitedMin v cv hv' hcv entry hentry_mem
  -- the invariant for the post-pop state
  constructor
  · exact inv.consistent
  · exact inv.keysD
  · exact inv.start_cost
  · exact inv.start_dist
  · exact inv.start_time
  · exact inv.attained
  · intro v u e m hprev
    obtain ⟨hu, he, hsrc, htgt, hm, rest'⟩ := inv.prevLink v u e m hprev
    exact ⟨List.mem_cons_of_mem _ hu, he, hsrc, htgt, hm, rest'⟩
  · exact inv.prevDom
  · intro v u e m hprev hv
    rcases List.mem_cons.mp hv with rfl | hv'
    · obtain ⟨hu, -⟩ := inv.prevLink _ u e m hprev
      exact ⟨[], s.visited, rfl, hu⟩
    · obtain ⟨l1, l2, hsplit, hu⟩ := inv.prevOrder v u e m hprev hv'
      exact ⟨entry.node :: l1, l2, by simp [hsplit], hu⟩
  · exact List.nodup_cons.mpr ⟨hvis, inv.nodupVisited⟩
  · refine .inr ?_
    rcases inv.startVisited with hemp | hstart_vis
    · obtain ⟨hnode, -⟩ := inv.initialQ hemp entry hentry_mem
      rw [hnode]
      exact List.mem_cons_self _ _
    · exact List.mem_cons_of_mem _ hstart_vis
  · intro h
    cases h
  · intro qe hqe
    exact inv.queueBest qe (popMin_rest_subset hpop qe hqe)
  · intro v c hv hvc
    simp only [List.mem_cons, not_or] at hv
    obtain ⟨qe, hqe, hnode, hcost⟩ := inv.frontier v c hv.2 hvc
    refine ⟨qe, ?_, hnode, hcost⟩
    refine popMin_mem_rest_of_ne hpop hqe ?_
    intro h
    exact hv.1 (by rw [← hnode, h])
  · intro v cv hv hcv qe hqe
    have hqe_mem : qe ∈ s.queue := popMin_rest_subset hpop qe hqe
    rcases List.mem_cons.mp hv with rfl | hv'
    · rw [hc0] at hcv
      cases hcv
      exact hmin qe hqe_mem
    · exact inv.visitedMin v cv hv' hcv qe hqe_mem
  · intro v hv
    rcases List.mem_cons.mp hv with rfl | hv'
    · rw [hc0]
      rfl
    · exact inv.visitedKeys v hv'
  · intro v hv e he hsrc hm hpend
    rcases List.mem_cons.mp hv with rfl | hv'
    · exfalso
      refine hpend ?_
      unfold pendingOf
      rw [if_pos rfl]
      unfold adjacency
      rw [List.mem_filter]
      exact ⟨he, by simpa using hsrc⟩
    · exact inv.relaxedClosed v hv' e he hsrc hm (List.not_mem_nil e)
  · intro v cv hv hcv p hp
    rcases List.mem_cons.mp hv with rfl | hv'
    · rw [hc0] at hcv
      cases hcv
      exact hsettled_n p hp
    · exact inv.settled v cv hv' hcv p hp

theorem InvAux.mono {edges : List Edge} {strategy : WeightStrategy}
    {allowed : Option (List String)} {start : String}
    {pending : String → List Edge} {s : DState}
    (inv : InvAux edges strategy allowed start pending s)
    (pending2 : String → List Edge)
    (hsub : ∀ v e, e ∈ pending v → e ∈ pending2 v) :
    InvAux edges strategy allowed start pending2 s := by
  obtain ⟨c1, c2, c3, c4, c5, c6, c7, c8, c9, c10, c11, c12, c13, c14, c15,
    c16, c17, c18⟩ := inv
  refine ⟨c1, c2, c3, c4, c5, c6, c7, c8, c9, c10, c11, c12, c13, c14, c15,
    c16, ?_, c18⟩
  intro v hv e he hsrc hm hpend
  exact c17 v hv e he hsrc hm (fun h => hpend (hsub v e h))

theorem skip_preserves {edges : List Edge} {strategy : WeightStrategy}
    {allowed : Option (List String)} {start : String} {s : DState}
    (inv : InvAux edges strategy allowed start noPending s) {entry : QE}
    {rest : List QE} (hpop : popMin s.queue = some (entry, rest))
    (hvis : entry.node ∈ s.visited) :
    InvAux edges strategy allowed start noPending { s with queue := rest } := by
  obtain ⟨c1, c2, c3, c4, c5, c6, c7, c8, c9, c10, c11, c12, c13, c14, c15,
    c16, c17, c18⟩ := inv
  refine ⟨c1, c2, c3, c4, c5, c6, c7, c8, c9, c10, c11, ?_, ?_, ?_, ?_, c16,
    c17, c18⟩
  · intro h
    simp only [] at h
    rw [h] at hvis
    cases hvis
  · intro qe hqe
    exact c13 qe (popMin_rest_subset hpop qe hqe)
  · intro v c hv hvc
    obtain ⟨qe, hqe, hnode, hcost⟩ := c14 v c hv hvc
    refine ⟨qe, ?_, hnode, hcost⟩
    refine popMin_mem_rest_of_ne hpop hqe ?_
    intro h
    rw [h] at hnode
    exact hv (hnode ▸ hvis)
  · intro v cv hv hcv qe hqe
    exact c15 v cv hv hcv qe (popMin_rest_subset hpop qe hqe)

/-- Main loop lemma: starting from an invariant-satisfying state, the loop
never raises (the edges being valid rules out the defensive negative-weight
error) and returns a state still satisfying the invariant (with at most the
goal's own relaxation work skipped by the early `break`), with either an
exhausted queue or the goal visited. -/
theorem dijkstraLoop_inv {edges : List Edge} {strategy : WeightStrategy}
    {allowed : Option (List String)} {start goal : String}
    (hval : ∀ e ∈ edges, e.Valid) :
    ∀ (fuel : ℕ) (s : DState), loopMeasure edges s < fuel →
    InvAux edges strategy allowed start noPending s →
    ∃ s2, dijkstraLoop edges strategy allowed goal fuel s = .ok s2 ∧
      InvAux edges strategy allowed start
        (pendingOf goal (adjacency edges goal)) s2 ∧
      (s2.queue = [] ∨ goal ∈ s2.visited) := by
  intro fuel
  induction fuel with
  | zero =>
    intro s hm inv
    omega
  | succ fuel ih =>
    intro s hm inv
    cases hpop : popMin s.queue with
    | none =>
      have hq : s.queue = [] := (popMinBy_none qeLe s.queue).mp hpop
      refine ⟨s, dijkstraLoop_empty edges strategy allowed goal fuel s hpop,
        inv.mono _ ?_, .inl hq⟩
      intro v e he
      cases he
    | some pr =>
      obtain ⟨entry, rest⟩ := pr
      by_cases hvis : entry.node ∈ s.visited
      · rw [dijkstraLoop_skip edges strategy allowed goal fuel s entry rest
          hpop hvis]
        have hlt := loopMeasure_skip_lt edges s entry rest hpop
        exact ih { s with queue := rest } (by omega)
          (skip_preserves inv hpop hvis)
      · obtain ⟨dn, tn, ctx⟩ := visit_preserves hval inv hpop hvis
        by_cases hgoal : entry.node = goal
        · subst hgoal
          rw [dijkstraLoop_break edges strategy allowed entry.node fuel s
            entry rest hpop hvis rfl]
          exact ⟨_, rfl, ctx.inv, .inr (List.mem_cons_self _ _)⟩
        · cases hrel : relaxEdges strategy allowed entry.node
            (adjacency edges entry.node)
            { s with queue := rest, visited := entry.node :: s.visited } with
          | error err =>
            exfalso
            obtain ⟨-, e, he, -, hneg⟩ :=
              relaxEdges_error_means_neg strategy allowed entry.node _ _ err
                hrel
            have hE : e ∈ edges := List.mem_of_mem_filter he
            obtain ⟨h1, h2, h3, -⟩ := hval e hE
            rcases hneg with h | h
            · linarith
            · have := Edge.travel_time_nonneg e (hval e hE)
              linarith
          | ok s3 =>
            rw [dijkstraLoop_expand_ok edges strategy allowed goal fuel s
              entry rest s3 hpop hvis hgoal hrel]
            have hctx3 := relaxEdges_preserves _ _ s3 ctx hrel
            have hinv3 : InvAux edges strategy allowed start noPending s3 := by
              refine hctx3.inv.mono _ ?_
              intro v e he
              unfold pendingOf at he
              by_cases h : v = entry.node
              · rw [if_pos h] at he
                cases he
              · rw [if_neg h] at he
                cases he
            have hlt := loopMeasure_expand_lt edges strategy allowed s entry
              rest s3 hpop hvis hrel
            exact ih s3 (by omega) hinv3

theorem nodup_split_unique {α : Type} {a : α} :
    ∀ (l1 m1 l2 m2 : List α), l1 ++ a :: l2 = m1 ++ a :: m2 →
    (l1 ++ a :: l2).Nodup → l1 = m1 ∧ l2 = m2 := by
  intro l1
  induction l1 with
  | nil =>
    intro m1 l2 m2 heq hnd
    cases m1 with
    | nil =>
      simp only [List.nil_append] at heq
      cases heq
      exact ⟨rfl, rfl⟩
    | cons b m1 =>
      simp only [List.nil_append, List.cons_append] at heq
      injection heq with h1 h2
      subst h1
      exfalso
      simp only [List.nil_append, List.nodup_cons] at hnd
      apply hnd.1
      rw [h2]
      exact List.mem_append_right m1 (List.mem_cons_self _ _)
  | cons b l1 ih =>
    intro m1 l2 m2 heq hnd
    cases m1 with
    | nil =>
      simp only [List.cons_append, List.nil_append] at heq
      injection heq with h1 h2
      subst h1
      exfalso
      simp only [List.cons_append, List.nodup_cons] at hnd
      apply hnd.1
      exact List.mem_append_right l1 (List.mem_cons_self _ _)
    | cons c m1 =>
      simp only [List.cons_append] at heq
      injection heq with h1 h2
      subst h1
      simp only [List.cons_append, List.nodup_cons] at hnd
      obtain ⟨h3, h4⟩ := ih m1 l2 m2 h2 hnd.2
      exact ⟨by rw [h3], h4⟩

/-- Correctness of the predecessor walk: starting from any visited node with
enough fuel (more than the number of nodes visited after it), the
reconstruction succeeds and produces exactly the node sequence and segments
of a usable path from `start` whose distance and time are the recorded best
values. -/
theorem reconstruct_ok {edges : List Edge} {strategy : WeightStrategy}
    {allowed : Option (List String)} {start goal : String}
    {pending : String → List Edge} {s : DState}
    (inv : InvAux edges strategy allowed start pending s) :
    ∀ (fuel : ℕ) (cursor : String) (l1 l2 : List String),
    s.visited = l1 ++ cursor :: l2 → l2.length < fuel →
    ∃ (nodes : List String) (segments : List PathSegment) (p : List Edge)
      (d t : ℚ),
      reconstruct start goal s.previous fuel cursor = .ok (nodes, segments) ∧
      Chain edges allowed start cursor p ∧
      nodes = start :: p.map (fun e => e.target) ∧
      segments = p.map (segOf allowed) ∧
      s.bestDistance cursor = some d ∧ s.bestTime cursor = some t ∧
      distSum p = d ∧ timeSum p = t := by
  intro fuel
  induction fuel with
  | zero =>
    intro cursor l1 l2 hsplit hlen
    omega
  | succ fuel ih =>
    intro cursor l1 l2 hsplit hlen
    by_cases hcs : cursor = start
    · subst hcs
      refine ⟨[cursor], [], [], 0, 0, ?_, Chain.nil cursor, rfl, rfl,
        inv.start_dist, inv.start_time, rfl, rfl⟩
      simp [reconstruct]
    · have hcv : cursor ∈ s.visited := by
        rw [hsplit]
        exact List.mem_append_right l1 (List.mem_cons_self _ _)
      have hck := inv.visitedKeys cursor hcv
      have hprev_some := inv.prevDom cursor hcs hck
      obtain ⟨⟨u, e, m⟩, hprev⟩ := Option.isSome_iff_exists.mp hprev_some
      obtain ⟨hu_vis, heE, hsrcE, htgtE, hmE, du, tu, hdu, htu, hdc, htc⟩ :=
        inv.prevLink cursor u e m hprev
      obtain ⟨m1, m2, hsplit2, hu2⟩ :=
        inv.prevOrder cursor u e m hprev hcv
      have hnd : (l1 ++ cursor :: l2).Nodup := hsplit ▸ inv.nodupVisited
      obtain ⟨-, hl2eq⟩ :=
        nodup_split_unique l1 m1 l2 m2 (by rw [← hsplit, ← hsplit2]) hnd
      rw [← hl2eq] at hu2
      obtain ⟨l2a, l2b, hl2⟩ := List.append_of_mem hu2
      have hsplit3 : s.visited = (l1 ++ cursor :: l2a) ++ u :: l2b := by
        rw [hsplit, hl2]
        simp
      have hlen3 : l2b.length < fuel := by
        have : l2.length = l2a.length + 1 + l2b.length := by
          rw [hl2]
          simp
          omega
        omega
      obtain ⟨nodes, segments, p, d0, t0, hrec, hchain, hnodes, hsegs, hd0,
        ht0, hpd, hpt⟩ := ih u (l1 ++ cursor :: l2a) l2b hsplit3 hlen3
      rw [hdu] at hd0
      rw [htu] at ht0
      cases hd0
      cases ht0
      refine ⟨nodes ++ [cursor],
        segments ++ [⟨u, cursor, m, e.distance, e.travel_time⟩],
        p ++ [e], du + e.distance, tu + e.travel_time, ?_, ?_, ?_, ?_,
        hdc, htc, ?_, ?_⟩
      · simp only [reconstruct, if_neg hcs, hprev, hrec]
      · have := Chain.append edges allowed hchain e heE hsrcE
          (by rw [hmE]; rfl)
        rw [htgtE] at this
        exact this
      · rw [hnodes]
        simp [htgtE]
      · rw [hsegs]
        simp only [List.map_append, List.map_cons, List.map_nil]
        congr 1
        simp only [segOf, hmE, Option.getD_some, hsrcE, htgtE]
      · rw [distSum_append, hpd, distSum_cons, distSum_nil]
        ring
      · rw [timeSum_append, hpt, timeSum_cons, timeSum_nil]
        ring

theorem costSel_zero (strategy : WeightStrategy) : costSel strategy 0 0 = 0 := by
  cases strategy <;> rfl

/-- Everything a successful `shortest_path` run guarantees: the result is a
usable path from start to goal (with its node sequence, its segments carrying
the modes actually selected, and its totals being the path sums), and its
strategy cost is minimal among all usable paths. -/
theorem shortest_path_ok_spec {edges : List Edge} {start goal : String}
    {modes : Option (List String)} {strategy : WeightStrategy} {r : PathResult}
    (hval : ∀ e ∈ edges, e.Valid)
    (hok : shortest_path edges start goal modes strategy = .ok r) :
    ∃ p, Chain edges (normalise_modes modes) start goal p ∧
      r.nodes = start :: p.map (fun e => e.target) ∧
      r.segments = p.map (segOf (normalise_modes modes)) ∧
      r.total_distance = distSum p ∧ r.total_time = timeSum p ∧
      ∀ q, Chain edges (normalise_modes modes) start goal q →
        costSel strategy r.total_distance r.total_time ≤
          chainCost strategy q := by
  by_cases hsg : start = goal
  · subst hsg
    simp only [shortest_path, if_pos rfl] at hok
    cases hok
    refine ⟨[], Chain.nil start, rfl, rfl, rfl, rfl, ?_⟩
    intro q hq
    simp only [distSum_nil, timeSum_nil, costSel_zero]
    exact chainCost_nonneg edges (normalise_modes modes) strategy hval hq
  · simp only [shortest_path, if_neg hsg] at hok
    obtain ⟨s2, hloop, inv2, hdone⟩ :=
      @dijkstraLoop_inv edges strategy (normalise_modes modes) start goal
        hval (loopMeasure edges (initState start) + 1) (initState start)
        (Nat.lt_succ_self _)
        (initState_inv edges strategy (normalise_modes modes) start)
    rw [hloop] at hok
    simp only [] at hok
    cases hbc : s2.bestCost goal with
    | none =>
      rw [hbc] at hok
      cases hok
    | some c =>
      rw [hbc] at hok
      have hgv : goal ∈ s2.visited := by
        rcases hdone with hq | hv
        · by_contra hngv
          obtain ⟨qe, hqe, -, -⟩ := inv2.frontier goal c hngv hbc
          rw [hq] at hqe
          cases hqe
        · exact hv
      obtain ⟨l1, l2, hsplit⟩ := List.append_of_mem hgv
      have hlen : l2.length < s2.visited.length + 1 := by
        rw [hsplit]
        simp only [List.length_append, List.length_cons]
        omega
      obtain ⟨nodes, segs, p, d, t, hrec, hchain, hnodes, hsegs, hd, ht,
        hpd, hpt⟩ := @reconstruct_ok edges strategy (normalise_modes modes)
          start goal (pendingOf goal (adjacency edges goal)) s2 inv2
          (s2.visited.length + 1) goal l1 l2 hsplit hlen
      rw [hrec] at hok
      simp only [hd, ht, Option.getD_some] at hok
      cases hok
      obtain ⟨d', t', hd', ht', hceq, -, -⟩ := inv2.consistent goal c hbc
      rw [hd] at hd'
      rw [ht] at ht'
      cases hd'
      cases ht'
      refine ⟨p, hchain, hnodes, hsegs, hpd.symm, hpt.symm, ?_⟩
      intro q hq
      have hsettled := inv2.settled goal c hgv hbc q hq
      rw [← hceq]
      exact hsettled

/-- C1 (amended): for every list of (construction-validated) edges, start,
goal, allowed-mode option and strategy, if `shortest_path` returns a
`PathResult` then its node sequence is a usable path from start to goal
drawn from the edge list under the solver's normalised mode filter (the
filter is lower-cased and deduplicated, and a filter that normalises to the
empty set is treated as no filter; an edge none of whose modes survives the
filter is entirely invisible; with no filter the edge's first declared mode
is used), its segments carry the modes actually selected and its totals are
the path's sums, and its strategy cost (total distance under DISTANCE, total
time under TIME) is minimal among all such usable paths. -/
theorem C1_shortest_path_valid_and_optimal {edges : List Edge}
    {start goal : String} {modes : Option (List String)}
    {strategy : WeightStrategy} {r : PathResult}
    (hval : ∀ e ∈ edges, e.Valid)
    (hok : shortest_path edges start goal modes strategy = .ok r) :
    ∃ p, Chain edges (normalise_modes modes) start goal p ∧
      r.nodes = start :: p.map (fun e => e.target) ∧
      r.segments = p.map (segOf (normalise_modes modes)) ∧
      r.total_distance = distSum p ∧ r.total_time = timeSum p ∧
      ∀ q, Chain edges (normalise_modes modes) start goal q →
        costSel strategy r.total_distance r.total_time ≤ chainCost strategy q :=
  shortest_path_ok_spec hval hok

/-- A valid walk-only test edge. -/
def ew : Edge :=
  { source := "a", target := "b", distance := 100, ideal_speed := 1,
    congestion := 1, transport_modes := ["walk"] }

/-- Under the literal empty filter no edge of `[ew]` is usable, so usable
paths cannot move. -/
theorem chain_empty_filter_eq (u v : String) (p : List Edge)
    (hp : Chain [ew] (some []) u v p) : u = v := by
  induction hp with
  | nil => rfl
  | cons e he hm hp ih =>
    rw [List.mem_singleton] at he
    subst he
    simp [select_mode] at hm

unseal Rat.mul Rat.inv Rat.add Rat.sub in
/-- Counterexample to C1 as literally stated: with the explicitly given
empty allowed-mode set every edge should be invisible, so no path from "a"
to "b" may be returned; but `_normalise_modes` collapses an empty filter to
`None` (no filter), and the solver does return the walk path. -/
theorem C1_counterexample :
    ew.Valid ∧
    shortest_path [ew] "a" "b" (some []) WeightStrategy.distance =
      .ok { nodes := ["a", "b"],
            segments := [{ source := "a", target := "b",
                           transport_mode := "walk", distance := 100,
                           time := 100 }],
            total_distance := 100, total_time := 100 } ∧
    ¬ ∃ p, Chain [ew] (some []) "a" "b" p := by
  refine ⟨by decide, by decide, ?_⟩
  rintro ⟨p, hp⟩
  have h := chain_empty_filter_eq "a" "b" p hp
  exact absurd h (by decide)

/-- C2: the totals of every returned `PathResult` equal the sums of its
segments' distance and time fields, and when start equals goal the result is
the trivial single-node, zero-cost, zero-segment path. -/
theorem C2_totals_are_segment_sums {edges : List Edge} {start goal : String}
    {modes : Option (List String)} {strategy : WeightStrategy}
    {r : PathResult} (hval : ∀ e ∈ edges, e.Valid)
    (hok : shortest_path edges start goal modes strategy = .ok r) :
    r.total_distance = (r.segments.map (fun sg => sg.distance)).sum ∧
    r.total_time = (r.segments.map (fun sg => sg.time)).sum ∧
    (start = goal →
      r = { nodes := [start], segments := [], total_distance := 0,
            total_time := 0 }) := by
  obtain ⟨p, -, -, hsegs, hpd, hpt, -⟩ := shortest_path_ok_spec hval hok
  refine ⟨?_, ?_, ?_⟩
  · rw [hpd, hsegs, List.map_map]
    rfl
  · rw [hpt, hsegs, List.map_map]
    rfl
  · intro hsg
    subst hsg
    simp only [shortest_path, if_pos rfl] at hok
    cases hok
    rfl

/-- The concrete result of routing across the single test edge. -/
def ewResult : PathResult :=
  { nodes := ["a", "b"],
    segments := [{ source := "a", target := "b", transport_mode := "walk",
                   distance := 100, time := 100 }],
    total_distance := 100, total_time := 100 }

unseal Rat.mul Rat.inv Rat.add Rat.sub in
/-- Witness for C1 at a concrete one-edge graph. -/
theorem C1_shortest_path_valid_and_optimal_witness :
    ∃ p, Chain [ew] (normalise_modes none) "a" "b" p ∧
      ewResult.nodes = "a" :: p.map (fun e => e.target) ∧
      ewResult.segments = p.map (segOf (normalise_modes none)) ∧
      ewResult.total_distance = distSum p ∧ ewResult.total_time = timeSum p ∧
      ∀ q, Chain [ew] (normalise_modes none) "a" "b" q →
        costSel .time ewResult.total_distance ewResult.total_time ≤
          chainCost .time q :=
  @C1_shortest_path_valid_and_optimal [ew] "a" "b" none .time ewResult
    (by decide) (by decide)

unseal Rat.mul Rat.inv Rat.add Rat.sub in
/-- Witness for C2 at a concrete one-edge graph. -/
theorem C2_totals_are_segment_sums_witness :
    ewResult.total_distance =
      (ewResult.segments.map (fun sg => sg.distance)).sum ∧
    ewResult.total_time = (ewResult.segments.map (fun sg => sg.time)).sum ∧
    ("a" = "b" →
      ewResult = { nodes := ["a"], segments := [], total_distance := 0,
                   total_time := 0 }) :=
  @C2_totals_are_segment_sums [ew] "a" "b" none .time ewResult
    (by decide) (by decide)

/-- If the one usable-looking edge is rejected by the filter, chains in the
one-edge graph cannot move. -/
theorem chain_single_unusable (allowed : Option (List String))
    (hm : select_mode ew allowed = none) :
    ∀ (u v : String) (p : List Edge), Chain [ew] allowed u v p → u = v := by
  intro u v p hp
  induction hp with
  | nil => rfl
  | cons e he hm2 hp ih =>
    rw [List.mem_singleton] at he
    subst he
    rw [hm] at hm2
    cases hm2

theorem reconstruct_error_shape (start goal : String)
    (previous : String → Option (String × Edge × String)) :
    ∀ (fuel : ℕ) (cursor : String) (err : SPError),
    reconstruct start goal previous fuel cursor = .error err →
    err = .noPath start goal := by
  intro fuel
  induction fuel with
  | zero =>
    intro cursor err h
    simp only [reconstruct] at h
    cases h
    rfl
  | succ fuel ih =>
    intro cursor err h
    simp only [reconstruct] at h
    by_cases hcs : cursor = start
    · rw [if_pos hcs] at h
      cases h
    · rw [if_neg hcs] at h
      cases hprev : previous cursor with
      | none =>
        rw [hprev] at h
        cases h
        rfl
      | some pr =>
        obtain ⟨u, e, m⟩ := pr
        rw [hprev] at h
        simp only [] at h
        cases hrec : reconstruct start goal previous fuel u with
        | error err2 =>
          rw [hrec] at h
          cases h
          exact ih u err hrec
        | ok pr2 =>
          obtain ⟨nodes, segs⟩ := pr2
          rw [hrec] at h
          cases h

theorem dijkstraLoop_error_neg {edges : List Edge}
    {strategy : WeightStrategy} {allowed : Option (List String)}
    {goal : String} :
    ∀ (fuel : ℕ) (s : DState) (err : SPError),
    dijkstraLoop edges strategy allowed goal fuel s = .error err →
    err = .negWeight ∧ ∃ e ∈ edges, (select_mode e allowed).isSome ∧
      (e.distance < 0 ∨ e.travel_time < 0) := by
  intro fuel
  induction fuel with
  | zero =>
    intro s err h
    simp only [dijkstraLoop] at h
    cases h
  | succ fuel ih =>
    intro s err h
    cases hpop : popMin s.queue with
    | none =>
      rw [dijkstraLoop_empty edges strategy allowed goal fuel s hpop] at h
      cases h
    | some pr =>
      obtain ⟨entry, rest⟩ := pr
      by_cases hvis : entry.node ∈ s.visited
      · rw [dijkstraLoop_skip edges strategy allowed goal fuel s entry rest
          hpop hvis] at h
        exact ih _ err h
      · by_cases hgoal : entry.node = goal
        · rw [dijkstraLoop_break edges strategy allowed goal fuel s entry rest
            hpop hvis hgoal] at h
          cases h
        · cases hrel : relaxEdges strategy allowed entry.node
            (adjacency edges entry.node)
            { s with queue := rest, visited := entry.node :: s.visited } with
          | error err2 =>
            rw [dijkstraLoop_expand_error edges strategy allowed goal fuel s
              entry rest err2 hpop hvis hgoal hrel] at h
            injection h with h
            subst h
            obtain ⟨herr, e, he, hm, hneg⟩ :=
              relaxEdges_error_means_neg strategy allowed entry.node _ _ _
                hrel
            exact ⟨herr, e, List.mem_of_mem_filter he, hm, hneg⟩
          | ok s3 =>
            rw [dijkstraLoop_expand_ok edges strategy allowed goal fuel s
              entry rest s3 hpop hvis hgoal hrel] at h
            exact ih s3 err h

/-- C7 (amended): when the goal is unreachable from the start through
edges usable under the solver's normalised mode filter (lower-casing,
dropping empty entries, deduplication; a filter that normalises to the
empty set is treated as no filter, so an explicitly empty filter does not
make every edge unusable and the claim's literal "no usable edge matches
the filter" case can instead succeed — see the counterexample),
`shortest_path` raises exactly the "No path found" error — never a
successful empty or partial result (an `Except` value cannot be both);
and the defensive invalid-weight error is a distinct value
(`SPError.negWeight`) which is raised only when an edge with a negative
effective weight was actually encountered, never for mere
unreachability. -/
theorem C7_no_path_errors :
    (∀ (edges : List Edge) (start goal : String)
      (modes : Option (List String)) (strategy : WeightStrategy),
      (∀ e ∈ edges, e.Valid) →
      (¬ ∃ p, Chain edges (normalise_modes modes) start goal p) →
      shortest_path edges start goal modes strategy =
        .error (.noPath start goal)) ∧
    (∀ (edges : List Edge) (start goal : String)
      (modes : Option (List String)) (strategy : WeightStrategy),
      shortest_path edges start goal modes strategy = .error .negWeight →
      ∃ e ∈ edges, (select_mode e (normalise_modes modes)).isSome ∧
        (e.distance < 0 ∨ e.travel_time < 0)) := by
  constructor
  · intro edges start goal modes strategy hval hunreach
    by_cases hsg : start = goal
    · exfalso
      exact hunreach ⟨[], hsg ▸ Chain.nil start⟩
    · simp only [shortest_path, if_neg hsg]
      obtain ⟨s2, hloop, inv2, -⟩ :=
        @dijkstraLoop_inv edges strategy (normalise_modes modes) start goal
          hval (loopMeasure edges (initState start) + 1) (initState start)
          (Nat.lt_succ_self _)
          (initState_inv edges strategy (normalise_modes modes) start)
      rw [hloop]
      simp only []
      cases hbc : s2.bestCost goal with
      | none => rfl
      | some c =>
        exfalso
        obtain ⟨d, t, hd, ht, -, -, -⟩ := inv2.consistent goal c hbc
        obtain ⟨p, hp, -, -⟩ := inv2.attained goal d t hd ht
        exact hunreach ⟨p, hp⟩
  · intro edges start goal modes strategy herr
    by_cases hsg : start = goal
    · simp only [shortest_path, if_pos hsg] at herr
      cases herr
    · simp only [shortest_path, if_neg hsg] at herr
      cases hloop : dijkstraLoop edges strategy (normalise_modes modes) goal
          (loopMeasure edges (initState start) + 1) (initState start) with
      | error err0 =>
        rw [hloop] at herr
        simp only [] at herr
        cases herr
        obtain ⟨-, e, he, hm, hneg⟩ := dijkstraLoop_error_neg _ _ _ hloop
        exact ⟨e, he, hm, hneg⟩
      | ok s2 =>
        rw [hloop] at herr
        simp only [] at herr
        cases hbc : s2.bestCost goal with
        | none =>
          rw [hbc] at herr
          cases herr
        | some c =>
          rw [hbc] at herr
          cases hrec : reconstruct start goal s2.previous
              (s2.visited.length + 1) goal with
          | error err1 =>
            rw [hrec] at herr
            cases herr
            have := reconstruct_error_shape start goal s2.previous _ _ _ hrec
            cases this
          | ok pr =>
            obtain ⟨nodes, segs⟩ := pr
            rw [hrec] at herr
            cases herr

/-- Witness for C7 at a concrete input whose only edge fails the filter. -/
theorem C7_no_path_errors_witness :
    shortest_path [ew] "a" "b" (some ["bike"]) WeightStrategy.time =
      .error (.noPath "a" "b") := by
  refine C7_no_path_errors.1 [ew] "a" "b" (some ["bike"]) .time (by decide) ?_
  rintro ⟨p, hp⟩
  have h := chain_single_unusable (normalise_modes (some ["bike"]))
    (by decide) "a" "b" p hp
  exact absurd h (by decide)

unseal Rat.mul Rat.inv Rat.add Rat.sub in
/-- Counterexample to C7 as literally stated: with the explicitly empty
allowed-mode filter, no edge of the graph has a mode in the given filter
— the claim's "no usable edge matches the filter" case — yet
`shortest_path` returns a successful non-empty PathResult and in
particular never fails, because `_normalise_modes` collapses the empty
filter to no filter before the search runs. -/
theorem C7_counterexample :
    (∀ e ∈ [ew], ∀ m ∈ e.transport_modes, m ∉ ([] : List String)) ∧
    shortest_path [ew] "a" "b" (some []) WeightStrategy.time =
      .ok ewResult ∧
    ∀ err : SPError,
      shortest_path [ew] "a" "b" (some []) WeightStrategy.time ≠
        .error err := by
  refine ⟨by decide, by decide, fun err h => ?_⟩
  have h2 : shortest_path [ew] "a" "b" (some []) WeightStrategy.time =
      .ok ewResult := by decide
  rw [h2] at h
  cases h

/-- Single leg of the computed tour (`TourLeg`; `end` is a Lean keyword, so
the field is `end_`). -/
structure TourLeg where
  start : String
  end_ : String
  path : PathResult
deriving DecidableEq, Repr

/-- Aggregate outcome of a tour computation (`TourResult`). -/
structure TourResult where
  route : List String
  legs : List TourLeg
  total_distance : ℚ
  total_time : ℚ
deriving DecidableEq, Repr

/-- Failure modes of `compute_tour`: the dedicated `TourComputationError`
("No feasible path between X and Y"), and the uncaught `KeyError` a missing
`pair_paths` dict key raises. -/
inductive TourError where
  | noFeasible : String → String → TourError
  | keyError : TourError
deriving DecidableEq, Repr

/-- Order-preserving first-occurrence deduplication
(`list(dict.fromkeys(targets))`). -/
def firstDedup : List String → List String
  | [] => []
  | x :: xs => x :: (firstDedup xs).filter (fun y => y ≠ x)

/-- The `pair_paths` cache, a dict keyed by ordered node pairs. -/
def PairMap : Type := String × String → Option PathResult

/-- Dict insertion for the pair cache. -/
def updPair (f : PairMap) (k : String × String) (v : PathResult) : PairMap :=
  fun x => if x = k then some v else f x

/-- Inner loop of `_precompute_pair_paths`: all destinations for one origin,
skipping self-pairs and already-present keys, wrapping a solver failure into
the descriptive tour error. -/
def precomputeInner (edges : List Edge) (allowed : Option (List String))
    (strategy : WeightStrategy) (origin : String) :
    List String → PairMap → Except TourError PairMap
  | [], pp => .ok pp
  | dest :: rest, pp =>
    if origin = dest then precomputeInner edges allowed strategy origin rest pp
    else if (pp (origin, dest)).isSome then
      precomputeInner edges allowed strategy origin rest pp
    else
      match shortest_path edges origin dest allowed strategy with
      | .ok r => precomputeInner edges allowed strategy origin rest
          (updPair pp (origin, dest) r)
      | .error _ => .error (.noFeasible origin dest)

/-- Outer loop of `_precompute_pair_paths` over origins. -/
def precomputeOuter (edges : List Edge) (allowed : Option (List String))
    (strategy : WeightStrategy) (nodes : List String) :
    List String → PairMap → Except TourError PairMap
  | [], pp => .ok pp
  | origin :: rest, pp =>
    match precomputeInner edges allowed strategy origin nodes pp with
    | .error e => .error e
    | .ok pp2 => precomputeOuter edges allowed strategy nodes rest pp2

/-- `_precompute_pair_paths`: one shortest-path call per ordered non-self
pair of tour nodes, cached; a failing pair aborts the whole computation. -/
def precompute_pair_paths (edges : List Edge) (nodes : List String)
    (allowed : Option (List String)) (strategy : WeightStrategy) :
    Except TourError PairMap :=
  precomputeOuter edges allowed strategy nodes nodes (fun _ => none)

/-- `_path_cost`: the scalar the strategy selects from a PathResult. -/
def path_cost (path : PathResult) (strategy : WeightStrategy) : ℚ :=
  costSel strategy path.total_distance path.total_time

/-- Evaluation of the `min` key on every remaining candidate (Python's `min`
evaluates its key on each element, so one missing dict key raises KeyError
regardless of position — modelled by returning `none`). -/
def pairCosts (pp : PairMap) (strategy : WeightStrategy) (current : String) :
    List String → Option (List (String × ℚ))
  | [] => some []
  | n :: rest =>
    match pp (current, n) with
    | none => none
    | some r =>
      match pairCosts pp strategy current rest with
      | none => none
      | some cs => some ((n, path_cost r strategy) :: cs)

/-- First minimal element under strictly-smaller replacement, as Python's
`min` returns the first of equally-cheap candidates. -/
def argminFirst : (String × ℚ) → List (String × ℚ) → String × ℚ
  | best, [] => best
  | best, c :: rest =>
    if c.2 < best.2 then argminFirst c rest else argminFirst best rest

/-- The nearest unvisited target pick of `_nearest_neighbour_route`. -/
def pickMin (pp : PairMap) (strategy : WeightStrategy) (current : String)
    (remaining : List String) : Option String :=
  match pairCosts pp strategy current remaining with
  | none => none
  | some [] => none
  | some (c :: cs) => some (argminFirst c cs).1

/-- The greedy loop of `_nearest_neighbour_route`; the fuel (the number of
remaining targets at the call) only makes the recursion structural — every
iteration removes the picked element. -/
def nnLoop (pp : PairMap) (strategy : WeightStrategy) :
    ℕ → String → List String → Option (List String)
  | _, _, [] => some []
  | 0, _, _ :: _ => none
  | fuel + 1, current, rem1 :: rem2 =>
    match pickMin pp strategy current (rem1 :: rem2) with
    | none => none
    | some nxt =>
      match nnLoop pp strategy fuel nxt ((rem1 :: rem2).erase nxt) with
      | none => none
      | some rest => some (nxt :: rest)

/-- `_nearest_neighbour_route`: greedy construction of the initial closed
route; `none` models the uncaught KeyError (in particular the
never-precomputed self pair when `start` is itself a target). -/
def nearest_neighbour_route (start : String) (targets : List String)
    (pp : PairMap) (strategy : WeightStrategy) : Option (List String) :=
  match nnLoop pp strategy (firstDedup targets).length start
      (firstDedup targets) with
  | none => none
  | some picks => some (start :: picks ++ [start])

/-- `_route_cost`: total strategy cost over consecutive pairs, `none`
modelling the `inf` returned when a pair is missing from the cache. -/
def route_cost (pp : PairMap) (strategy : WeightStrategy) :
    List String → Option ℚ
  | [] => some 0
  | [_] => some 0
  | a :: b :: rest =>
    match pp (a, b) with
    | none => none
    | some r =>
      match route_cost pp strategy (b :: rest) with
      | none => none
      | some c => some (path_cost r strategy + c)

/-- The 2-opt acceptance test `cost + 1e-9 < best_cost` with `none` as
infinity (`inf + 1e-9 < x` is false, `c + 1e-9 < inf` is true). -/
def ltTol : Option ℚ → Option ℚ → Bool
  | none, _ => false
  | some _, none => true
  | some c, some b => decide (c + 1 / 1000000000 < b)

/-- One candidate 2-opt reversal `route[:i] + route[i:j][::-1] + route[j:]`. -/
def applyMove (route : List String) (i j : ℕ) : List String :=
  route.take i ++ ((route.drop i).take (j - i)).reverse ++ route.drop j

/-- The (i, j) pairs the nested 2-opt loops enumerate, in order: `i` over
`range(1, n-2)`, `j` over `range(i+1, n-1)`, skipping adjacent `j - i == 1`. -/
def movePairs (n : ℕ) : List (ℕ × ℕ) :=
  (List.range' 1 (n - 3)).flatMap (fun i =>
    ((List.range' (i + 1) (n - 2 - i)).filter (fun j => j - i ≠ 1)).map
      (fun j => (i, j)))

/-- First strictly-improving reversal of one 2-opt pass (first-improvement,
both loops break on acceptance). -/
def findImprove (pp : PairMap) (strategy : WeightStrategy)
    (route : List String) (best : Option ℚ) :
    List (ℕ × ℕ) → Option (List String)
  | [] => none
  | (i, j) :: rest =>
    let cand := applyMove route i j
    if ltTol (route_cost pp strategy cand) best then some cand
    else findImprove pp strategy route best rest

/-- The `while improved and iteration < max_iterations` loop of `_two_opt`:
each pass restarts from the first improving move found. -/
def twoOptLoop (pp : PairMap) (strategy : WeightStrategy) :
    ℕ → List String → List String
  | 0, route => route
  | fuel + 1, route =>
    match findImprove pp strategy route (route_cost pp strategy route)
        (movePairs route.length) with
    | none => route
    | some better => twoOptLoop pp strategy fuel better

/-- `_two_opt`: local search improvement with an iteration budget. -/
def two_opt (route : List String) (pp : PairMap)
    (strategy : WeightStrategy) (max_iterations : ℕ) : List String :=
  if route.length ≤ 3 then route
  else twoOptLoop pp strategy max_iterations route

/-- The leg-building loop at the end of `compute_tour`: wrap the cached
PathResult of each consecutive pair and accumulate the totals (`none` models
the KeyError of a missing pair). -/
def buildLegs (pp : PairMap) : List String → Option (List TourLeg × ℚ × ℚ)
  | [] => some ([], 0, 0)
  | [_] => some ([], 0, 0)
  | a :: b :: rest =>
    match pp (a, b) with
    | none => none
    | some r =>
      match buildLegs pp (b :: rest) with
      | none => none
      | some (legs, td, tt) =>
        some (⟨a, b, r⟩ :: legs, r.total_distance + td, r.total_time + tt)

/-- `compute_tour`: round trip visiting each target via nearest-neighbour
construction plus 2-opt improvement. -/
def compute_tour (edges : List Edge) (start : String) (targets : List String)
    (allowed_modes : Option (List String) := none)
    (strategy : WeightStrategy := .time) (max_iterations : ℕ := 50) :
    Except TourError TourResult :=
  if targets.isEmpty then
    .ok { route := [start, start], legs := [], total_distance := 0,
          total_time := 0 }
  else
    match precompute_pair_paths edges (start :: firstDedup targets)
        allowed_modes strategy with
    | .error e => .error e
    | .ok pp =>
      match nearest_neighbour_route start targets pp strategy with
      | none => .error .keyError
      | some initialRoute =>
        match buildLegs pp (two_opt initialRoute pp strategy max_iterations) with
        | none => .error .keyError
        | some (legs, td, tt) =>
          .ok { route := two_opt initialRoute pp strategy max_iterations,
                legs := legs, total_distance := td, total_time := tt }

/-- Soundness of the pair cache: every stored entry is the solver's result
for a non-self pair. -/
def PPSound (edges : List Edge) (allowed : Option (List String))
    (strategy : WeightStrategy) (pp : PairMap) : Prop :=
  ∀ a b r, pp (a, b) = some r →
    a ≠ b ∧ shortest_path edges a b allowed strategy = .ok r

theorem precomputeInner_sound {edges : List Edge}
    {allowed : Option (List String)} {strategy : WeightStrategy}
    {origin : String} :
    ∀ (dests : List String) (pp pp2 : PairMap),
    PPSound edges allowed strategy pp →
    precomputeInner edges allowed strategy origin dests pp = .ok pp2 →
    PPSound edges allowed strategy pp2 ∧
      (∀ k, (pp k).isSome → (pp2 k).isSome) ∧
      (∀ d ∈ dests, origin ≠ d → (pp2 (origin, d)).isSome) := by
  intro dests
  induction dests with
  | nil =>
    intro pp pp2 hs h
    cases h
    exact ⟨hs, fun k h => h, fun d hd => absurd hd (List.not_mem_nil d)⟩
  | cons dest rest ih =>
    intro pp pp2 hs h
    simp only [precomputeInner] at h
    by_cases heq : origin = dest
    · rw [if_pos heq] at h
      obtain ⟨h1, h2, h3⟩ := ih pp pp2 hs h
      refine ⟨h1, h2, ?_⟩
      intro d hd hne
      rcases List.mem_cons.mp hd with rfl | hd'
      · exact absurd heq hne
      · exact h3 d hd' hne
    · rw [if_neg heq] at h
      by_cases hpres : (pp (origin, dest)).isSome
      · rw [if_pos hpres] at h
        obtain ⟨h1, h2, h3⟩ := ih pp pp2 hs h
        refine ⟨h1, h2, ?_⟩
        intro d hd hne
        rcases List.mem_cons.mp hd with rfl | hd'
        · exact h2 _ hpres
        · exact h3 d hd' hne
      · rw [if_neg hpres] at h
        cases hsp : shortest_path edges origin dest allowed strategy with
        | error err =>
          rw [hsp] at h
          cases h
        | ok r =>
          rw [hsp] at h
          have hs2 : PPSound edges allowed strategy
              (updPair pp (origin, dest) r) := by
            intro a b r2 hab
            unfold updPair at hab
            by_cases hk : (a, b) = (origin, dest)
            · rw [if_pos hk] at hab
              cases hab
              obtain ⟨ha, hb⟩ := Prod.mk.injEq .. ▸ hk
              subst ha
              subst hb
              exact ⟨heq, hsp⟩
            · rw [if_neg hk] at hab
              exact hs a b r2 hab
          obtain ⟨h1, h2, h3⟩ := ih _ pp2 hs2 h
          refine ⟨h1, ?_, ?_⟩
          · intro k hk
            refine h2 k ?_
            unfold updPair
            by_cases hkk : k = (origin, dest)
            · rw [if_pos hkk]
              rfl
            · rw [if_neg hkk]
              exact hk
          · intro d hd hne
            rcases List.mem_cons.mp hd with rfl | hd'
            · refine h2 (origin, d) ?_
              unfold updPair
              rw [if_pos rfl]
              rfl
            · exact h3 d hd' hne

theorem precomputeInner_error {edges : List Edge}
    {allowed : Option (List String)} {strategy : WeightStrategy}
    {origin : String} :
    ∀ (dests : List String) (pp : PairMap) (e : TourError),
    precomputeInner edges allowed strategy origin dests pp = .error e →
    ∃ d ∈ dests, e = .noFeasible origin d ∧ origin ≠ d ∧
      ∃ err, shortest_path edges origin d allowed strategy = .error err := by
  intro dests
  induction dests with
  | nil =>
    intro pp e h
    cases h
  | cons dest rest ih =>
    intro pp e h
    simp only [precomputeInner] at h
    by_cases heq : origin = dest
    · rw [if_pos heq] at h
      obtain ⟨d, hd, rest'⟩ := ih pp e h
      exact ⟨d, List.mem_cons_of_mem _ hd, rest'⟩
    · rw [if_neg heq] at h
      by_cases hpres : (pp (origin, dest)).isSome
      · rw [if_pos hpres] at h
        obtain ⟨d, hd, rest'⟩ := ih pp e h
        exact ⟨d, List.mem_cons_of_mem _ hd, rest'⟩
      · rw [if_neg hpres] at h
        cases hsp : shortest_path edges origin dest allowed strategy with
        | error err =>
          rw [hsp] at h
          cases h
          exact ⟨dest, List.mem_cons_self _ _, rfl, heq, err, hsp⟩
        | ok r =>
          rw [hsp] at h
          obtain ⟨d, hd, rest'⟩ := ih _ e h
          exact ⟨d, List.mem_cons_of_mem _ hd, rest'⟩

theorem precomputeInner_mono {edges : List Edge}
    {allowed : Option (List String)} {strategy : WeightStrategy}
    {origin : String} :
    ∀ (dests : List String) (pp pp2 : PairMap),
    precomputeInner edges allowed strategy origin dests pp = .ok pp2 →
    ∀ k, (pp k).isSome → (pp2 k).isSome := by
  intro dests
  induction dests with
  | nil =>
    intro pp pp2 h k hk
    cases h
    exact hk
  | cons dest rest ih =>
    intro pp pp2 h k hk
    simp only [precomputeInner] at h
    by_cases heq : origin = dest
    · rw [if_pos heq] at h
      exact ih pp pp2 h k hk
    · rw [if_neg heq] at h
      by_cases hpres : (pp (origin, dest)).isSome
      · rw [if_pos hpres] at h
        exact ih pp pp2 h k hk
      · rw [if_neg hpres] at h
        cases hsp : shortest_path edges origin dest allowed strategy with
        | error err =>
          rw [hsp] at h
          cases h
        | ok r =>
          rw [hsp] at h
          refine ih _ pp2 h k ?_
          unfold updPair
          by_cases hkk : k = (origin, dest)
          · rw [if_pos hkk]
            rfl
          · rw [if_neg hkk]
            exact hk

theorem precomputeOuter_mono {edges : List Edge}
    {allowed : Option (List String)} {strategy : WeightStrategy}
    {nodes : List String} :
    ∀ (origins : List String) (pp pp2 : PairMap),
    precomputeOuter edges allowed strategy nodes origins pp = .ok pp2 →
    ∀ k, (pp k).isSome → (pp2 k).isSome := by
  intro origins
  induction origins with
  | nil =>
    intro pp pp2 h k hk
    cases h
    exact hk
  | cons origin rest ih =>
    intro pp pp2 h k hk
    simp only [precomputeOuter] at h
    cases hinner : precomputeInner edges allowed strategy origin nodes pp with
    | error e =>
      rw [hinner] at h
      cases h
    | ok pp1 =>
      rw [hinner] at h
      exact ih pp1 pp2 h k (precomputeInner_mono nodes pp pp1 hinner k hk)

theorem precomputeOuter_sound {edges : List Edge}
    {allowed : Option (List String)} {strategy : WeightStrategy}
    {nodes : List String} :
    ∀ (origins : List String) (pp pp2 : PairMap),
    PPSound edges allowed strategy pp →
    precomputeOuter edges allowed strategy nodes origins pp = .ok pp2 →
    PPSound edges allowed strategy pp2 ∧
      (∀ o ∈ origins, ∀ d ∈ nodes, o ≠ d → (pp2 (o, d)).isSome) := by
  intro origins
  induction origins with
  | nil =>
    intro pp pp2 hs h
    cases h
    exact ⟨hs, fun o ho => absurd ho (List.not_mem_nil o)⟩
  | cons origin rest ih =>
    intro pp pp2 hs h
    simp only [precomputeOuter] at h
    cases hinner : precomputeInner edges allowed strategy origin nodes pp with
    | error e =>
      rw [hinner] at h
      cases h
    | ok pp1 =>
      rw [hinner] at h
      obtain ⟨h1, h2, h3⟩ := precomputeInner_sound nodes pp pp1 hs hinner
      obtain ⟨h4, h5⟩ := ih pp1 pp2 h1 h
      refine ⟨h4, ?_⟩
      intro o ho d hd hne
      rcases List.mem_cons.mp ho with rfl | ho2
      · exact precomputeOuter_mono rest pp1 pp2 h (o, d) (h3 d hd hne)
      · exact h5 o ho2 d hd hne

theorem precomputeOuter_error {edges : List Edge}
    {allowed : Option (List String)} {strategy : WeightStrategy}
    {nodes : List String} :
    ∀ (origins : List String) (pp : PairMap) (e : TourError),
    precomputeOuter edges allowed strategy nodes origins pp = .error e →
    ∃ o ∈ origins, ∃ d ∈ nodes, e = .noFeasible o d ∧ o ≠ d ∧
      ∃ err, shortest_path edges o d allowed strategy = .error err := by
  intro origins
  induction origins with
  | nil =>
    intro pp e h
    cases h
  | cons origin rest ih =>
    intro pp e h
    simp only [precomputeOuter] at h
    cases hinner : precomputeInner edges allowed strategy origin nodes pp with
    | error e2 =>
      rw [hinner] at h
      cases h
      obtain ⟨d, hd, he, hne, herr⟩ := precomputeInner_error nodes pp e hinner
      exact ⟨origin, List.mem_cons_self _ _, d, hd, he, hne, herr⟩
    | ok pp1 =>
      rw [hinner] at h
      obtain ⟨o, ho, rest2⟩ := ih pp1 e h
      exact ⟨o, List.mem_cons_of_mem _ ho, rest2⟩

theorem argminFirst_mem : ∀ (best : String × ℚ) (cs : List (String × ℚ)),
    argminFirst best cs = best ∨ argminFirst best cs ∈ cs := by
  intro best cs
  induction cs generalizing best with
  | nil => exact .inl rfl
  | cons c rest ih =>
    simp only [argminFirst]
    by_cases h : c.2 < best.2
    · rw [if_pos h]
      rcases ih c with h2 | h2
      · rw [h2]
        exact .inr (List.mem_cons_self _ _)
      · exact .inr (List.mem_cons_of_mem _ h2)
    · rw [if_neg h]
      rcases ih best with h2 | h2
      · exact .inl h2
      · exact .inr (List.mem_cons_of_mem _ h2)

theorem pairCosts_names (pp : PairMap) (strategy : WeightStrategy)
    (current : String) :
    ∀ (remaining : List String) (cs : List (String × ℚ)),
    pairCosts pp strategy current remaining = some cs →
    cs.map Prod.fst = remaining := by
  intro remaining
  induction remaining with
  | nil =>
    intro cs h
    cases h
    rfl
  | cons n rest ih =>
    intro cs h
    simp only [pairCosts] at h
    cases hp : pp (current, n) with
    | none =>
      rw [hp] at h
      cases h
    | some r =>
      rw [hp] at h
      cases hrest : pairCosts pp strategy current rest with
      | none =>
        rw [hrest] at h
        cases h
      | some cs2 =>
        rw [hrest] at h
        cases h
        simp only [List.map_cons]
        rw [ih cs2 hrest]

theorem pickMin_mem (pp : PairMap) (strategy : WeightStrategy)
    (current : String) (remaining : List String) (nxt : String)
    (h : pickMin pp strategy current remaining = some nxt) :
    nxt ∈ remaining := by
  unfold pickMin at h
  cases hc : pairCosts pp strategy current remaining with
  | none =>
    rw [hc] at h
    cases h
  | some cs =>
    rw [hc] at h
    cases cs with
    | nil => cases h
    | cons c rest =>
      cases h
      have hnames := pairCosts_names pp strategy current remaining _ hc
      rcases argminFirst_mem c rest with h2 | h2
      · rw [← hnames, h2]
        exact List.mem_map_of_mem Prod.fst (List.mem_cons_self _ _)
      · rw [← hnames]
        exact List.mem_map_of_mem Prod.fst (List.mem_cons_of_mem _ h2)

theorem nnLoop_perm (pp : PairMap) (strategy : WeightStrategy) :
    ∀ (fuel : ℕ) (current : String) (remaining : List String)
      (picks : List String),
    nnLoop pp strategy fuel current remaining = some picks →
    picks.Perm remaining := by
  intro fuel
  induction fuel with
  | zero =>
    intro current remaining picks h
    cases remaining with
    | nil =>
      cases h
      rfl
    | cons a b => cases h
  | succ fuel ih =>
    intro current remaining picks h
    cases remaining with
    | nil =>
      cases h
      rfl
    | cons rem1 rem2 =>
      simp only [nnLoop] at h
      cases hpick : pickMin pp strategy current (rem1 :: rem2) with
      | none =>
        rw [hpick] at h
        cases h
      | some nxt =>
        rw [hpick] at h
        simp only [] at h
        cases hrec : nnLoop pp strategy fuel nxt ((rem1 :: rem2).erase nxt) with
        | none =>
          rw [hrec] at h
          cases h
        | some rest =>
          rw [hrec] at h
          cases h
          have hmem := pickMin_mem pp strategy current (rem1 :: rem2) nxt hpick
          have hperm := ih nxt ((rem1 :: rem2).erase nxt) rest hrec
          exact (hperm.cons nxt).trans (List.perm_cons_erase hmem).symm

theorem applyMove_shape (start : String) (mid : List String) (i j : ℕ)
    (h1 : 1 ≤ i) (hij : i < j) (hj : j ≤ mid.length) :
    ∃ mid2, applyMove (start :: mid ++ [start]) i j =
      start :: mid2 ++ [start] ∧ mid2.Perm mid := by
  obtain ⟨i1, rfl⟩ : ∃ i1, i = i1 + 1 := ⟨i - 1, by omega⟩
  unfold applyMove
  have htake : (start :: mid ++ [start]).take (i1 + 1) =
      start :: mid.take i1 := by
    simp only [List.cons_append, List.take_succ_cons]
    rw [List.take_append_of_le_length (by omega)]
  have hdropi : (start :: mid ++ [start]).drop (i1 + 1) =
      mid.drop i1 ++ [start] := by
    simp only [List.cons_append, List.drop_succ_cons]
    rw [List.drop_append_of_le_length (by omega)]
  have hdropj : (start :: mid ++ [start]).drop j =
      mid.drop (j - 1) ++ [start] := by
    obtain ⟨j1, rfl⟩ : ∃ j1, j = j1 + 1 := ⟨j - 1, by omega⟩
    simp only [List.cons_append, List.drop_succ_cons]
    rw [List.drop_append_of_le_length (by omega)]
    simp
  have hslice : ((start :: mid ++ [start]).drop (i1 + 1)).take (j - (i1 + 1)) =
      (mid.drop i1).take (j - (i1 + 1)) := by
    rw [hdropi]
    rw [List.take_append_of_le_length (by simp [List.length_drop]; omega)]
  refine ⟨mid.take i1 ++ ((mid.drop i1).take (j - (i1 + 1))).reverse ++
    mid.drop (j - 1), ?_, ?_⟩
  · rw [htake, hdropj, hslice]
    simp
  · have hmid : mid = mid.take i1 ++ ((mid.drop i1).take (j - (i1 + 1)) ++
        mid.drop (j - 1)) := by
      have h2 : (mid.drop i1).drop (j - (i1 + 1)) = mid.drop (j - 1) := by
        rw [List.drop_drop]
        congr 1
        omega
      rw [← h2, List.take_append_drop, List.take_append_drop]
    conv_rhs => rw [hmid]
    rw [List.append_assoc]
    refine List.Perm.append_left _ ?_
    exact List.Perm.append_right _ (List.reverse_perm _)

theorem movePairs_bounds (n : ℕ) (i j : ℕ) (h : (i, j) ∈ movePairs n) :
    1 ≤ i ∧ i < j ∧ j ≤ n - 2 := by
  unfold movePairs at h
  rw [List.mem_flatMap] at h
  obtain ⟨i2, hi2, hmem⟩ := h
  rw [List.mem_map] at hmem
  obtain ⟨j2, hj2, heq⟩ := hmem
  injection heq with h1 h2
  subst h1
  subst h2
  rw [List.mem_filter] at hj2
  obtain ⟨hj2r, -⟩ := hj2
  rw [List.mem_range'_1] at hi2 hj2r
  omega

theorem findImprove_spec (pp : PairMap) (strategy : WeightStrategy)
    (route : List String) (best : Option ℚ) :
    ∀ (pairs : List (ℕ × ℕ)) (cand : List String),
    findImprove pp strategy route best pairs = some cand →
    ∃ ij ∈ pairs, cand = applyMove route ij.1 ij.2 := by
  intro pairs
  induction pairs with
  | nil =>
    intro cand h
    cases h
  | cons ij rest ih =>
    intro cand h
    obtain ⟨i, j⟩ := ij
    simp only [findImprove] at h
    by_cases himp : ltTol (route_cost pp strategy (applyMove route i j))
        best = true
    · rw [if_pos himp] at h
      cases h
      exact ⟨(i, j), List.mem_cons_self _ _, rfl⟩
    · rw [if_neg himp] at h
      obtain ⟨ij2, hij2, hc⟩ := ih cand h
      exact ⟨ij2, List.mem_cons_of_mem _ hij2, hc⟩

theorem twoOptLoop_shape (pp : PairMap) (strategy : WeightStrategy)
    (start : String) :
    ∀ (fuel : ℕ) (mid : List String),
    ∃ mid2, twoOptLoop pp strategy fuel (start :: mid ++ [start]) =
      start :: mid2 ++ [start] ∧ mid2.Perm mid := by
  intro fuel
  induction fuel with
  | zero =>
    intro mid
    exact ⟨mid, rfl, List.Perm.refl mid⟩
  | succ fuel ih =>
    intro mid
    simp only [twoOptLoop]
    cases hfind : findImprove pp strategy (start :: mid ++ [start])
        (route_cost pp strategy (start :: mid ++ [start]))
        (movePairs (start :: mid ++ [start]).length) with
    | none =>
      exact ⟨mid, rfl, List.Perm.refl mid⟩
    | some better =>
      obtain ⟨⟨i, j⟩, hij, hb⟩ := findImprove_spec pp strategy _ _ _ better
        hfind
      obtain ⟨h1, h2, h3⟩ := movePairs_bounds _ i j hij
      have hlen : (start :: mid ++ [start]).length = mid.length + 2 := by
        simp
      rw [hlen] at h3
      obtain ⟨mid2, hm2, hperm2⟩ := applyMove_shape start mid i j h1 h2
        (by omega)
      rw [hb, hm2]
      obtain ⟨mid3, hm3, hperm3⟩ := ih mid2
      exact ⟨mid3, hm3, hperm3.trans hperm2⟩

theorem two_opt_shape (pp : PairMap) (strategy : WeightStrategy)
    (start : String) (mid : List String) (max_iterations : ℕ) :
    ∃ mid2, two_opt (start :: mid ++ [start]) pp strategy max_iterations =
      start :: mid2 ++ [start] ∧ mid2.Perm mid := by
  unfold two_opt
  by_cases h : (start :: mid ++ [start]).length ≤ 3
  · rw [if_pos h]
    exact ⟨mid, rfl, List.Perm.refl mid⟩
  · rw [if_neg h]
    exact twoOptLoop_shape pp strategy start max_iterations mid

/-- The consecutive pairs of a route (`zip(route, route[1:])`). -/
def routePairs : List String → List (String × String)
  | a :: b :: rest => (a, b) :: routePairs (b :: rest)
  | _ => []

theorem buildLegs_spec (pp : PairMap) :
    ∀ (route : List String) (legs : List TourLeg) (td tt : ℚ),
    buildLegs pp route = some (legs, td, tt) →
    td = (legs.map (fun l => l.path.total_distance)).sum ∧
    tt = (legs.map (fun l => l.path.total_time)).sum ∧
    legs.map (fun l => (l.start, l.end_)) = routePairs route ∧
    ∀ l ∈ legs, pp (l.start, l.end_) = some l.path := by
  intro route
  induction route with
  | nil =>
    intro legs td tt h
    cases h
    refine ⟨by simp, by simp, rfl, ?_⟩
    intro l hl
    cases hl
  | cons a tail ih =>
    intro legs td tt h
    cases tail with
    | nil =>
      cases h
      refine ⟨by simp, by simp, rfl, ?_⟩
      intro l hl
      cases hl
    | cons b rest =>
      simp only [buildLegs] at h
      cases hp : pp (a, b) with
      | none =>
        rw [hp] at h
        cases h
      | some r =>
        rw [hp] at h
        cases hb : buildLegs pp (b :: rest) with
        | none =>
          rw [hb] at h
          cases h
        | some pr =>
          obtain ⟨legs2, td2, tt2⟩ := pr
          rw [hb] at h
          cases h
          obtain ⟨g1, g2, g3, g4⟩ := ih legs2 td2 tt2 hb
          refine ⟨?_, ?_, ?_, ?_⟩
          · simp only [List.map_cons, List.sum_cons]
            rw [g1]
          · simp only [List.map_cons, List.sum_cons]
            rw [g2]
          · simp only [List.map_cons, routePairs]
            rw [g3]
          · intro l hl
            rcases List.mem_cons.mp hl with rfl | hl2
            · exact hp
            · exact g4 l hl2

theorem firstDedup_mem : ∀ (l : List String) (x : String),
    x ∈ firstDedup l ↔ x ∈ l := by
  intro l
  induction l with
  | nil => intro x; rfl
  | cons a rest ih =>
    intro x
    simp only [firstDedup, List.mem_cons]
    constructor
    · rintro (rfl | hx)
      · exact .inl rfl
      · exact .inr ((ih x).mp (List.mem_of_mem_filter hx))
    · rintro (rfl | hx)
      · exact .inl rfl
      · by_cases hxa : x = a
        · exact .inl hxa
        · refine .inr ?_
          rw [List.mem_filter]
          exact ⟨(ih x).mpr hx, by simpa using hxa⟩

theorem firstDedup_ne_nil (l : List String) (h : l ≠ []) :
    firstDedup l ≠ [] := by
  cases l with
  | nil => exact absurd rfl h
  | cons a rest =>
    simp [firstDedup]

theorem ppSound_empty (edges : List Edge) (allowed : Option (List String))
    (strategy : WeightStrategy) :
    PPSound edges allowed strategy (fun _ => none) := by
  intro a b r h
  cases h

/-- C4: every TourResult `compute_tour` returns for a non-empty target list
is a closed route from and to `start` whose interior is a permutation of the
deduplicated targets (each appearing exactly once), whose totals are the sums
of the corresponding totals of its legs, and whose legs, one per consecutive
route pair, wrap exactly the solver's precomputed PathResult for that pair. -/
theorem C4_tour_structure {edges : List Edge} {start : String}
    {targets : List String} {allowed : Option (List String)}
    {strategy : WeightStrategy} {maxit : ℕ} {res : TourResult}
    (hne : targets ≠ [])
    (hok : compute_tour edges start targets allowed strategy maxit =
      .ok res) :
    ∃ mid, res.route = start :: mid ++ [start] ∧
      mid.Perm (firstDedup targets) ∧
      res.total_distance =
        (res.legs.map (fun l => l.path.total_distance)).sum ∧
      res.total_time = (res.legs.map (fun l => l.path.total_time)).sum ∧
      res.legs.map (fun l => (l.start, l.end_)) = routePairs res.route ∧
      ∀ l ∈ res.legs,
        shortest_path edges l.start l.end_ allowed strategy = .ok l.path := by
  have hemp : targets.isEmpty = false := by
    cases targets with
    | nil => exact absurd rfl hne
    | cons a b => rfl
  simp only [compute_tour, hemp, Bool.false_eq_true, if_false] at hok
  cases hpre : precompute_pair_paths edges (start :: firstDedup targets)
      allowed strategy with
  | error e =>
    rw [hpre] at hok
    simp only [] at hok
    cases hok
  | ok pp =>
    rw [hpre] at hok
    simp only [] at hok
    obtain ⟨hsound, -⟩ := precomputeOuter_sound (start :: firstDedup targets)
      (fun _ => none) pp (ppSound_empty edges allowed strategy) hpre
    cases hnn : nearest_neighbour_route start targets pp strategy with
    | none =>
      rw [hnn] at hok
      simp only [] at hok
      cases hok
    | some initialRoute =>
      rw [hnn] at hok
      simp only [] at hok
      unfold nearest_neighbour_route at hnn
      cases hloop : nnLoop pp strategy (firstDedup targets).length start
          (firstDedup targets) with
      | none =>
        rw [hloop] at hnn
        simp only [] at hnn
        cases hnn
      | some picks =>
        rw [hloop] at hnn
        simp only [] at hnn
        cases hnn
        have hperm := nnLoop_perm pp strategy _ start _ picks hloop
        obtain ⟨mid2, hshape, hperm2⟩ :=
          two_opt_shape pp strategy start picks maxit
        rw [hshape] at hok
        cases hbuild : buildLegs pp (start :: mid2 ++ [start]) with
        | none =>
          rw [hbuild] at hok
          simp only [] at hok
          cases hok
        | some pr =>
          obtain ⟨legs, td, tt⟩ := pr
          rw [hbuild] at hok
          simp only [] at hok
          cases hok
          obtain ⟨g1, g2, g3, g4⟩ := buildLegs_spec pp _ legs td tt hbuild
          refine ⟨mid2, rfl, hperm2.trans hperm, g1, g2, g3, ?_⟩
          intro l hl
          exact (hsound l.start l.end_ l.path (g4 l hl)).2

/-- A second valid test edge, the reverse of `ew`. -/
def ew2 : Edge :=
  { source := "b", target := "a", distance := 100, ideal_speed := 1,
    congestion := 1, transport_modes := ["walk"] }

/-- The PathResult from b back to a over ew2. -/
def ewResultBA : PathResult :=
  { nodes := ["b", "a"],
    segments := [{ source := "b", target := "a", transport_mode := "walk",
                   distance := 100, time := 100 }],
    total_distance := 100, total_time := 100 }

/-- The TourResult expected for the concrete two-node round trip. -/
def tourRes : TourResult :=
  { route := ["a", "b", "a"],
    legs := [⟨"a", "b", ewResult⟩, ⟨"b", "a", ewResultBA⟩],
    total_distance := 200, total_time := 200 }

unseal Rat.mul Rat.inv Rat.add Rat.sub in
/-- Witness for C4 at a concrete two-node round trip. -/
theorem C4_tour_structure_witness :
    ∃ mid, tourRes.route = "a" :: mid ++ ["a"] ∧
      mid.Perm (firstDedup ["b"]) ∧
      tourRes.total_distance =
        (tourRes.legs.map (fun l => l.path.total_distance)).sum ∧
      tourRes.total_time =
        (tourRes.legs.map (fun l => l.path.total_time)).sum ∧
      tourRes.legs.map (fun l => (l.start, l.end_)) =
        routePairs tourRes.route ∧
      ∀ l ∈ tourRes.legs,
        shortest_path [ew, ew2] l.start l.end_ none .time = .ok l.path :=
  @C4_tour_structure [ew, ew2] "a" ["b"] none .time 50 tourRes
    (by decide) (by decide)

/-- C9: if some ordered non-self pair drawn from start and the targets has
no feasible shortest path, the whole tour computation fails with the
dedicated tour error naming an infeasible pair (and therefore never returns
a TourResult that silently omits a stop). -/
theorem C9_infeasible_pair_fails (edges : List Edge) (start : String)
    (targets : List String) (allowed : Option (List String))
    (strategy : WeightStrategy) (maxit : ℕ)
    (h : ∃ u ∈ start :: targets, ∃ v ∈ start :: targets, u ≠ v ∧
      ∃ err, shortest_path edges u v allowed strategy = .error err) :
    ∃ a b, compute_tour edges start targets allowed strategy maxit =
        .error (.noFeasible a b) ∧
      a ∈ start :: targets ∧ b ∈ start :: targets ∧ a ≠ b ∧
      ∃ err, shortest_path edges a b allowed strategy = .error err := by
  obtain ⟨u, hu, v, hv, hne, err, herr⟩ := h
  have hmemNodes : ∀ x, x ∈ start :: targets ↔
      x ∈ start :: firstDedup targets := by
    intro x
    simp only [List.mem_cons, firstDedup_mem]
  have hne_targets : targets ≠ [] := by
    intro hemp
    subst hemp
    rcases List.mem_singleton.mp hu with rfl
    rcases List.mem_singleton.mp hv with rfl
    exact hne rfl
  have hemp : targets.isEmpty = false := by
    cases targets with
    | nil => exact absurd rfl hne_targets
    | cons a b => rfl
  simp only [compute_tour, hemp, Bool.false_eq_true, if_false]
  cases hpre : precompute_pair_paths edges (start :: firstDedup targets)
      allowed strategy with
  | error e =>
    obtain ⟨o, ho, d, hd, he, hone, err2, herr2⟩ :=
      precomputeOuter_error (start :: firstDedup targets) (fun _ => none) e
        hpre
    subst he
    exact ⟨o, d, rfl, (hmemNodes o).mpr ho, (hmemNodes d).mpr hd, hone,
      err2, herr2⟩
  | ok pp =>
    exfalso
    obtain ⟨hsound, hdom⟩ :=
      precomputeOuter_sound (start :: firstDedup targets) (fun _ => none) pp
        (ppSound_empty edges allowed strategy) hpre
    have hsome := hdom u ((hmemNodes u).mp hu) v ((hmemNodes v).mp hv) hne
    obtain ⟨r, hr⟩ := Option.isSome_iff_exists.mp hsome
    have := (hsound u v r hr).2
    rw [herr] at this
    cases this

unseal Rat.mul Rat.inv Rat.add Rat.sub in
/-- Witness for C9: a target unreachable over an empty edge list. -/
theorem C9_infeasible_pair_fails_witness :
    ∃ a b, compute_tour [] "a" ["b"] none .time 50 =
        .error (.noFeasible a b) ∧
      a ∈ ["a", "b"] ∧ b ∈ ["a", "b"] ∧ a ≠ b ∧
      ∃ err, shortest_path [] a b none .time = .error err :=
  C9_infeasible_pair_fails [] "a" ["b"] none .time 50
    ⟨"a", by decide, "b", by decide, by decide,
      .noPath "a" "b", by decide⟩

/-- Whether an `Except` value is a success. -/
def isOkE {e a : Type} : Except e a → Bool
  | .ok _ => true
  | .error _ => false

theorem pairCosts_none_of_missing (pp : PairMap) (strategy : WeightStrategy)
    (current : String) :
    ∀ (remaining : List String) (n : String), n ∈ remaining →
    pp (current, n) = none →
    pairCosts pp strategy current remaining = none := by
  intro remaining
  induction remaining with
  | nil =>
    intro n hn
    cases hn
  | cons a rest ih =>
    intro n hn hnone
    simp only [pairCosts]
    rcases List.mem_cons.mp hn with rfl | hn2
    · rw [hnone]
    · cases hp : pp (current, a) with
      | none => rfl
      | some r =>
        rw [ih n hn2 hnone]

unseal Rat.mul Rat.inv Rat.add Rat.sub in
/-- Counterexample to C10 as literally stated: with the start among the
targets but some required pair infeasible, the computation fails with the
dedicated tour error, not with the KeyError the claim asserts for every
non-empty target list containing the start. -/
theorem C10_counterexample :
    ("a" : String) ∈ (["a", "b"] : List String) ∧
    (["a", "b"] : List String) ≠ [] ∧
    compute_tour [] "a" ["a", "b"] none .time 50 =
      .error (.noFeasible "a" "b") ∧
    (Except.error (TourError.noFeasible "a" "b") :
      Except TourError TourResult) ≠ .error .keyError := by
  refine ⟨by decide, by decide, by decide, by decide⟩

/-- C10 (amended): provided every required pairwise path is feasible (so the
precomputation step succeeds — otherwise the dedicated tour-computation
error fires first), a non-empty target list containing the start node makes
the nearest-neighbour construction look up the never-precomputed self pair
(start, start) and fail with the uncaught KeyError, neither returning a
TourResult nor raising the dedicated tour-computation error; the tour
contract therefore carries the unstated precondition start ∉ targets. -/
theorem C10_start_in_targets_keyerror (edges : List Edge) (start : String)
    (targets : List String) (allowed : Option (List String))
    (strategy : WeightStrategy) (maxit : ℕ)
    (hne : targets ≠ []) (hmem : start ∈ targets)
    (hfeas : ∀ u ∈ start :: targets, ∀ v ∈ start :: targets, u ≠ v →
      isOkE (shortest_path edges u v allowed strategy) = true) :
    compute_tour edges start targets allowed strategy maxit =
      .error .keyError := by
  have hmemNodes : ∀ x, x ∈ start :: targets ↔
      x ∈ start :: firstDedup targets := by
    intro x
    simp only [List.mem_cons, firstDedup_mem]
  have hemp : targets.isEmpty = false := by
    cases targets with
    | nil => exact absurd rfl hne
    | cons a b => rfl
  simp only [compute_tour, hemp, Bool.false_eq_true, if_false]
  cases hpre : precompute_pair_paths edges (start :: firstDedup targets)
      allowed strategy with
  | error e =>
    exfalso
    obtain ⟨o, ho, d, hd, -, hone, err2, herr2⟩ :=
      precomputeOuter_error (start :: firstDedup targets) (fun _ => none) e
        hpre
    have := hfeas o ((hmemNodes o).mpr ho) d ((hmemNodes d).mpr hd) hone
    rw [herr2] at this
    cases this
  | ok pp =>
    obtain ⟨hsound, -⟩ :=
      precomputeOuter_sound (start :: firstDedup targets) (fun _ => none) pp
        (ppSound_empty edges allowed strategy) hpre
    have hself : pp (start, start) = none := by
      cases hp : pp (start, start) with
      | none => rfl
      | some r => exact absurd rfl (hsound start start r hp).1
    have hnn : nearest_neighbour_route start targets pp strategy = none := by
      unfold nearest_neighbour_route
      cases hft : firstDedup targets with
      | nil => exact absurd hft (firstDedup_ne_nil targets hne)
      | cons a rest =>
        have hstart_mem : start ∈ a :: rest := by
          rw [← hft, firstDedup_mem]
          exact hmem
        have hcosts : pairCosts pp strategy start (a :: rest) = none :=
          pairCosts_none_of_missing pp strategy start (a :: rest) start
            hstart_mem hself
        have hpick : pickMin pp strategy start (a :: rest) = none := by
          unfold pickMin
          rw [hcosts]
        simp only [List.length_cons, nnLoop, hpick]
    simp only []
    rw [hnn]

unseal Rat.mul Rat.inv Rat.add Rat.sub in
/-- Witness for C10 at a concrete graph where both directions are feasible. -/
theorem C10_start_in_targets_keyerror_witness :
    compute_tour [ew, ew2] "a" ["a", "b"] none .time 50 =
      .error .keyError :=
  C10_start_in_targets_keyerror [ew, ew2] "a" ["a", "b"] none .time 50
    (by decide) (by decide) (by decide)

/-!
### Reachability solver (`RoutingService.compute_reachable_nodes`)

Model of `compute_reachable_nodes` in
`src/backend/app/services/routing.py` (lines 135-261).  Graph edges come
straight from the database (`GraphEdge` rows), node ids are integers, the
adjacency list is built bidirectionally from the mode-filtered edges, and
edge times are converted to minutes (`distance / (ideal_speed *
congestion / 60)`).  The priority queue holds `(priority, node_id,
distance, time)` tuples compared lexicographically by `heapq`; since each
node's pushed distances strictly decrease and distinct nodes differ in
the second component, all queue entries are pairwise distinct tuples, the
minimum is unique, and the heap layout is unobservable, so the queue is
modelled as a list with `popMinBy`.  The `while heap` loop pops exactly
one entry per iteration and at most `1 + 2*|edges|` entries are ever
pushed (the initial entry, plus at most one push per adjacency record of
each node, each node being processed at most once and each edge
contributing at most two adjacency records in total), so running the
fuelled loop with `2*|edges| + 2` fuel is exact.
-/

/-- A database graph edge as consumed by `compute_reachable_nodes`
(`GraphEdge` model: integer endpoint ids, raw floats, raw mode list). -/
structure GraphEdge where
  start_node_id : ℤ
  end_node_id : ℤ
  distance : ℚ
  ideal_speed : ℚ
  congestion : ℚ
  transport_modes : List String
deriving DecidableEq, Repr

/-- `time = distance / (edge.ideal_speed * edge.congestion / 60)`:
travel time in minutes (routing.py line 180). -/
def GraphEdge.time_minutes (e : GraphEdge) : ℚ :=
  e.distance / (e.ideal_speed * e.congestion / 60)

/-- `set(edge.transport_modes).intersection(allowed_modes)` non-empty
(routing.py lines 175-177). -/
def rModeAllowed (allowed : List String) (e : GraphEdge) : Bool :=
  e.transport_modes.any (fun m => allowed.contains m)

/-- Adjacency records of node `n`: for each edge (in list order) passing
the mode filter, a forward record at its start node then a backward record
at its end node, each `(neighbor, distance, time)` (routing.py
lines 172-189: the graph is built bidirectionally). -/
def rAdj (allowed : List String) (edges : List GraphEdge) (n : ℤ) :
    List (ℤ × ℚ × ℚ) :=
  edges.flatMap (fun e =>
    if rModeAllowed allowed e then
      (if e.start_node_id = n then
        [(e.end_node_id, e.distance, e.time_minutes)] else []) ++
      (if e.end_node_id = n then
        [(e.start_node_id, e.distance, e.time_minutes)] else [])
    else [])

/-- A heap entry `(priority, node_id, distance, time)` (routing.py
line 206). -/
structure RQ where
  priority : ℚ
  node : ℤ
  dist : ℚ
  time : ℚ
deriving DecidableEq, Repr

/-- Python tuple comparison on heap entries: lexicographic by priority,
then node id, then distance, then time. -/
def rqLe (a b : RQ) : Bool :=
  if a.priority < b.priority then true
  else if b.priority < a.priority then false
  else if a.node < b.node then true
  else if b.node < a.node then false
  else if a.dist < b.dist then true
  else if b.dist < a.dist then false
  else a.time ≤ b.time

/-- Pointwise update of an integer-keyed dict modelled as a function. -/
def updZ {α : Type} (f : ℤ → Option α) (k : ℤ) (v : α) : ℤ → Option α :=
  fun x => if x = k then some v else f x

/-- Mutable state of the reachability loop: the heap, the `distances`,
`times` and `parents` dicts (with `dkeys` recording the insertion order
of the `distances` keys, which Python dicts preserve and the final
result-building loop iterates in), and the `processed` set in first-add
order. -/
structure RState where
  heap : List RQ
  distances : ℤ → Option ℚ
  times : ℤ → Option ℚ
  parents : ℤ → Option (Option ℤ)
  dkeys : List ℤ
  processed : List ℤ

/-- The neighbor loop of routing.py lines 222-236: skip processed
neighbors; on a strictly shorter (by distance, whatever the strategy)
or first-time reach, overwrite `distances`/`times`/`parents` and push a
heap entry whose priority follows the strategy. -/
def rRelax (strategy : WeightStrategy) (cur : ℤ) (cd ct : ℚ) :
    List (ℤ × ℚ × ℚ) → RState → RState
  | [], s => s
  | (nb, d, t) :: rest, s =>
    if nb ∈ s.processed then rRelax strategy cur cd ct rest s
    else
      match s.distances nb with
      | some old =>
        if cd + d < old then
          rRelax strategy cur cd ct rest
            { s with
              distances := updZ s.distances nb (cd + d),
              times := updZ s.times nb (ct + t),
              parents := updZ s.parents nb (some cur),
              heap := s.heap ++
                [⟨(match strategy with
                   | .distance => cd + d
                   | .time => ct + t), nb, cd + d, ct + t⟩] }
        else rRelax strategy cur cd ct rest s
      | none =>
        rRelax strategy cur cd ct rest
          { s with
            distances := updZ s.distances nb (cd + d),
            times := updZ s.times nb (ct + t),
            parents := updZ s.parents nb (some cur),
            dkeys := s.dkeys ++ [nb],
            heap := s.heap ++
              [⟨(match strategy with
                 | .distance => cd + d
                 | .time => ct + t), nb, cd + d, ct + t⟩] }

/-- The `while heap` loop of routing.py lines 206-236: pop the least
entry, skip already-processed nodes, mark the node processed, skip
expansion when the budget is exceeded (`current_distance >
max_distance`), otherwise relax the node's adjacency records. -/
def rLoop (maxd : Option ℚ) (strategy : WeightStrategy)
    (allowed : List String) (edges : List GraphEdge) :
    ℕ → RState → RState
  | 0, s => s
  | fuel + 1, s =>
    match popMinBy rqLe s.heap with
    | none => s
    | some (e, rest) =>
      if e.node ∈ s.processed then
        rLoop maxd strategy allowed edges fuel { s with heap := rest }
      else
        let s1 : RState :=
          { s with heap := rest, processed := s.processed ++ [e.node] }
        if (match maxd with
            | some m => decide (m < e.dist)
            | none => false) then
          rLoop maxd strategy allowed edges fuel s1
        else
          rLoop maxd strategy allowed edges fuel
            (rRelax strategy e.node e.dist e.time
              (rAdj allowed edges e.node) s1)

/-- One value of the returned mapping: `{distance, time, path}`. -/
structure RNodeInfo where
  distance : ℚ
  time : ℚ
  path : List ℤ
deriving DecidableEq, Repr

/-- The parent walk of routing.py lines 248-253 (`while current is not
None: path.append(current); current = parents.get(current)`), producing
the path in back-to-front order.  The fuel passed by the result builder
(`processed.length + 1`) always suffices: each parent link points to a
node processed strictly earlier. -/
def rwalk (parents : ℤ → Option (Option ℤ)) : ℕ → ℤ → List ℤ
  | 0, _ => []
  | fuel + 1, c =>
    match parents c with
    | some (some u) => c :: rwalk parents fuel u
    | _ => [c]

/-- `RoutingService.compute_reachable_nodes` (routing.py lines 162-261)
after region/node validation: empty edge list short-circuits to the empty
mapping; otherwise run the Dijkstra-style traversal from the origin and
build the mapping over the `distances` keys in insertion order, the
origin special-cased to `{0, 0, [origin]}` and every other node mapped to
its recorded distance, time and reversed parent walk. -/
def compute_reachable_nodes (edges : List GraphEdge) (origin : ℤ)
    (maxd : Option ℚ) (strategy : WeightStrategy)
    (allowed : List String) : List (ℤ × RNodeInfo) :=
  if edges = [] then []
  else
    let s0 : RState :=
      { heap := [⟨0, origin, 0, 0⟩],
        distances := updZ (fun _ => none) origin 0,
        times := updZ (fun _ => none) origin 0,
        parents := updZ (fun _ => none) origin none,
        dkeys := [origin],
        processed := [] }
    let s := rLoop maxd strategy allowed edges (2 * edges.length + 2) s0
    s.dkeys.map (fun n =>
      if n = origin then (n, ⟨0, 0, [origin]⟩)
      else
        (n, ⟨(s.distances n).getD 0, (s.times n).getD 0,
             (rwalk s.parents (s.processed.length + 1) n).reverse⟩))

/-- `RoutingService._to_algorithm_edges` (routing.py lines 333-344):
convert database edges to algorithm edges with stringified endpoint ids
and lower-cased modes, as fed to the single-pair solver. -/
def toAlgorithmEdges (edges : List GraphEdge) : List Edge :=
  edges.map (fun e =>
    { source := toString e.start_node_id,
      target := toString e.end_node_id,
      distance := e.distance,
      ideal_speed := e.ideal_speed,
      congestion := e.congestion,
      transport_modes := e.transport_modes.map lowerString })

/-- An undirected mode-permitted walk of the reachability graph from `u`
to `v` with node sequence `p`, total distance `dc` and total time `tc`
in minutes (each hop is an adjacency record of `rAdj`, i.e. a
mode-allowed edge traversed in either direction). -/
inductive RChain (allowed : List String) (edges : List GraphEdge) :
    ℤ → ℤ → List ℤ → ℚ → ℚ → Prop
  | nil (u : ℤ) : RChain allowed edges u u [u] 0 0
  | step {u v w : ℤ} {p : List ℤ} {d t dc tc : ℚ} :
      RChain allowed edges u v p dc tc →
      (w, d, t) ∈ rAdj allowed edges v →
      RChain allowed edges u w (p ++ [w]) (dc + d) (tc + t)

/-- Index of the first occurrence of `n` in `l` (the position in the
processing order), `l.length` when absent. -/
def procIdx (l : List ℤ) (n : ℤ) : ℕ :=
  match l with
  | [] => 0
  | a :: r => if a = n then 0 else procIdx r n + 1

theorem procIdx_not_mem (l : List ℤ) (n : ℤ) (h : n ∉ l) :
    procIdx l n = l.length := by
  induction l with
  | nil => rfl
  | cons a r ih =>
    have hne : a ≠ n := fun he => h (he ▸ List.mem_cons_self a r)
    simp only [procIdx, if_neg hne, List.length_cons]
    rw [ih (fun hm => h (List.mem_cons_of_mem a hm))]

theorem procIdx_lt_length (l : List ℤ) (n : ℤ) (h : n ∈ l) :
    procIdx l n < l.length := by
  induction l with
  | nil => cases h
  | cons a r ih =>
    by_cases he : a = n
    · simp [procIdx, he]
    · have hm : n ∈ r := by
        rcases List.mem_cons.mp h with h1 | h1
        · exact absurd h1.symm he
        · exact h1
      simp only [procIdx, if_neg he, List.length_cons]
      exact Nat.succ_lt_succ (ih hm)

theorem procIdx_le_length (l : List ℤ) (n : ℤ) :
    procIdx l n ≤ l.length := by
  by_cases h : n ∈ l
  · exact le_of_lt (procIdx_lt_length l n h)
  · exact le_of_eq (procIdx_not_mem l n h)

theorem procIdx_append_mem (l1 l2 : List ℤ) (n : ℤ) (h : n ∈ l1) :
    procIdx (l1 ++ l2) n = procIdx l1 n := by
  induction l1 with
  | nil => cases h
  | cons a r ih =>
    by_cases he : a = n
    · simp [procIdx, he]
    · have hm : n ∈ r := by
        rcases List.mem_cons.mp h with h1 | h1
        · exact absurd h1.symm he
        · exact h1
      simp only [List.cons_append, procIdx, if_neg he, List.append_eq]
      rw [ih hm]

theorem procIdx_append_self (l : List ℤ) (n : ℤ) (h : n ∉ l) :
    procIdx (l ++ [n]) n = l.length := by
  induction l with
  | nil => simp [procIdx]
  | cons a r ih =>
    have hne : a ≠ n := fun he => h (he ▸ List.mem_cons_self a r)
    simp only [List.cons_append, procIdx, if_neg hne, List.length_cons,
      List.append_eq]
    rw [ih (fun hm => h (List.mem_cons_of_mem a hm))]

theorem procIdx_append_preserve (proc : List ℤ) (w u n : ℤ)
    (hu : u ∈ proc) (h : procIdx proc u < procIdx proc n) :
    procIdx (proc ++ [w]) u < procIdx (proc ++ [w]) n := by
  rw [procIdx_append_mem proc [w] u hu]
  by_cases hn : n ∈ proc
  · rw [procIdx_append_mem proc [w] n hn]
    exact h
  · have hlt : procIdx proc u < proc.length :=
      lt_of_lt_of_le h (procIdx_le_length proc n)
    by_cases hnw : n = w
    · subst hnw
      rw [procIdx_append_self proc n hn]
      exact hlt
    · have hnm : n ∉ proc ++ [w] := by
        intro hm
        rcases List.mem_append.mp hm with h1 | h1
        · exact hn h1
        · exact hnw (List.mem_singleton.mp h1)
      rw [procIdx_not_mem _ _ hnm]
      simp only [List.length_append, List.length_singleton]
      omega

theorem rqLe_iff (a b : RQ) : rqLe a b = true ↔
    a.priority < b.priority ∨ (a.priority = b.priority ∧
      (a.node < b.node ∨ (a.node = b.node ∧
        (a.dist < b.dist ∨ (a.dist = b.dist ∧ a.time ≤ b.time))))) := by
  unfold rqLe
  split_ifs with h1 h2 h3 h4 h5 h6
  · simp [h1]
  · simp only [Bool.false_eq_true, false_iff]
    rintro (h | ⟨he, -⟩)
    · exact h1 h
    · exact absurd h2 (by rw [he]; exact lt_irrefl _)
  · have hp : a.priority = b.priority := le_antisymm (not_lt.mp h2)
      (not_lt.mp h1)
    simp [hp, h3]
  · have hp : a.priority = b.priority := le_antisymm (not_lt.mp h2)
      (not_lt.mp h1)
    simp only [Bool.false_eq_true, false_iff]
    rintro (h | ⟨-, h | ⟨he, -⟩⟩)
    · exact absurd h (by rw [hp]; exact lt_irrefl _)
    · omega
    · omega
  · have hp : a.priority = b.priority := le_antisymm (not_lt.mp h2)
      (not_lt.mp h1)
    have hn : a.node = b.node := le_antisymm (not_lt.mp h4) (not_lt.mp h3)
    simp [hp, hn, h5]
  · have hp : a.priority = b.priority := le_antisymm (not_lt.mp h2)
      (not_lt.mp h1)
    have hn : a.node = b.node := le_antisymm (not_lt.mp h4) (not_lt.mp h3)
    simp only [Bool.false_eq_true, false_iff]
    rintro (h | ⟨-, h | ⟨-, h | ⟨he, -⟩⟩⟩)
    · exact absurd h (by rw [hp]; exact lt_irrefl _)
    · exact absurd h (by rw [hn]; exact lt_irrefl _)
    · exact h5 h
    · exact absurd h6 (by rw [he]; exact lt_irrefl _)
  · have hp : a.priority = b.priority := le_antisymm (not_lt.mp h2)
      (not_lt.mp h1)
    have hn : a.node = b.node := le_antisymm (not_lt.mp h4) (not_lt.mp h3)
    have hd : a.dist = b.dist := le_antisymm (not_lt.mp h6) (not_lt.mp h5)
    simp [hp, hn, hd]

theorem rqLe_total (a b : RQ) : rqLe a b = true ∨ rqLe b a = true := by
  rw [rqLe_iff, rqLe_iff]
  rcases lt_trichotomy a.priority b.priority with h | h | h
  · exact .inl (.inl h)
  · rcases lt_trichotomy a.node b.node with h2 | h2 | h2
    · exact .inl (.inr ⟨h, .inl h2⟩)
    · rcases lt_trichotomy a.dist b.dist with h3 | h3 | h3
      · exact .inl (.inr ⟨h, .inr ⟨h2, .inl h3⟩⟩)
      · rcases le_total a.time b.time with h4 | h4
        · exact .inl (.inr ⟨h, .inr ⟨h2, .inr ⟨h3, h4⟩⟩⟩)
        · exact .inr (.inr ⟨h.symm, .inr ⟨h2.symm, .inr ⟨h3.symm, h4⟩⟩⟩)
      · exact .inr (.inr ⟨h.symm, .inr ⟨h2.symm, .inl h3⟩⟩)
    · exact .inr (.inr ⟨h.symm, .inl h2⟩)
  · exact .inr (.inl h)

theorem rqLe_trans (a b c : RQ) (hab : rqLe a b = true)
    (hbc : rqLe b c = true) : rqLe a c = true := by
  rw [rqLe_iff] at hab hbc ⊢
  rcases hab with h1 | ⟨he1, h1⟩
  · rcases hbc with h2 | ⟨he2, -⟩
    · exact .inl (h1.trans h2)
    · exact .inl (he2 ▸ h1)
  · rcases hbc with h2 | ⟨he2, h2⟩
    · exact .inl (he1 ▸ h2)
    · refine .inr ⟨he1.trans he2, ?_⟩
      rcases h1 with h1 | ⟨hn1, h1⟩
      · rcases h2 with h2 | ⟨hn2, -⟩
        · exact .inl (h1.trans h2)
        · exact .inl (hn2 ▸ h1)
      · rcases h2 with h2 | ⟨hn2, h2⟩
        · exact .inl (hn1 ▸ h2)
        · refine .inr ⟨hn1.trans hn2, ?_⟩
          rcases h1 with h1 | ⟨hd1, h1⟩
          · rcases h2 with h2 | ⟨hd2, -⟩
            · exact .inl (h1.trans h2)
            · exact .inl (hd2 ▸ h1)
          · rcases h2 with h2 | ⟨hd2, h2⟩
            · exact .inl (hd1 ▸ h2)
            · exact .inr ⟨hd1.trans hd2, h1.trans h2⟩

theorem updZ_same {α : Type} (f : ℤ → Option α) (k : ℤ) (v : α) :
    updZ f k v k = some v := by
  simp [updZ]

theorem updZ_other {α : Type} (f : ℤ → Option α) (k : ℤ) (v : α) (x : ℤ)
    (h : x ≠ k) : updZ f k v x = f x := by
  simp [updZ, h]

/-- Loop invariant of the reachability traversal under the DISTANCE
strategy: the three dicts share their key set (tracked in insertion order
by `dkeys`); the origin's entries are pinned (it is the first node ever
processed, so no relaxation can touch it); every parent link records an
adjacency hop made from an already-processed node with strictly earlier
processing index, and the linked node's distance and time are exactly the
parent's plus the hop's; every heap entry's priority is its distance and
is at least the node's current best distance, matching it only with the
node's current best time; and every reached-but-unprocessed node has its
current best `(distance, time)` as a heap entry. -/
structure RInvD (allowed : List String) (edges : List GraphEdge) (o : ℤ)
    (s : RState) : Prop where
  keys_t : ∀ n, (s.times n).isSome = (s.distances n).isSome
  keys_p : ∀ n, (s.parents n).isSome = (s.distances n).isSome
  keys_k : ∀ n, n ∈ s.dkeys ↔ (s.distances n).isSome = true
  proc_sub : ∀ n ∈ s.processed, (s.distances n).isSome = true
  origin_d : s.distances o = some 0
  origin_t : s.times o = some 0
  origin_p : s.parents o = some none
  origin_first : s.processed ≠ [] → o ∈ s.processed
  init_heap : s.processed = [] → ∀ q ∈ s.heap, q.node = o
  parent_none : ∀ n, s.parents n = some none → n = o
  parent_link : ∀ n u, s.parents n = some (some u) →
    u ∈ s.processed ∧ procIdx s.processed u < procIdx s.processed n ∧
    ∃ du tu d t, s.distances u = some du ∧ s.times u = some tu ∧
      (n, d, t) ∈ rAdj allowed edges u ∧
      s.distances n = some (du + d) ∧ s.times n = some (tu + t)
  heap_prio : ∀ q ∈ s.heap, q.priority = q.dist
  heap_keyed : ∀ q ∈ s.heap, ∃ dn, s.distances q.node = some dn ∧
    dn ≤ q.dist ∧ (dn = q.dist → s.times q.node = some q.time)
  heap_best : ∀ n, (s.distances n).isSome = true → n ∉ s.processed →
    ∃ dn tn, s.distances n = some dn ∧ s.times n = some tn ∧
      (⟨dn, n, dn, tn⟩ : RQ) ∈ s.heap

theorem rRelax_skip (strategy : WeightStrategy) (cur : ℤ) (cd ct : ℚ)
    (nb : ℤ) (d t : ℚ) (rest : List (ℤ × ℚ × ℚ)) (s : RState)
    (h : nb ∈ s.processed) :
    rRelax strategy cur cd ct ((nb, d, t) :: rest) s =
      rRelax strategy cur cd ct rest s := by
  conv_lhs => rw [rRelax.eq_def]
  simp only [if_pos h]

theorem rRelax_improve (strategy : WeightStrategy) (cur : ℤ) (cd ct : ℚ)
    (nb : ℤ) (d t : ℚ) (rest : List (ℤ × ℚ × ℚ)) (s : RState) (old : ℚ)
    (h : nb ∉ s.processed) (hd : s.distances nb = some old)
    (him : cd + d < old) :
    rRelax strategy cur cd ct ((nb, d, t) :: rest) s =
      rRelax strategy cur cd ct rest
        { s with
          distances := updZ s.distances nb (cd + d),
          times := updZ s.times nb (ct + t),
          parents := updZ s.parents nb (some cur),
          heap := s.heap ++
            [⟨(match strategy with
               | .distance => cd + d
               | .time => ct + t), nb, cd + d, ct + t⟩] } := by
  conv_lhs => rw [rRelax.eq_def]
  simp only []
  rw [hd]
  simp only [if_neg h, if_pos him]

theorem rRelax_noimp (strategy : WeightStrategy) (cur : ℤ) (cd ct : ℚ)
    (nb : ℤ) (d t : ℚ) (rest : List (ℤ × ℚ × ℚ)) (s : RState) (old : ℚ)
    (h : nb ∉ s.processed) (hd : s.distances nb = some old)
    (him : ¬ cd + d < old) :
    rRelax strategy cur cd ct ((nb, d, t) :: rest) s =
      rRelax strategy cur cd ct rest s := by
  conv_lhs => rw [rRelax.eq_def]
  simp only []
  rw [hd]
  simp only [if_neg h, if_neg him]

theorem rRelax_fresh (strategy : WeightStrategy) (cur : ℤ) (cd ct : ℚ)
    (nb : ℤ) (d t : ℚ) (rest : List (ℤ × ℚ × ℚ)) (s : RState)
    (h : nb ∉ s.processed) (hd : s.distances nb = none) :
    rRelax strategy cur cd ct ((nb, d, t) :: rest) s =
      rRelax strategy cur cd ct rest
        { s with
          distances := updZ s.distances nb (cd + d),
          times := updZ s.times nb (ct + t),
          parents := updZ s.parents nb (some cur),
          dkeys := s.dkeys ++ [nb],
          heap := s.heap ++
            [⟨(match strategy with
               | .distance => cd + d
               | .time => ct + t), nb, cd + d, ct + t⟩] } := by
  conv_lhs => rw [rRelax.eq_def]
  simp only []
  rw [hd]
  simp only [if_neg h]

theorem rLoop_pop_none (maxd : Option ℚ) (strategy : WeightStrategy)
    (allowed : List String) (edges : List GraphEdge) (fuel : ℕ)
    (s : RState) (hpop : popMinBy rqLe s.heap = none) :
    rLoop maxd strategy allowed edges (fuel + 1) s = s := by
  conv_lhs => rw [rLoop]
  rw [hpop]

theorem rLoop_skip (maxd : Option ℚ) (strategy : WeightStrategy)
    (allowed : List String) (edges : List GraphEdge) (fuel : ℕ)
    (s : RState) (q : RQ) (rest : List RQ)
    (hpop : popMinBy rqLe s.heap = some (q, rest))
    (hq : q.node ∈ s.processed) :
    rLoop maxd strategy allowed edges (fuel + 1) s =
      rLoop maxd strategy allowed edges fuel { s with heap := rest } := by
  conv_lhs => rw [rLoop]
  rw [hpop]
  simp only [if_pos hq]

theorem rLoop_budget (maxd : Option ℚ) (strategy : WeightStrategy)
    (allowed : List String) (edges : List GraphEdge) (fuel : ℕ)
    (s : RState) (q : RQ) (rest : List RQ)
    (hpop : popMinBy rqLe s.heap = some (q, rest))
    (hq : q.node ∉ s.processed)
    (hbud : (match maxd with
             | some m => decide (m < q.dist)
             | none => false) = true) :
    rLoop maxd strategy allowed edges (fuel + 1) s =
      rLoop maxd strategy allowed edges fuel
        { s with heap := rest, processed := s.processed ++ [q.node] } := by
  conv_lhs => rw [rLoop]
  rw [hpop]
  simp only [if_neg hq, hbud, if_true]

theorem rLoop_relax (maxd : Option ℚ) (strategy : WeightStrategy)
    (allowed : List String) (edges : List GraphEdge) (fuel : ℕ)
    (s : RState) (q : RQ) (rest : List RQ)
    (hpop : popMinBy rqLe s.heap = some (q, rest))
    (hq : q.node ∉ s.processed)
    (hbud : (match maxd with
             | some m => decide (m < q.dist)
             | none => false) = false) :
    rLoop maxd strategy allowed edges (fuel + 1) s =
      rLoop maxd strategy allowed edges fuel
        (rRelax strategy q.node q.dist q.time (rAdj allowed edges q.node)
          { s with heap := rest, processed := s.processed ++ [q.node] }) := by
  conv_lhs => rw [rLoop]
  rw [hpop]
  simp only [if_neg hq, hbud, Bool.false_eq_true, if_false]

theorem rRelax_nil (strategy : WeightStrategy) (cur : ℤ) (cd ct : ℚ)
    (s : RState) : rRelax strategy cur cd ct [] s = s := by
  rw [rRelax.eq_def]

/-- Invariant preservation for one overwriting relaxation (both the
first-reach and the strict-improvement branch, which update the same
dicts; they differ only in the `dkeys` bookkeeping, abstracted by
`hdk`). -/
theorem rUpd_inv (allowed : List String) (edges : List GraphEdge) (o : ℤ)
    (s : RState) (hinv : RInvD allowed edges o s) (cur nb : ℤ)
    (cd ct d t : ℚ) (dk' : List ℤ)
    (hcur : cur ∈ s.processed)
    (hcd : s.distances cur = some cd) (hct : s.times cur = some ct)
    (hadj : (nb, d, t) ∈ rAdj allowed edges cur)
    (hnb : nb ∉ s.processed)
    (hno : ∀ old, s.distances nb = some old → cd + d < old)
    (hdk : ∀ n, n ∈ dk' ↔ (updZ s.distances nb (cd + d) n).isSome = true) :
    RInvD allowed edges o
      { heap := s.heap ++ [⟨cd + d, nb, cd + d, ct + t⟩],
        distances := updZ s.distances nb (cd + d),
        times := updZ s.times nb (ct + t),
        parents := updZ s.parents nb (some cur),
        dkeys := dk',
        processed := s.processed } := by
  have hproc_ne : s.processed ≠ [] := by
    intro he
    rw [he] at hcur
    exact absurd hcur (List.not_mem_nil cur)
  have ho_proc : o ∈ s.processed := hinv.origin_first hproc_ne
  have hnbo : nb ≠ o := fun he => hnb (he ▸ ho_proc)
  have hcurnb : cur ≠ nb := fun he => hnb (he ▸ hcur)
  refine ⟨?_, ?_, ?_, ?_, ?_, ?_, ?_, ?_, ?_, ?_, ?_, ?_, ?_, ?_⟩
  all_goals simp only []
  · intro n
    by_cases hn : n = nb
    · subst hn
      rw [updZ_same, updZ_same]
      rfl
    · rw [updZ_other _ _ _ _ hn, updZ_other _ _ _ _ hn]
      exact hinv.keys_t n
  · intro n
    by_cases hn : n = nb
    · subst hn
      rw [updZ_same, updZ_same]
      rfl
    · rw [updZ_other _ _ _ _ hn, updZ_other _ _ _ _ hn]
      exact hinv.keys_p n
  · exact hdk
  · intro n hn
    have hne : n ≠ nb := fun he => hnb (he ▸ hn)
    rw [updZ_other _ _ _ _ hne]
    exact hinv.proc_sub n hn
  · rw [updZ_other _ _ _ _ (Ne.symm hnbo)]
    exact hinv.origin_d
  · rw [updZ_other _ _ _ _ (Ne.symm hnbo)]
    exact hinv.origin_t
  · rw [updZ_other _ _ _ _ (Ne.symm hnbo)]
    exact hinv.origin_p
  · intro _
    exact ho_proc
  · intro he
    exact absurd he hproc_ne
  · intro n hn
    by_cases hne : n = nb
    · subst hne
      rw [updZ_same] at hn
      cases hn
    · rw [updZ_other _ _ _ _ hne] at hn
      exact hinv.parent_none n hn
  · intro n u hn
    by_cases hne : n = nb
    · subst hne
      rw [updZ_same] at hn
      have hu : u = cur := by
        injection hn with h1
        injection h1 with h2
        exact h2.symm
      subst hu
      refine ⟨hcur, ?_, cd, ct, d, t, ?_, ?_, hadj, ?_, ?_⟩
      · rw [procIdx_not_mem _ _ hnb]
        exact procIdx_lt_length _ _ hcur
      · rw [updZ_other _ _ _ _ hcurnb]
        exact hcd
      · rw [updZ_other _ _ _ _ hcurnb]
        exact hct
      · rw [updZ_same]
      · rw [updZ_same]
    · rw [updZ_other _ _ _ _ hne] at hn
      obtain ⟨hu, hidx, du, tu, d2, t2, hdu, htu, hadj2, hdn2, htn2⟩ :=
        hinv.parent_link n u hn
      have hune : u ≠ nb := fun he => hnb (he ▸ hu)
      refine ⟨hu, hidx, du, tu, d2, t2, ?_, ?_, hadj2, ?_, ?_⟩
      · rw [updZ_other _ _ _ _ hune]
        exact hdu
      · rw [updZ_other _ _ _ _ hune]
        exact htu
      · rw [updZ_other _ _ _ _ hne]
        exact hdn2
      · rw [updZ_other _ _ _ _ hne]
        exact htn2
  · intro q hq
    rcases List.mem_append.mp hq with hq1 | hq1
    · exact hinv.heap_prio q hq1
    · rcases List.mem_singleton.mp hq1 with rfl
      rfl
  · intro q hq
    rcases List.mem_append.mp hq with hq1 | hq1
    · obtain ⟨dn, hdn, hle, hcond⟩ := hinv.heap_keyed q hq1
      by_cases hqn : q.node = nb
      · rw [hqn] at hdn hcond ⊢
        have hlt : cd + d < dn := hno dn hdn
        refine ⟨cd + d, by rw [updZ_same], le_of_lt (lt_of_lt_of_le hlt
          hle), ?_⟩
        intro he
        have hcon := lt_of_lt_of_le hlt hle
        rw [he] at hcon
        exact absurd hcon (lt_irrefl _)
      · rw [updZ_other _ _ _ _ hqn, updZ_other _ _ _ _ hqn]
        exact ⟨dn, hdn, hle, hcond⟩
    · rcases List.mem_singleton.mp hq1 with rfl
      refine ⟨cd + d, by rw [updZ_same], le_refl _, ?_⟩
      intro _
      rw [updZ_same]
  · intro n hn hnp
    by_cases hne : n = nb
    · subst hne
      refine ⟨cd + d, ct + t, by rw [updZ_same], by rw [updZ_same], ?_⟩
      exact List.mem_append_right _ (List.mem_singleton.mpr rfl)
    · rw [updZ_other _ _ _ _ hne] at hn
      obtain ⟨dn, tn, hdn, htn, hmem⟩ := hinv.heap_best n hn hnp
      refine ⟨dn, tn, ?_, ?_, List.mem_append_left _ hmem⟩
      · rw [updZ_other _ _ _ _ hne]
        exact hdn
      · rw [updZ_other _ _ _ _ hne]
        exact htn

/-- The neighbor loop preserves the invariant when run from a processed
node `cur` at its recorded distance and time over (a suffix of) its
adjacency records. -/
theorem rRelax_preserves (allowed : List String) (edges : List GraphEdge)
    (o : ℤ) (cur : ℤ) (cd ct : ℚ) :
    ∀ (neigh : List (ℤ × ℚ × ℚ)) (s : RState),
    RInvD allowed edges o s →
    cur ∈ s.processed →
    s.distances cur = some cd →
    s.times cur = some ct →
    (∀ x ∈ neigh, x ∈ rAdj allowed edges cur) →
    RInvD allowed edges o (rRelax .distance cur cd ct neigh s) := by
  intro neigh
  induction neigh with
  | nil =>
    intro s hinv _ _ _ _
    rw [rRelax_nil]
    exact hinv
  | cons x rest ih =>
    obtain ⟨nb, d, t⟩ := x
    intro s hinv hcur hcd hct hsub
    have hadj : (nb, d, t) ∈ rAdj allowed edges cur :=
      hsub _ (List.mem_cons_self _ _)
    have hrest : ∀ x ∈ rest, x ∈ rAdj allowed edges cur :=
      fun x hx => hsub x (List.mem_cons_of_mem _ hx)
    by_cases hnb : nb ∈ s.processed
    · rw [rRelax_skip _ _ _ _ _ _ _ _ _ hnb]
      exact ih s hinv hcur hcd hct hrest
    · have hcurnb : cur ≠ nb := fun he => hnb (he ▸ hcur)
      cases hdnb : s.distances nb with
      | some old =>
        by_cases him : cd + d < old
        · rw [rRelax_improve _ _ _ _ _ _ _ _ _ old hnb hdnb him]
          simp only []
          refine ih _ (rUpd_inv allowed edges o s hinv cur nb cd ct d t
            s.dkeys hcur hcd hct hadj hnb ?_ ?_) hcur ?_ ?_ hrest
          · intro old2 h2
            rw [hdnb] at h2
            injection h2 with h3
            rw [← h3]
            exact him
          · intro n
            by_cases hn : n = nb
            · subst hn
              rw [updZ_same]
              simp only [Option.isSome_some, iff_true]
              rw [hinv.keys_k, hdnb]
              rfl
            · rw [updZ_other _ _ _ _ hn]
              exact hinv.keys_k n
          · show updZ s.distances nb (cd + d) cur = some cd
            rw [updZ_other _ _ _ _ hcurnb]
            exact hcd
          · show updZ s.times nb (ct + t) cur = some ct
            rw [updZ_other _ _ _ _ hcurnb]
            exact hct
        · rw [rRelax_noimp _ _ _ _ _ _ _ _ _ old hnb hdnb him]
          exact ih s hinv hcur hcd hct hrest
      | none =>
        rw [rRelax_fresh _ _ _ _ _ _ _ _ _ hnb hdnb]
        simp only []
        refine ih _ (rUpd_inv allowed edges o s hinv cur nb cd ct d t
          (s.dkeys ++ [nb]) hcur hcd hct hadj hnb ?_ ?_) hcur ?_ ?_ hrest
        · intro old2 h2
          rw [hdnb] at h2
          cases h2
        · intro n
          by_cases hn : n = nb
          · subst hn
            rw [updZ_same]
            simp only [Option.isSome_some, iff_true]
            exact List.mem_append_right _ (List.mem_singleton.mpr rfl)
          · rw [updZ_other _ _ _ _ hn]
            constructor
            · intro hm
              rcases List.mem_append.mp hm with h1 | h1
              · exact (hinv.keys_k n).mp h1
              · exact absurd (List.mem_singleton.mp h1) hn
            · intro hm
              exact List.mem_append_left _ ((hinv.keys_k n).mpr hm)
        · show updZ s.distances nb (cd + d) cur = some cd
          rw [updZ_other _ _ _ _ hcurnb]
          exact hcd
        · show updZ s.times nb (ct + t) cur = some ct
          rw [updZ_other _ _ _ _ hcurnb]
          exact hct

/-- Popping an already-processed node and dropping its entry preserves
the invariant. -/
theorem rPop_skip (allowed : List String) (edges : List GraphEdge)
    (o : ℤ) (s : RState) (hinv : RInvD allowed edges o s) (q : RQ)
    (rest : List RQ) (hpop : popMinBy rqLe s.heap = some (q, rest))
    (hq : q.node ∈ s.processed) :
    RInvD allowed edges o { s with heap := rest } := by
  have hperm := popMinBy_perm rqLe s.heap q rest hpop
  have hrest : ∀ x ∈ rest, x ∈ s.heap :=
    fun x hx => hperm.symm.subset (List.mem_cons_of_mem _ hx)
  refine ⟨hinv.keys_t, hinv.keys_p, hinv.keys_k, hinv.proc_sub,
    hinv.origin_d, hinv.origin_t, hinv.origin_p, hinv.origin_first,
    ?_, hinv.parent_none, hinv.parent_link, ?_, ?_, ?_⟩
  · intro he x hx
    exact hinv.init_heap he x (hrest x hx)
  · intro x hx
    exact hinv.heap_prio x (hrest x hx)
  · intro x hx
    exact hinv.heap_keyed x (hrest x hx)
  · intro n hn hnp
    obtain ⟨dn, tn, hdn, htn, hmem⟩ := hinv.heap_best n hn hnp
    refine ⟨dn, tn, hdn, htn, ?_⟩
    have hmem2 : (⟨dn, n, dn, tn⟩ : RQ) ∈ q :: rest := hperm.subset hmem
    rcases List.mem_cons.mp hmem2 with he | he
    · exfalso
      have hqn : q.node = n := by rw [← he]
      exact hnp (hqn ▸ hq)
    · exact he

/-- Popping an unprocessed node yields the invariant for the
post-marking state, and the popped entry carries exactly the node's
current recorded distance and time (under the DISTANCE strategy the
node's best entry is the least of its heap entries, and it is the
minimum popped). -/
theorem rPop_process (allowed : List String) (edges : List GraphEdge)
    (o : ℤ) (s : RState) (hinv : RInvD allowed edges o s) (q : RQ)
    (rest : List RQ) (hpop : popMinBy rqLe s.heap = some (q, rest))
    (hq : q.node ∉ s.processed) :
    RInvD allowed edges o
      { s with heap := rest, processed := s.processed ++ [q.node] } ∧
    s.distances q.node = some q.dist ∧ s.times q.node = some q.time := by
  have hperm := popMinBy_perm rqLe s.heap q rest hpop
  have hqmem : q ∈ s.heap := hperm.symm.subset (List.mem_cons_self _ _)
  have hrest : ∀ x ∈ rest, x ∈ s.heap :=
    fun x hx => hperm.symm.subset (List.mem_cons_of_mem _ hx)
  obtain ⟨dn, hdn, hle, hcond⟩ := hinv.heap_keyed q hqmem
  have hsome : (s.distances q.node).isSome = true := by
    rw [hdn]
    rfl
  obtain ⟨dn2, tn, hdn2, htn, hbmem⟩ := hinv.heap_best q.node hsome hq
  have hdd : dn2 = dn := by
    rw [hdn] at hdn2
    injection hdn2 with h
    exact h.symm
  subst hdd
  have hmin := popMinBy_min rqLe rqLe_total rqLe_trans s.heap q rest hpop
    _ hbmem
  rw [rqLe_iff] at hmin
  have hprio := hinv.heap_prio q hqmem
  have hdq : q.dist = dn2 := by
    rcases hmin with h | ⟨he, -⟩
    · exfalso
      rw [hprio] at h
      exact absurd (lt_of_le_of_lt hle h) (lt_irrefl _)
    · rw [← hprio, he]
  have hdist : s.distances q.node = some q.dist := by
    rw [hdn, hdq]
  have htime : s.times q.node = some q.time := hcond hdq.symm
  refine ⟨⟨hinv.keys_t, hinv.keys_p, hinv.keys_k, ?_, hinv.origin_d,
    hinv.origin_t, hinv.origin_p, ?_, ?_, hinv.parent_none, ?_, ?_, ?_,
    ?_⟩, hdist, htime⟩
  · intro n hn
    rcases List.mem_append.mp hn with h1 | h1
    · exact hinv.proc_sub n h1
    · rcases List.mem_singleton.mp h1 with rfl
      exact hsome
  · intro _
    by_cases hproc : s.processed = []
    · have := hinv.init_heap hproc q hqmem
      rw [hproc]
      simp only [List.nil_append]
      rw [this]
      exact List.mem_cons_self o []
    · exact List.mem_append_left _ (hinv.origin_first hproc)
  · intro he
    exact absurd he (by simp)
  · intro n u hn
    obtain ⟨hu, hidx, du, tu, d2, t2, hdu, htu, hadj2, hdn3, htn3⟩ :=
      hinv.parent_link n u hn
    exact ⟨List.mem_append_left _ hu,
      procIdx_append_preserve _ _ _ _ hu hidx,
      du, tu, d2, t2, hdu, htu, hadj2, hdn3, htn3⟩
  · intro x hx
    exact hinv.heap_prio x (hrest x hx)
  · intro x hx
    exact hinv.heap_keyed x (hrest x hx)
  · intro n hn hnp
    have hnp1 : n ∉ s.processed :=
      fun hm => hnp (List.mem_append_left _ hm)
    have hnq : n ≠ q.node := by
      intro he
      exact hnp (he ▸ List.mem_append_right _ (List.mem_singleton.mpr rfl))
    obtain ⟨dm, tm, hdm, htm, hmem⟩ := hinv.heap_best n hn hnp1
    refine ⟨dm, tm, hdm, htm, ?_⟩
    have hmem2 : (⟨dm, n, dm, tm⟩ : RQ) ∈ q :: rest := hperm.subset hmem
    rcases List.mem_cons.mp hmem2 with he | he
    · exfalso
      have : n = q.node := by rw [← he]
      exact hnq this
    · exact he

/-- The reachability loop preserves the invariant under the DISTANCE
strategy. -/
theorem rLoop_inv (maxd : Option ℚ) (allowed : List String)
    (edges : List GraphEdge) (o : ℤ) :
    ∀ (fuel : ℕ) (s : RState), RInvD allowed edges o s →
    RInvD allowed edges o
      (rLoop maxd .distance allowed edges fuel s) := by
  intro fuel
  induction fuel with
  | zero =>
    intro s h
    exact h
  | succ n ih =>
    intro s h
    cases hpop : popMinBy rqLe s.heap with
    | none =>
      rw [rLoop_pop_none _ _ _ _ _ _ hpop]
      exact h
    | some pr =>
      obtain ⟨q, rest⟩ := pr
      by_cases hq : q.node ∈ s.processed
      · rw [rLoop_skip _ _ _ _ _ _ _ _ hpop hq]
        exact ih _ (rPop_skip allowed edges o s h q rest hpop hq)
      · obtain ⟨h1, hd, ht⟩ := rPop_process allowed edges o s h q rest
          hpop hq
        cases hbud : (match maxd with
                      | some m => decide (m < q.dist)
                      | none => false) with
        | true =>
          rw [rLoop_budget _ _ _ _ _ _ _ _ hpop hq hbud]
          exact ih _ h1
        | false =>
          rw [rLoop_relax _ _ _ _ _ _ _ _ hpop hq hbud]
          refine ih _ (rRelax_preserves allowed edges o q.node q.dist
            q.time _ _ h1 ?_ hd ht (fun x hx => hx))
          exact List.mem_append_right _ (List.mem_singleton.mpr rfl)

/-- The pre-loop state satisfies the invariant. -/
theorem rInit_inv (allowed : List String) (edges : List GraphEdge)
    (o : ℤ) :
    RInvD allowed edges o
      { heap := [⟨0, o, 0, 0⟩],
        distances := updZ (fun _ => none) o 0,
        times := updZ (fun _ => none) o 0,
        parents := updZ (fun _ => none) o none,
        dkeys := [o],
        processed := [] } := by
  refine ⟨?_, ?_, ?_, ?_, ?_, ?_, ?_, ?_, ?_, ?_, ?_, ?_, ?_, ?_⟩
  all_goals simp only []
  · intro n
    trivial
  · intro n
    by_cases hn : n = o
    · subst hn
      rw [updZ_same, updZ_same]
      rfl
    · rw [updZ_other _ _ _ _ hn, updZ_other _ _ _ _ hn]
      rfl
  · intro n
    by_cases hn : n = o
    · subst hn
      rw [updZ_same]
      simp
    · rw [updZ_other _ _ _ _ hn]
      simp [hn]
  · intro n hn
    cases hn
  · rw [updZ_same]
  · rw [updZ_same]
  · rw [updZ_same]
  · intro h
    exact absurd rfl h
  · intro _ x hx
    rcases List.mem_singleton.mp hx with rfl
    rfl
  · intro n hn
    by_cases hne : n = o
    · exact hne
    · rw [updZ_other _ _ _ _ hne] at hn
      cases hn
  · intro n u hn
    by_cases hne : n = o
    · subst hne
      rw [updZ_same] at hn
      injection hn with h1
      cases h1
    · rw [updZ_other _ _ _ _ hne] at hn
      cases hn
  · intro x hx
    rcases List.mem_singleton.mp hx with rfl
    rfl
  · intro x hx
    rcases List.mem_singleton.mp hx with rfl
    refine ⟨0, by rw [updZ_same], le_refl _, ?_⟩
    intro _
    rw [updZ_same]
  · intro n hn _
    by_cases hne : n = o
    · subst hne
      refine ⟨0, 0, by rw [updZ_same], by rw [updZ_same], ?_⟩
      exact List.mem_singleton.mpr rfl
    · rw [updZ_other _ _ _ _ hne] at hn
      cases hn

theorem rwalk_link (parents : ℤ → Option (Option ℤ)) (k : ℕ) (c u : ℤ)
    (h : parents c = some (some u)) :
    rwalk parents (k + 1) c = c :: rwalk parents k u := by
  conv_lhs => rw [rwalk]
  rw [h]

theorem rwalk_root (parents : ℤ → Option (Option ℤ)) (k : ℕ) (c : ℤ)
    (h : parents c = some none) :
    rwalk parents (k + 1) c = [c] := by
  conv_lhs => rw [rwalk]
  rw [h]

/-- From any invariant state, every reached node's recorded distance and
time are realised by the parent walk, which is a genuine undirected
mode-permitted chain from the origin (strong induction on the processing
index, which strictly decreases along parent links). -/
theorem chain_of_state (allowed : List String) (edges : List GraphEdge)
    (o : ℤ) (s : RState) (hinv : RInvD allowed edges o s) :
    ∀ (k : ℕ) (n : ℤ) (dn tn : ℚ), s.distances n = some dn →
    s.times n = some tn → procIdx s.processed n < k →
    RChain allowed edges o n ((rwalk s.parents k n).reverse) dn tn := by
  intro k
  induction k with
  | zero =>
    intro n dn tn _ _ h
    omega
  | succ k ih =>
    intro n dn tn hdn htn hk
    by_cases hno : n = o
    · subst hno
      rw [hinv.origin_d] at hdn
      injection hdn with h1
      rw [hinv.origin_t] at htn
      injection htn with h2
      rw [rwalk_root _ _ _ hinv.origin_p]
      rw [← h1, ← h2]
      exact RChain.nil n
    · have hps : (s.parents n).isSome = true := by
        rw [hinv.keys_p, hdn]
        rfl
      cases hp : s.parents n with
      | none =>
        rw [hp] at hps
        cases hps
      | some po =>
        cases po with
        | none => exact absurd (hinv.parent_none n hp) hno
        | some u =>
          obtain ⟨hu, hidx, du, tu, d, t, hdu, htu, hadj, hdn2, htn2⟩ :=
            hinv.parent_link n u hp
          have hdneq : dn = du + d := by
            rw [hdn] at hdn2
            injection hdn2
          have htneq : tn = tu + t := by
            rw [htn] at htn2
            injection htn2
          have hku : procIdx s.processed u < k := by
            have := Nat.lt_succ_iff.mp hk
            omega
          rw [rwalk_link _ _ _ _ hp, List.reverse_cons, hdneq, htneq]
          exact RChain.step (ih u du tu hdu htu hku) hadj

/-- Every entry of the result mapping built from an invariant state is a
genuine chain with matching totals. -/
theorem creach_entry_chain (allowed : List String)
    (edges : List GraphEdge) (o : ℤ) (S : RState)
    (hinv : RInvD allowed edges o S) (n : ℤ) (info : RNodeInfo)
    (hmem : (n, info) ∈ S.dkeys.map (fun m =>
      if m = o then (m, ⟨0, 0, [o]⟩)
      else (m, ⟨(S.distances m).getD 0, (S.times m).getD 0,
        (rwalk S.parents (S.processed.length + 1) m).reverse⟩))) :
    RChain allowed edges o n info.path info.distance info.time := by
  obtain ⟨m, hm, heq⟩ := List.mem_map.mp hmem
  by_cases hmo : m = o
  · rw [if_pos hmo] at heq
    injection heq with h1 h2
    subst h1
    subst h2
    show RChain allowed edges o m [o] 0 0
    rw [hmo]
    exact RChain.nil o
  · rw [if_neg hmo] at heq
    injection heq with h1 h2
    subst h1
    subst h2
    have hsome : (S.distances m).isSome = true := (hinv.keys_k m).mp hm
    obtain ⟨dm, hdm⟩ := Option.isSome_iff_exists.mp hsome
    have htsome : (S.times m).isSome = true := by
      rw [hinv.keys_t]
      exact hsome
    obtain ⟨tm, htm⟩ := Option.isSome_iff_exists.mp htsome
    show RChain allowed edges o m
      ((rwalk S.parents (S.processed.length + 1) m).reverse)
      ((S.distances m).getD 0) ((S.times m).getD 0)
    rw [hdm, htm, Option.getD_some, Option.getD_some]
    exact chain_of_state allowed edges o S hinv (S.processed.length + 1)
      m dm tm hdm htm (Nat.lt_succ_of_le (procIdx_le_length _ _))

/-- Any entry of `compute_reachable_nodes` under the DISTANCE strategy is
a genuine chain with matching totals. -/
theorem creach_chain (edges : List GraphEdge) (o : ℤ) (maxd : Option ℚ)
    (allowed : List String) (n : ℤ) (info : RNodeInfo)
    (hmem : (n, info) ∈
      compute_reachable_nodes edges o maxd .distance allowed) :
    RChain allowed edges o n info.path info.distance info.time := by
  unfold compute_reachable_nodes at hmem
  by_cases hedges : edges = []
  · rw [if_pos hedges] at hmem
    exact absurd hmem (List.not_mem_nil _)
  · rw [if_neg hedges] at hmem
    simp only [] at hmem
    exact creach_entry_chain allowed edges o _
      (rLoop_inv maxd allowed edges o _ _ (rInit_inv allowed edges o))
      n info hmem

/-- The minutes conversion: a database edge's reachability travel time is
sixty times the travel time of its converted algorithm edge, i.e. the
reachability solver and the single-pair solver measure the same hop in
different units. -/
theorem time_minutes_conversion :
    ∀ (e : GraphEdge), ∀ ae ∈ toAlgorithmEdges [e],
      GraphEdge.time_minutes e = 60 * Edge.travel_time ae := by
  intro e ae hae
  simp only [toAlgorithmEdges, List.map_cons, List.map_nil] at hae
  rcases List.mem_singleton.mp hae with rfl
  show e.distance / (e.ideal_speed * e.congestion / 60) =
    60 * (e.distance / (e.ideal_speed * e.congestion))
  rw [div_div_eq_mul_div, mul_comm e.distance 60, mul_div_assoc]

/-- C3 (amended): the single-pair agreement fails (the reachability graph
is bidirectional while `shortest_path` is directed, and reachability
times are in minutes, sixty times the single-pair unit); what holds is
internal consistency: under the DISTANCE strategy, every node of the
mapping returned by `compute_reachable_nodes` is connected to the origin
by the undirected mode-permitted chain recorded as its path, whose summed
hop distances and hop times (in minutes) are exactly the recorded
distance and time, each hop time being sixty times the travel time the
single-pair solver assigns the converted edge. -/
theorem C3_reachability_internal_consistency (edges : List GraphEdge)
    (o : ℤ) (maxd : Option ℚ) (allowed : List String) (n : ℤ)
    (info : RNodeInfo)
    (hmem : (n, info) ∈
      compute_reachable_nodes edges o maxd .distance allowed) :
    RChain allowed edges o n info.path info.distance info.time ∧
    ∀ (e : GraphEdge), ∀ ae ∈ toAlgorithmEdges [e],
      GraphEdge.time_minutes e = 60 * Edge.travel_time ae :=
  ⟨creach_chain edges o maxd allowed n info hmem,
    time_minutes_conversion⟩

/-- A reachability edge pointing INTO the origin region: 2 → 1. -/
def redges1 : List GraphEdge := [⟨2, 1, 100, 1, 1, ["walk"]⟩]

/-- The same edge in the forward direction: 1 → 2. -/
def redges2 : List GraphEdge := [⟨1, 2, 100, 1, 1, ["walk"]⟩]

unseal Rat.mul Rat.inv Rat.add Rat.sub in
/-- Witness for C3 on the reversed single-edge graph. -/
theorem C3_reachability_internal_consistency_witness :
    RChain ["walk"] redges1 1 2 [1, 2] 100 6000 ∧
    ∀ (e : GraphEdge), ∀ ae ∈ toAlgorithmEdges [e],
      GraphEdge.time_minutes e = 60 * Edge.travel_time ae :=
  C3_reachability_internal_consistency redges1 1 none ["walk"] 2
    ⟨100, 6000, [1, 2]⟩ (by decide)

unseal Rat.mul Rat.inv Rat.add Rat.sub in
/-- Counterexample to C3 as stated: on the reversed single-edge graph the
reachability mapping contains node 2, but the single-pair solver on the
converted edges fails outright between the same endpoints (so no
distance/time agreement is possible); and on the forward single-edge
graph both succeed but the reachability time is 6000 minutes against the
single-pair solver's 100 time units. -/
theorem C3_counterexample :
    ((2, RNodeInfo.mk 100 6000 [1, 2]) ∈
        compute_reachable_nodes redges1 1 none .distance ["walk"] ∧
      shortest_path (toAlgorithmEdges redges1) "1" "2" (some ["walk"])
        .distance = .error (.noPath "1" "2")) ∧
    ((2, RNodeInfo.mk 100 6000 [1, 2]) ∈
        compute_reachable_nodes redges2 1 none .distance ["walk"] ∧
      shortest_path (toAlgorithmEdges redges2) "1" "2" (some ["walk"])
        .distance = .ok
          { nodes := ["1", "2"],
            segments := [{ source := "1", target := "2",
                           transport_mode := "walk",
                           distance := 100, time := 100 }],
            total_distance := 100, total_time := 100 } ∧
      (6000 : ℚ) ≠ 100) := by
  refine ⟨⟨by decide, by decide⟩, by decide, by decide, by decide⟩

/-- The two-edge chain of Scenario E: node 1 --100--> node 2 --120-->
node 3. -/
def chain5 : List GraphEdge :=
  [⟨1, 2, 100, 1, 1, ["walk"]⟩, ⟨2, 3, 120, 1, 1, ["walk"]⟩]

unseal Rat.mul Rat.inv Rat.add Rat.sub in
/-- Counterexample to C5 as stated: with max_distance = 150 over the
100 + 120 chain, the second node IS in the returned mapping, at
cumulative distance 220 > 150 (the budget check only suppresses
expansion of a popped node, after the node has already been recorded by
relaxation). -/
theorem C5_counterexample :
    (3, RNodeInfo.mk 220 13200 [1, 2, 3]) ∈
      compute_reachable_nodes chain5 1 (some 150) .distance ["walk"] ∧
    ¬ (220 : ℚ) ≤ 150 := by
  refine ⟨by decide, by decide⟩

unseal Rat.mul Rat.inv Rat.add Rat.sub in
/-- C5 (amended): with max_distance = 150 over the 100 + 120 chain the
mapping contains the first hop's node at cumulative distance 100 AND the
second node at cumulative distance 220: the max_distance budget bounds
expansion from a popped node, not membership in the result, so a node
relaxed from within the budget ring is returned even though its own
cumulative distance exceeds the budget. -/
theorem C5_budget_bounds_expansion_not_membership :
    compute_reachable_nodes chain5 1 (some 150) .distance ["walk"] =
      [(1, ⟨0, 0, [1]⟩), (2, ⟨100, 6000, [1, 2]⟩),
       (3, ⟨220, 13200, [1, 2, 3]⟩)] := by
  decide

end Travel
